import Mathlib

/-!
Verification development for the path-planning engine
(solution_stage1.py, solution_stage2.py, solution_stage3.py and the
enemy geometry predicates).

Modelling conventions.

The networkx graphs are modelled as a node list plus an edge list whose
entries carry an attribute.  nx.add_node is a no-op on an existing node;
nx.add_edge overwrites the attribute of an existing ordered pair, which the
model mirrors by filtering out the old entry before appending the new one.
The undirected graph of stage 1 is modelled by inserting both directed
edges of every added edge.

Floating point numbers are modelled as rationals, Python floor division and
the float modulo operation as Int.floor based operations on rationals.

Coordinate lives in utils/coordinate.py, which is not part of the sources;
following the specification it is treated as an opaque node type N with a
distance function (a parameter, nonnegative where Euclidean facts are
needed) and, for the directional detector geometry, as a pair of reals with
distance and bearing modelled from the specification.  The string encoding
of layered nodes, which the specification describes as a canonical
round-trip form, is modelled by the pair of the node and its layer value.

The shapely geometric predicates used by the enemy classes are external
library calls; for the graph-construction claims each enemy is modelled by
the tagged variant the code dispatches on, carrying its legality test as a
Boolean function, exactly the interface the Enemy base class fixes.  The
directional detector geometry itself is modelled concretely over the reals
for the claim about Radar.is_legal_leg.

nx.shortest_path is an external library call as well; it is modelled by its
contract: among all simple source-target paths return one of minimal total
weight, and raise (return none) exactly when no path exists.
-/

universe u v

/-- Model of a networkx graph: insertion-ordered node list and edge list.
An edge entry is (src, dst, attribute). -/
structure Graph (N : Type u) (A : Type v) where
  nodes : List N
  edges : List (N × N × A)

namespace Graph

variable {N : Type u} {A : Type v} [DecidableEq N]

def empty : Graph N A := ⟨[], []⟩

/-- nx.add_node: appends the node unless it is already present. -/
def addNode (g : Graph N A) (n : N) : Graph N A :=
  if n ∈ g.nodes then g else ⟨g.nodes ++ [n], g.edges⟩

/-- nx.add_nodes_from. -/
def addNodesFrom (g : Graph N A) (l : List N) : Graph N A :=
  l.foldl addNode g

/-- The ordered pair identifying an edge entry. -/
def edgeKey (e : N × N × A) : N × N := (e.1, e.2.1)

/-- nx.add_edge: endpoints are added as nodes, a previous attribute of the
same ordered pair is overwritten. -/
def addEdge (g : Graph N A) (u v : N) (a : A) : Graph N A :=
  ⟨((g.addNode u).addNode v).nodes,
   g.edges.filter (fun e => decide (edgeKey e ≠ (u, v))) ++ [(u, v, a)]⟩

/-- A sequence of nx.add_edge calls. -/
def addEdges (g : Graph N A) (l : List (N × N × A)) : Graph N A :=
  l.foldl (fun h e => h.addEdge e.1 e.2.1 e.2.2) g

/-- Attribute of the edge u -> v, if present. -/
def attr? (g : Graph N A) (u v : N) : Option A :=
  (g.edges.find? (fun e => decide (edgeKey e = (u, v)))).map (fun e => e.2.2)

def hasEdge (g : Graph N A) (u v : N) : Bool := (g.attr? u v).isSome

/-- Successors of a node, following directed edges. -/
def succL (g : Graph N A) (u : N) : List N :=
  g.edges.filterMap (fun e => if e.1 = u then some e.2.1 else none)

end Graph

/-- Consecutive pairs of a list: the legs of a path. -/
def legs {N : Type u} : List N → List (N × N)
  | a :: b :: r => (a, b) :: legs (b :: r)
  | _ => []

namespace Graph

variable {N : Type u} {A : Type v} [DecidableEq N]

/-- Every leg of the list is an edge of the graph. -/
def IsWalk (g : Graph N A) (p : List N) : Prop :=
  ∀ l ∈ legs p, (g.attr? l.1 l.2).isSome = true

/-- Weight of the edge u -> v under the weight projection w (0 if absent,
only ever used on walks). -/
def weightOf (w : A → ℚ) (g : Graph N A) (u v : N) : ℚ :=
  match g.attr? u v with
  | some a => w a
  | none => 0

/-- Total weight of a path. -/
def pathLength (w : A → ℚ) (g : Graph N A) (p : List N) : ℚ :=
  ((legs p).map (fun l => weightOf w g l.1 l.2)).sum

/-- All simple paths from u to t avoiding the visited list, with enough
fuel.  Model of the path space nx.shortest_path minimises over. -/
def simplePathsTo (g : Graph N A) (t : N) : Nat → N → List N → List (List N)
  | 0, _, _ => []
  | fuel + 1, u, visited =>
      if u = t then [[u]]
      else
        (g.succL u).flatMap (fun v =>
          if v ∈ u :: visited then []
          else (simplePathsTo g t fuel v (u :: visited)).map (fun p => u :: p))

/-- First element of minimal path length among the candidates. -/
def pickMin (w : A → ℚ) (g : Graph N A) (l : List (List N)) : Option (List N) :=
  l.foldl (fun best p =>
    match best with
    | none => some p
    | some b => if pathLength w g p < pathLength w g b then some p else some b) none

/-- Model of nx.shortest_path with the given weight attribute: a minimal
weight simple path from s to t, none when no path exists (the
NetworkXNoPath case). -/
def shortest_path (w : A → ℚ) (g : Graph N A) (s t : N) : Option (List N) :=
  pickMin w g (simplePathsTo g t g.nodes.length s [])

end Graph

/-- The enemy hierarchy (enemy.py and its three concrete classes) as the
tagged variant the stage code dispatches on with isinstance.  The shapely
backed geometric predicate is_legal_leg of each class is carried as a
Boolean function; the asteroid zone additionally exposes its boundary
corners and the circular threats their polygonal boundary approximation,
the radar also membership in its circle (used by the stage-2 sampler). -/
inductive Enemy (N : Type u) where
  | asteroids (boundary : List N) (legal : N → N → Bool)
  | post (approx : List N) (legal : N → N → Bool)
  | radar (approx : List N) (inCircle : N → Bool) (legal : N → N → Bool)

namespace Enemy

variable {N : Type u}

def is_legal_leg : Enemy N → N → N → Bool
  | .asteroids _ f, a, b => f a b
  | .post _ f, a, b => f a b
  | .radar _ _ f, a, b => f a b

def isRadar : Enemy N → Bool
  | .radar _ _ _ => true
  | _ => false

/-- Membership in the circle attribute of a radar (radar.circle); false for
the other enemy kinds, which have no circle attribute. -/
def circleContains : Enemy N → N → Bool
  | .radar _ inC _, c => inC c
  | _, _ => false

end Enemy

/-- itertools.combinations over a list, pairs in iteration order. -/
def combinations {N : Type u} : List N → List (N × N)
  | [] => []
  | x :: xs => xs.map (fun y => (x, y)) ++ combinations xs

namespace Stage1

variable {N : Type u} [DecidableEq N]

/-- solution_stage1.add_enemies_to_graph: asteroid corners and observation
post approximations become nodes (stage 1 has no radar case). -/
def add_enemies_to_graph (g : Graph N ℚ) (enemies : List (Enemy N)) : Graph N ℚ :=
  enemies.foldl (fun h e =>
    match e with
    | .asteroids boundary _ => h.addNodesFrom boundary
    | .post approx _ => h.addNodesFrom approx
    | .radar _ _ _ => h) g

/-- solution_stage1.is_legal_leg: legal for every enemy. -/
def is_legal_leg (enemies : List (Enemy N)) (a b : N) : Bool :=
  enemies.all (fun e => e.is_legal_leg a b)

/-- The graph seeded with source, target and the enemy nodes. -/
def seedGraph (s t : N) (enemies : List (Enemy N)) : Graph N ℚ :=
  add_enemies_to_graph ((Graph.empty.addNode s).addNode t) enemies

/-- The pair loop of stage 1: for every combination of nodes, if the leg is
legal, add the edge; the graph is undirected, modelled by both directed
edges. -/
def connectLoop (dist : N → N → ℚ) (enemies : List (Enemy N)) (g : Graph N ℚ) :
    Graph N ℚ :=
  g.addEdges ((combinations g.nodes).flatMap (fun pr =>
    if is_legal_leg enemies pr.1 pr.2 then
      [(pr.1, pr.2, dist pr.1 pr.2), (pr.2, pr.1, dist pr.1 pr.2)]
    else []))

/-- solution_stage1.calculate_path: build the visibility graph, compute the
shortest path, return the empty path when none exists. -/
def calculate_path (dist : N → N → ℚ) (source target : N)
    (enemies : List (Enemy N)) : List N × Graph N ℚ :=
  let g := connectLoop dist enemies (seedGraph source target enemies)
  (match Graph.shortest_path id g source target with
   | some p => p
   | none => [], g)

end Stage1

namespace Stage2

variable {N : Type u} [DecidableEq N]

/-- solution_stage2.add_enemies_to_graph: as in stage 1, but radar
approximations are seeded as well. -/
def add_enemies_to_graph (g : Graph N ℚ) (enemies : List (Enemy N)) : Graph N ℚ :=
  enemies.foldl (fun h e =>
    match e with
    | .asteroids boundary _ => h.addNodesFrom boundary
    | .post approx _ => h.addNodesFrom approx
    | .radar approx _ _ => h.addNodesFrom approx) g

def is_legal_leg (enemies : List (Enemy N)) (a b : N) : Bool :=
  enemies.all (fun e => e.is_legal_leg a b)

def seedGraph (s t : N) (enemies : List (Enemy N)) : Graph N ℚ :=
  add_enemies_to_graph ((Graph.empty.addNode s).addNode t) enemies

/-- The pair loop of stage 2 (lines 138-144): for every combination of
nodes, one legality test, and on success both directed edges. -/
def connectLoop (dist : N → N → ℚ) (enemies : List (Enemy N)) (g : Graph N ℚ) :
    Graph N ℚ :=
  g.addEdges ((combinations g.nodes).flatMap (fun pr =>
    if is_legal_leg enemies pr.1 pr.2 then
      [(pr.1, pr.2, dist pr.1 pr.2), (pr.2, pr.1, dist pr.1 pr.2)]
    else []))

/-- solution_stage2.sample_in_polygon: rejection sampling.  The random
draws are injected as a stream; the first draw the polygon contains is
returned together with the unconsumed stream.  none models the case where
the stream is exhausted (the code would loop forever). -/
def sample_in_polygon (contains : N → Bool) : List N → Option (N × List N)
  | [] => none
  | d :: rest => if contains d then some (d, rest) else sample_in_polygon contains rest

/-- n successive calls of sample_in_polygon on the stream. -/
def sampleMany (contains : N → Bool) : Nat → List N → List N × List N
  | 0, st => ([], st)
  | n + 1, st =>
      match sample_in_polygon contains st with
      | none => ([], st)
      | some (c, st') =>
          let r := sampleMany contains n st'
          (c :: r.1, r.2)

/-- The new_nodes list of add_nodes_inside_radars: samples_per_radar draws
inside the circle of each radar, in radar order. -/
def gatherNewNodes (radars : List (Enemy N)) (spr : Nat) (st : List N) : List N :=
  match radars with
  | [] => []
  | r :: rs =>
      let pr := sampleMany (r.circleContains) spr st
      pr.1 ++ gatherNewNodes rs spr pr.2

/-- Connection of one sampled node (stage-2 body): every existing node
within radius 5, each direction added exactly when its own full legality
test passes. -/
def samplerStep (dist : N → N → ℚ) (enemies : List (Enemy N))
    (g : Graph N ℚ) (node : N) : Graph N ℚ :=
  let g1 := g.addNode node
  g1.nodes.foldl (fun h other =>
    if other = node ∨ dist node other > 5 then h
    else
      let d := dist node other
      let h1 := if is_legal_leg enemies other node then h.addEdge other node d else h
      if is_legal_leg enemies node other then h1.addEdge node other d else h1) g1

/-- solution_stage2.add_nodes_inside_radars. -/
def add_nodes_inside_radars (dist : N → N → ℚ) (g : Graph N ℚ)
    (enemies : List (Enemy N)) (draws : List N) : Graph N ℚ :=
  let radars := enemies.filter Enemy.isRadar
  if radars.length = 0 then g
  else (gatherNewNodes radars (2000 / radars.length) draws).foldl
    (samplerStep dist enemies) g

/-- solution_stage2.calculate_path. -/
def calculate_path (dist : N → N → ℚ) (source target : N)
    (enemies : List (Enemy N)) (draws : List N) : List N × Graph N ℚ :=
  let g := add_nodes_inside_radars dist
    (connectLoop dist enemies (seedGraph source target enemies)) enemies draws
  (match Graph.shortest_path id g source target with
   | some p => p
   | none => [], g)

end Stage2

/-- Python float floor division a // b for rationals. -/
def floorDiv (a b : ℚ) : ℚ := (⌊a / b⌋ : ℤ)

/-- Python float modulo a % b for rationals (b positive in all uses). -/
def floatMod (a b : ℚ) : ℚ := a - b * (⌊a / b⌋ : ℤ)

/-- The layer values 0, q, 2q, ... produced by a loop that starts at 0,
runs while the value is at most the bound, and steps by q; equally the
list quanta * i for i in range(int(bound // quanta) + 1) of
build_layers_graph (for a negative bound the Python range is empty,
modelled by the toNat clamp). -/
def qMultiples (bound q : ℚ) : List ℚ :=
  (List.range (Int.toNat (⌊bound / q⌋ + 1))).map (fun (i : ℕ) => q * (i : ℚ))

namespace Stage3

variable {N : Type u} [DecidableEq N]

def add_enemies_to_graph (g : Graph N (ℚ × Bool)) (enemies : List (Enemy N)) :
    Graph N (ℚ × Bool) :=
  enemies.foldl (fun h e =>
    match e with
    | .asteroids boundary _ => h.addNodesFrom boundary
    | .post approx _ => h.addNodesFrom approx
    | .radar approx _ _ => h.addNodesFrom approx) g

def is_legal_leg (enemies : List (Enemy N)) (a b : N) : Bool :=
  enemies.all (fun e => e.is_legal_leg a b)

/-- solution_stage3.is_leg_legal_only_no_entrances: legality against the
enemies that are not radars. -/
def is_leg_legal_only_no_entrances (enemies : List (Enemy N)) (a b : N) : Bool :=
  (enemies.filter (fun e => !e.isRadar)).all (fun e => e.is_legal_leg a b)

/-- solution_stage3.is_leg_legal_only_radars. -/
def is_leg_legal_only_radars (enemies : List (Enemy N)) (a b : N) : Bool :=
  (enemies.filter Enemy.isRadar).all (fun e => e.is_legal_leg a b)

def seedGraph (s t : N) (enemies : List (Enemy N)) : Graph N (ℚ × Bool) :=
  add_enemies_to_graph ((Graph.empty.addNode s).addNode t) enemies

/-- The pair loop of stage 3 (lines 285-294): one legality test per
combination, on success both directed edges with detected=False. -/
def connectLoop (dist : N → N → ℚ) (enemies : List (Enemy N))
    (g : Graph N (ℚ × Bool)) : Graph N (ℚ × Bool) :=
  g.addEdges ((combinations g.nodes).flatMap (fun pr =>
    if is_legal_leg enemies pr.1 pr.2 then
      [(pr.1, pr.2, (dist pr.1 pr.2, false)), (pr.2, pr.1, (dist pr.1 pr.2, false))]
    else []))

/-- Connection of one sampled node (stage-3 body): skip legs crossing a
no-entrance, connect both directions with the direction's own detected
flag. -/
def samplerStep (dist : N → N → ℚ) (enemies : List (Enemy N))
    (g : Graph N (ℚ × Bool)) (node : N) : Graph N (ℚ × Bool) :=
  let g1 := g.addNode node
  g1.nodes.foldl (fun h other =>
    if other = node ∨ dist node other > 5 then h
    else if !is_leg_legal_only_no_entrances enemies node other then h
    else
      let d := dist node other
      (h.addEdge other node (d, !is_leg_legal_only_radars enemies other node)).addEdge
        node other (d, !is_leg_legal_only_radars enemies node other)) g1

/-- solution_stage3.add_nodes_inside_radars (sampling as in stage 2). -/
def add_nodes_inside_radars (dist : N → N → ℚ) (g : Graph N (ℚ × Bool))
    (enemies : List (Enemy N)) (draws : List N) : Graph N (ℚ × Bool) :=
  let radars := enemies.filter Enemy.isRadar
  if radars.length = 0 then g
  else (Stage2.gatherNewNodes radars (2000 / radars.length) draws).foldl
    (samplerStep dist enemies) g

/-- The edge detection of add_detected_edge: the distance, rounded up to
the next multiple of the quantum when it is not already one. -/
def edgeDetection (d quanta : ℚ) : ℚ :=
  if floatMod d quanta > 0 then (floorDiv d quanta + 1) * quanta else d

/-- solution_stage3.add_legal_edge: the non-detected edge replicated inside
every layer, as the list of layered edge insertions its while loop makes. -/
def add_legal_edge (max_detection quanta : ℚ) (start e : N) (d : ℚ) :
    List ((N × ℚ) × (N × ℚ) × ℚ) :=
  (qMultiples max_detection quanta).map (fun L => ((start, L), (e, L), d))

/-- solution_stage3.add_detected_edge: the detected edge as a jump from
layer L to layer L + detection, for every L with L + detection within the
budget. -/
def add_detected_edge (max_detection quanta : ℚ) (start e : N) (d : ℚ) :
    List ((N × ℚ) × (N × ℚ) × ℚ) :=
  let detection := edgeDetection d quanta
  (qMultiples (max_detection - detection) quanta).map
    (fun L => ((start, L), (e, L + detection), d))

/-- solution_stage3.add_target_edges: zero-cost edges between the target
copies of consecutive layers. -/
def add_target_edges (layers : List ℚ) (target : N) :
    List ((N × ℚ) × (N × ℚ) × ℚ) :=
  (layers.zip layers.tail).map (fun pr => ((target, pr.1), (target, pr.2), (0 : ℚ)))

/-- The layered copies one base edge contributes, by its detected flag. -/
def edgeCopies (max_detection quanta : ℚ) (e : N × N × ℚ × Bool) :
    List ((N × ℚ) × (N × ℚ) × ℚ) :=
  if e.2.2.2 then add_detected_edge max_detection quanta e.1 e.2.1 e.2.2.1
  else add_legal_edge max_detection quanta e.1 e.2.1 e.2.2.1

/-- solution_stage3.build_layers_graph: nodes replicated per layer, every
base edge added as its layered copies, then the target chain; returns the
layered graph, the layered source and the layered target. -/
def build_layers_graph (dist : N → N → ℚ) (g : Graph N (ℚ × Bool)) (source target : N)
    (max_detection_percentage quanta : ℚ) :
    Graph (N × ℚ) ℚ × (N × ℚ) × (N × ℚ) :=
  let max_detection := dist source target * max_detection_percentage
  let layers := qMultiples max_detection quanta
  let lg0 := layers.foldl
    (fun lg L => lg.addNodesFrom (g.nodes.map (fun n => (n, L)))) Graph.empty
  let lg1 := lg0.addEdges (g.edges.flatMap (edgeCopies max_detection quanta))
  let lg := lg1.addEdges (add_target_edges layers target)
  (lg, (source, 0), (target, layers.getLastD 0))

/-- The trailing-duplicate removal loop of retrieve_path_from_layered_path,
on the reversed list.  Python evaluates path[-1] == path[-2] before each
iteration; on a list with fewer than two elements path[-2] (for a singleton)
or path[-1] (for the empty list) raises IndexError, modelled by none. -/
def collapseRev : List N → Option (List N)
  | a :: b :: rest => if a = b then collapseRev (b :: rest) else some (a :: b :: rest)
  | _ => none

/-- solution_stage3.retrieve_path_from_layered_path: strip the layer from
every node (the string round-trip modelled by the pair projection), then
pop trailing duplicates of the target; none models the uncaught
IndexError. -/
def retrieve_path_from_layered_path (path : List (N × ℚ)) : Option (List N) :=
  match collapseRev ((path.map Prod.fst).reverse) with
  | none => none
  | some m => some m.reverse

/-- solution_stage3.calculate_path: base visibility graph, sampler, layered
graph, shortest path, decode.  The first component is none when the decode
raises, some [] when no path exists, some p otherwise; the second is the
base graph the function returns. -/
def calculate_path (dist : N → N → ℚ) (source target : N)
    (enemies : List (Enemy N)) (draws : List N) :
    Option (List N) × Graph N (ℚ × Bool) :=
  let g := add_nodes_inside_radars dist
    (connectLoop dist enemies (seedGraph source target enemies)) enemies draws
  let blg := build_layers_graph dist g source target (1/10) (1/2)
  (match Graph.shortest_path id blg.1 blg.2.1 blg.2.2 with
   | some lp => retrieve_path_from_layered_path lp
   | none => some [], g)

end Stage3

namespace Geometry

open Real

/-- Modelled from the spec: the Coordinate primitive of the missing
utils/coordinate.py, a planar point with 64-bit float fields, modelled over
the reals. -/
structure Coordinate where
  x : ℝ
  y : ℝ

/-- Modelled from the spec: Coordinate.distance_to of the missing
utils/coordinate.py, the Euclidean distance. -/
noncomputable def Coordinate.distance_to (a b : Coordinate) : ℝ :=
  Real.sqrt ((b.x - a.x) ^ 2 + (b.y - a.y) ^ 2)

/-- Modelled from the spec: Coordinate.direction_to of the missing
utils/coordinate.py, the bearing via atan2: the argument of the difference
vector read as a complex number. -/
noncomputable def Coordinate.direction_to (a b : Coordinate) : ℝ :=
  Complex.arg ⟨b.x - a.x, b.y - a.y⟩

/-- radar.py: a radar with its center and detection radius.  Its circle
attribute is the full, un-shrunk disc. -/
structure Radar where
  center : Coordinate
  radius : ℝ

/-- The point of the leg from s to e at parameter t. -/
def segPoint (s e : Coordinate) (t : ℝ) : Coordinate :=
  ⟨s.x + t * (e.x - s.x), s.y + t * (e.y - s.y)⟩

/-- Parameters of the leg lying inside the radar circle.  The shapely
expression LineString(...).intersection(self.circle) is the image of this
set under segPoint; the disc being convex, the set is an interval whose
endpoints shapely reports as the coords of the clipped sub-segment. -/
def paramSet (rad : Radar) (s e : Coordinate) : Set ℝ :=
  {t | t ∈ Set.Icc (0 : ℝ) 1 ∧ (segPoint s e t).distance_to rad.center ≤ rad.radius}

/-- Lower endpoint of the clipped parameter interval. -/
noncomputable def tLo (rad : Radar) (s e : Coordinate) : ℝ := sInf (paramSet rad s e)

/-- Upper endpoint of the clipped parameter interval. -/
noncomputable def tHi (rad : Radar) (s e : Coordinate) : ℝ := sSup (paramSet rad s e)

/-- The intersection of the leg with the radar circle, as a point set. -/
def interSet (rad : Radar) (s e : Coordinate) : Set Coordinate :=
  (fun t => segPoint s e t) '' paramSet rad s e

/-- Python float modulo over the reals (the modulus positive in all uses). -/
noncomputable def floatModR (x m : ℝ) : ℝ := x - m * (⌊x / m⌋ : ℤ)

/-- Radar._compute_direction_diff: the angular difference folded by
quadrant symmetry. -/
noncomputable def compute_direction_diff (direction1 direction2 : ℝ) : ℝ :=
  let angle_diff := floatModR (direction1 - direction2) (2 * π)
  if angle_diff ≤ π / 2 then angle_diff
  else if angle_diff ≤ π then π - angle_diff
  else if angle_diff ≤ 3 * π / 2 then angle_diff - π
  else 2 * π - angle_diff

/-- Radar.is_legal_leg: if the clipped sub-segment has zero length the leg
is legal; otherwise it is illegal exactly when, for one of the two
intersection endpoints, the folded difference between the travel bearing
and the bearing towards the center is below 45 degrees.  The shapely
length of the clipped sub-segment is the parameter interval length scaled
by the leg length. -/
noncomputable def Radar.is_legal_leg (rad : Radar) (s e : Coordinate) : Prop :=
  if (tHi rad s e - tLo rad s e) * s.distance_to e = 0 then True
  else
    let p0 := segPoint s e (tLo rad s e)
    let p1 := segPoint s e (tHi rad s e)
    let movement_direction := p0.direction_to p1
    ∀ p ∈ [p0, p1],
      ¬ compute_direction_diff movement_direction (p.direction_to rad.center) < π / 4

end Geometry

namespace Graph

variable {N : Type u} {A : Type v} [DecidableEq N]

/-- Every ordered pair occurs at most once in the edge list; nx.add_edge
maintains this by overwriting. -/
def KeysUnique (l : List (N × N × A)) : Prop := (l.map edgeKey).Nodup

/-- Edge endpoints are nodes; nx.add_edge maintains this by adding the
endpoints as nodes. -/
def EdgesInNodes (g : Graph N A) : Prop :=
  ∀ e ∈ g.edges, e.1 ∈ g.nodes ∧ e.2.1 ∈ g.nodes

end Graph

/-- Total length of the legs of a path whose edge in the base graph
carries detected=True. -/
def detectedLen {N : Type u} [DecidableEq N] (g : Graph N (ℚ × Bool)) (p : List N) : ℚ :=
  ((legs p).map (fun l =>
    match g.attr? l.1 l.2 with
    | some (d, true) => d
    | _ => 0)).sum

/-- The run of target copies from layer index i to layer index i + len,
used to ride the zero-cost target chain up to the last layer. -/
def chainPath {N : Type u} (t : N) (q : ℚ) (i len : ℕ) : List (N × ℚ) :=
  (List.range (len + 1)).map (fun (k : ℕ) => (t, q * ((i + k : ℕ) : ℚ)))

namespace Graph

variable {N : Type u} {A : Type v} [DecidableEq N]

theorem edges_addNode (g : Graph N A) (n : N) : (g.addNode n).edges = g.edges := by
  unfold addNode
  split <;> rfl

theorem mem_nodes_addNode_iff (g : Graph N A) (n x : N) :
    x ∈ (g.addNode n).nodes ↔ x ∈ g.nodes ∨ x = n := by
  unfold addNode
  split
  · rename_i h
    constructor
    · exact Or.inl
    · rintro (hx | rfl)
      · exact hx
      · exact h
  · simp

theorem nodup_nodes_addNode (g : Graph N A) (n : N) (h : g.nodes.Nodup) :
    (g.addNode n).nodes.Nodup := by
  unfold addNode
  split
  · exact h
  · rename_i hn
    rw [List.nodup_append]
    exact ⟨h, List.nodup_singleton n,
      fun x hx hxn => hn ((List.mem_singleton.1 hxn) ▸ hx)⟩

theorem edges_addNodesFrom (g : Graph N A) (l : List N) :
    (g.addNodesFrom l).edges = g.edges := by
  induction l generalizing g with
  | nil => rfl
  | cons a l ih =>
      show (Graph.addNodesFrom (g.addNode a) l).edges = g.edges
      rw [ih, edges_addNode]

theorem mem_nodes_addNodesFrom (g : Graph N A) (l : List N) (x : N) :
    x ∈ (g.addNodesFrom l).nodes ↔ x ∈ g.nodes ∨ x ∈ l := by
  induction l generalizing g with
  | nil => simp [addNodesFrom]
  | cons a l ih =>
      show x ∈ (Graph.addNodesFrom (g.addNode a) l).nodes ↔ _
      rw [ih, mem_nodes_addNode_iff]
      simp only [List.mem_cons]
      tauto

theorem nodup_nodes_addNodesFrom (g : Graph N A) (l : List N) (h : g.nodes.Nodup) :
    (g.addNodesFrom l).nodes.Nodup := by
  induction l generalizing g with
  | nil => exact h
  | cons a l ih => exact ih _ (nodup_nodes_addNode _ _ h)

theorem edges_addEdge (g : Graph N A) (u v : N) (a : A) :
    (g.addEdge u v a).edges =
      g.edges.filter (fun e => decide (edgeKey e ≠ (u, v))) ++ [(u, v, a)] := rfl

theorem mem_nodes_addEdge_iff (g : Graph N A) (u v : N) (a : A) (x : N) :
    x ∈ (g.addEdge u v a).nodes ↔ x ∈ g.nodes ∨ x = u ∨ x = v := by
  show x ∈ ((g.addNode u).addNode v).nodes ↔ _
  rw [mem_nodes_addNode_iff, mem_nodes_addNode_iff]
  tauto

theorem nodup_nodes_addEdge (g : Graph N A) (u v : N) (a : A) (h : g.nodes.Nodup) :
    (g.addEdge u v a).nodes.Nodup :=
  nodup_nodes_addNode _ _ (nodup_nodes_addNode _ _ h)

theorem mem_edges_addEdge_elim {g : Graph N A} {u v : N} {a : A}
    {e : N × N × A} (h : e ∈ (g.addEdge u v a).edges) :
    e ∈ g.edges ∨ e = (u, v, a) := by
  rw [edges_addEdge] at h
  rcases List.mem_append.1 h with h | h
  · exact Or.inl (List.mem_filter.1 h).1
  · exact Or.inr (by simpa using h)

theorem keysUnique_addEdge {g : Graph N A} (u v : N) (a : A)
    (h : KeysUnique g.edges) : KeysUnique (g.addEdge u v a).edges := by
  unfold KeysUnique at *
  rw [edges_addEdge, List.map_append]
  rw [List.nodup_append]
  refine ⟨(h.sublist ((List.filter_sublist _).map _)), by simp, ?_⟩
  intro k hk
  simp only [List.mem_map] at hk
  obtain ⟨e, he, rfl⟩ := hk
  have := (List.mem_filter.1 he).2
  simp only [decide_eq_true_eq] at this
  simpa using fun hkey => this hkey

theorem edgesInNodes_addNode (g : Graph N A) (n : N) (h : g.EdgesInNodes) :
    (g.addNode n).EdgesInNodes := by
  intro e he
  rw [edges_addNode] at he
  obtain ⟨h1, h2⟩ := h e he
  exact ⟨(mem_nodes_addNode_iff _ _ _).2 (Or.inl h1),
         (mem_nodes_addNode_iff _ _ _).2 (Or.inl h2)⟩

theorem edgesInNodes_addEdge (g : Graph N A) (u v : N) (a : A)
    (h : g.EdgesInNodes) : (g.addEdge u v a).EdgesInNodes := by
  intro e he
  rcases mem_edges_addEdge_elim he with he' | rfl
  · obtain ⟨h1, h2⟩ := h e he'
    exact ⟨(mem_nodes_addEdge_iff _ _ _ _ _).2 (Or.inl h1),
           (mem_nodes_addEdge_iff _ _ _ _ _).2 (Or.inl h2)⟩
  · exact ⟨(mem_nodes_addEdge_iff _ _ _ _ _).2 (Or.inr (Or.inl rfl)),
           (mem_nodes_addEdge_iff _ _ _ _ _).2 (Or.inr (Or.inr rfl))⟩

theorem mem_edges_addEdges_elim {g : Graph N A} {l : List (N × N × A)}
    {e : N × N × A} (h : e ∈ (g.addEdges l).edges) : e ∈ g.edges ∨ e ∈ l := by
  induction l generalizing g with
  | nil => exact Or.inl h
  | cons a l ih =>
      rcases ih h with h' | h'
      · rcases mem_edges_addEdge_elim h' with h'' | h''
        · exact Or.inl h''
        · exact Or.inr (by simp [h''])
      · exact Or.inr (List.mem_cons_of_mem _ h')

theorem keysUnique_addEdges {g : Graph N A} (l : List (N × N × A))
    (h : KeysUnique g.edges) : KeysUnique (g.addEdges l).edges := by
  induction l generalizing g with
  | nil => exact h
  | cons a l ih => exact ih (keysUnique_addEdge _ _ _ h)

theorem edgesInNodes_addEdges {g : Graph N A} (l : List (N × N × A))
    (h : g.EdgesInNodes) : (g.addEdges l).EdgesInNodes := by
  induction l generalizing g with
  | nil => exact h
  | cons a l ih => exact ih (edgesInNodes_addEdge _ _ _ _ h)

theorem nodup_nodes_addEdges {g : Graph N A} (l : List (N × N × A))
    (h : g.nodes.Nodup) : (g.addEdges l).nodes.Nodup := by
  induction l generalizing g with
  | nil => exact h
  | cons a l ih => exact ih (nodup_nodes_addEdge _ _ _ _ h)

theorem mem_nodes_addEdges {g : Graph N A} (l : List (N × N × A)) (x : N)
    (h : x ∈ g.nodes) : x ∈ (g.addEdges l).nodes := by
  induction l generalizing g with
  | nil => exact h
  | cons a l ih =>
      exact ih ((mem_nodes_addEdge_iff _ _ _ _ _).2 (Or.inl h))

theorem mem_nodes_addEdges_elim {g : Graph N A} {l : List (N × N × A)} {x : N}
    (h : x ∈ (g.addEdges l).nodes) :
    x ∈ g.nodes ∨ ∃ e ∈ l, x = e.1 ∨ x = e.2.1 := by
  induction l generalizing g with
  | nil => exact Or.inl h
  | cons a l ih =>
      rcases ih h with h' | ⟨e, he, hx⟩
      · rcases (mem_nodes_addEdge_iff _ _ _ _ _).1 h' with h'' | h''
        · exact Or.inl h''
        · exact Or.inr ⟨a, by simp, h''⟩
      · exact Or.inr ⟨e, List.mem_cons_of_mem _ he, hx⟩

end Graph

namespace Graph

variable {N : Type u} {A : Type v} [DecidableEq N]

theorem eq_of_keysUnique {l : List (N × N × A)} (h : KeysUnique l)
    {e e' : N × N × A} (he : e ∈ l) (he' : e' ∈ l)
    (hk : edgeKey e = edgeKey e') : e = e' := by
  induction l with
  | nil => cases he
  | cons a t ih =>
      unfold KeysUnique at h
      rw [List.map_cons, List.nodup_cons] at h
      rcases List.mem_cons.1 he with rfl | he2 <;>
        rcases List.mem_cons.1 he' with rfl | he2'
      · rfl
      · exact absurd (by rw [hk]; exact List.mem_map_of_mem edgeKey he2') h.1
      · exact absurd (by rw [← hk]; exact List.mem_map_of_mem edgeKey he2) h.1
      · exact ih h.2 he2 he2'

theorem attr?_isSome_iff (g : Graph N A) (u v : N) :
    (g.attr? u v).isSome = true ↔ ∃ e ∈ g.edges, edgeKey e = (u, v) := by
  unfold attr?
  have hmap : ∀ (o : Option (N × N × A)),
      (o.map (fun e => e.2.2)).isSome = o.isSome := by
    intro o
    cases o <;> rfl
  rw [hmap, List.find?_isSome]
  simp

theorem attr?_eq_some_of_mem {g : Graph N A} (hKU : KeysUnique g.edges)
    {u v : N} {a : A} (he : (u, v, a) ∈ g.edges) : g.attr? u v = some a := by
  have hs : (g.edges.find? (fun e => decide (edgeKey e = (u, v)))).isSome = true :=
    List.find?_isSome.2 ⟨(u, v, a), he, by simp [edgeKey]⟩
  obtain ⟨e', he'⟩ := Option.isSome_iff_exists.1 hs
  have hmem := List.mem_of_find?_eq_some he'
  have hkey : edgeKey e' = (u, v) := by simpa using List.find?_some he'
  have heq : e' = (u, v, a) :=
    eq_of_keysUnique hKU hmem he (by rw [hkey]; rfl)
  unfold attr?
  rw [he', heq]
  rfl

theorem hasEdge_of_attr {g : Graph N A} {u v : N} {a : A}
    (h : g.attr? u v = some a) : g.hasEdge u v = true := by
  unfold hasEdge
  rw [h]
  rfl

theorem hasEdge_addEdge_self (g : Graph N A) (u v : N) (a : A) :
    (g.addEdge u v a).hasEdge u v = true := by
  unfold hasEdge
  rw [attr?_isSome_iff]
  exact ⟨(u, v, a), by simp [edges_addEdge], rfl⟩

theorem hasEdge_addEdge_mono {g : Graph N A} {x y : N}
    (h : g.hasEdge x y = true) (u v : N) (a : A) :
    (g.addEdge u v a).hasEdge x y = true := by
  unfold hasEdge at *
  rw [attr?_isSome_iff] at *
  obtain ⟨e, he, hk⟩ := h
  by_cases hc : edgeKey e = (u, v)
  · refine ⟨(u, v, a), by simp [edges_addEdge], ?_⟩
    show (u, v) = (x, y)
    rw [← hc, hk]
  · refine ⟨e, ?_, hk⟩
    rw [edges_addEdge]
    exact List.mem_append_left _ (List.mem_filter.2 ⟨he, by simpa using hc⟩)

theorem hasEdge_addEdges_mono {g : Graph N A} {x y : N}
    (l : List (N × N × A)) (h : g.hasEdge x y = true) :
    (g.addEdges l).hasEdge x y = true := by
  induction l generalizing g with
  | nil => exact h
  | cons a t ih => exact ih (hasEdge_addEdge_mono h _ _ _)

theorem hasEdge_addEdges_of_mem {g : Graph N A} {l : List (N × N × A)}
    {e : N × N × A} (he : e ∈ l) :
    (g.addEdges l).hasEdge e.1 e.2.1 = true := by
  induction l generalizing g with
  | nil => cases he
  | cons a t ih =>
      rcases List.mem_cons.1 he with rfl | he'
      · show (Graph.addEdges (g.addEdge e.1 e.2.1 e.2.2) t).hasEdge e.1 e.2.1 = true
        exact hasEdge_addEdges_mono _ (hasEdge_addEdge_self _ _ _ _)
      · exact ih he'

theorem edges_addEdges_of_fresh {g : Graph N A} {l : List (N × N × A)}
    (hl : KeysUnique l)
    (hf : ∀ e ∈ l, ∀ e' ∈ g.edges, edgeKey e' ≠ edgeKey e) :
    (g.addEdges l).edges = g.edges ++ l := by
  induction l generalizing g with
  | nil => simp [addEdges]
  | cons a t ih =>
      unfold KeysUnique at hl
      rw [List.map_cons, List.nodup_cons] at hl
      have hstep : (g.addEdge a.1 a.2.1 a.2.2).edges = g.edges ++ [a] := by
        rw [edges_addEdge]
        congr 1
        apply List.filter_eq_self.2
        intro e he
        exact decide_eq_true (hf a (by simp) e he)
      show (Graph.addEdges (g.addEdge a.1 a.2.1 a.2.2) t).edges = _
      rw [ih hl.2]
      · rw [hstep, List.append_assoc]
        rfl
      · intro e he e' he'
        rw [hstep] at he'
        rcases List.mem_append.1 he' with h' | h'
        · exact hf e (List.mem_cons_of_mem _ he) e' h'
        · rw [List.mem_singleton.1 h']
          intro hc
          exact hl.1 (hc ▸ List.mem_map_of_mem edgeKey he)

end Graph

theorem legs_map {α : Type u} {β : Type v} (f : α → β) (p : List α) :
    legs (p.map f) = (legs p).map (fun l => (f l.1, f l.2)) := by
  induction p with
  | nil => rfl
  | cons a p ih =>
      cases p with
      | nil => rfl
      | cons b r =>
          show (f a, f b) :: legs ((b :: r).map f) = _
          rw [ih]
          rfl

theorem legs_prefix {α : Type u} {p q : List α} (h : p <+: q) :
    legs p <+: legs q := by
  induction p generalizing q with
  | nil => exact ⟨legs q, rfl⟩
  | cons a p ih =>
      obtain ⟨r, rfl⟩ := h
      cases p with
      | nil =>
          cases r with
          | nil => exact ⟨[], rfl⟩
          | cons c r' => exact ⟨_, rfl⟩
      | cons b p' =>
          obtain ⟨s, hs⟩ := ih (q := b :: p' ++ r) ⟨r, rfl⟩
          refine ⟨s, ?_⟩
          show ((a, b) :: legs (b :: p')) ++ s = (a, b) :: legs (b :: (p' ++ r))
          rw [List.cons_append, hs]
          rfl

theorem legs_append {α : Type u} (p q : List α) (x : α) :
    legs (p ++ x :: q) = legs (p ++ [x]) ++ legs (x :: q) := by
  induction p with
  | nil => rfl
  | cons a p ih =>
      cases p with
      | nil => rfl
      | cons b p' =>
          show (a, b) :: legs (b :: p' ++ x :: q) = _
          rw [ih]
          rfl

namespace Graph

variable {N : Type u} {A : Type v} [DecidableEq N]

theorem isWalk_tail {g : Graph N A} {a : N} {p : List N}
    (h : g.IsWalk (a :: p)) : g.IsWalk p := by
  intro l hl
  apply h
  cases p with
  | nil => cases hl
  | cons b r => exact List.mem_cons_of_mem _ hl

theorem isWalk_append_of {g : Graph N A} {p q : List N} {x : N}
    (hp : g.IsWalk (p ++ [x])) (hq : g.IsWalk (x :: q)) :
    g.IsWalk (p ++ x :: q) := by
  intro l hl
  rw [legs_append] at hl
  rcases List.mem_append.1 hl with h | h
  · exact hp l h
  · exact hq l h

theorem pathLength_append (w : A → ℚ) (g : Graph N A) (p q : List N) (x : N) :
    g.pathLength w (p ++ x :: q) = g.pathLength w (p ++ [x]) + g.pathLength w (x :: q) := by
  unfold pathLength
  rw [legs_append, List.map_append, List.sum_append]

theorem mem_nodes_of_isWalk {g : Graph N A} (hE : g.EdgesInNodes)
    {a b : N} {r : List N} (hw : g.IsWalk (a :: b :: r)) :
    ∀ x ∈ a :: b :: r, x ∈ g.nodes := by
  induction r generalizing a b with
  | nil =>
      intro x hx
      have hab := hw (a, b) (by simp [legs])
      rw [attr?_isSome_iff] at hab
      obtain ⟨e, he, hk⟩ := hab
      obtain ⟨h1, h2⟩ := hE e he
      have hek : e.1 = a ∧ e.2.1 = b := by
        unfold edgeKey at hk
        exact ⟨congrArg Prod.fst hk, congrArg Prod.snd hk⟩
      rcases List.mem_cons.1 hx with rfl | hx
      · exact hek.1 ▸ h1
      · rcases List.mem_cons.1 hx with rfl | hx
        · exact hek.2 ▸ h2
        · cases hx
  | cons c r' ih =>
      intro x hx
      rcases List.mem_cons.1 hx with rfl | hx
      · have hab := hw (x, b) (by simp [legs])
        rw [attr?_isSome_iff] at hab
        obtain ⟨e, he, hk⟩ := hab
        have := (hE e he).1
        have hek : e.1 = x := congrArg Prod.fst hk
        exact hek ▸ this
      · exact ih (isWalk_tail hw) x hx

end Graph

namespace Graph

variable {N : Type u} {A : Type v} [DecidableEq N]

theorem mem_succL {g : Graph N A} {u v : N} :
    v ∈ g.succL u ↔ ∃ e ∈ g.edges, e.1 = u ∧ e.2.1 = v := by
  unfold succL
  rw [List.mem_filterMap]
  constructor
  · rintro ⟨e, he, hev⟩
    by_cases h : e.1 = u
    · rw [if_pos h] at hev
      exact ⟨e, he, h, Option.some.inj hev⟩
    · rw [if_neg h] at hev
      cases hev
  · rintro ⟨e, he, h1, h2⟩
    exact ⟨e, he, by rw [if_pos h1, h2]⟩

theorem succL_attr {g : Graph N A} {u v : N} (h : v ∈ g.succL u) :
    (g.attr? u v).isSome = true := by
  rw [attr?_isSome_iff]
  obtain ⟨e, he, h1, h2⟩ := mem_succL.1 h
  refine ⟨e, he, ?_⟩
  unfold edgeKey
  rw [h1, h2]

theorem attr_succL {g : Graph N A} {u v : N} (h : (g.attr? u v).isSome = true) :
    v ∈ g.succL u := by
  rw [attr?_isSome_iff] at h
  obtain ⟨e, he, hk⟩ := h
  have h1 : e.1 = u := congrArg Prod.fst hk
  have h2 : e.2.1 = v := congrArg Prod.snd hk
  exact mem_succL.2 ⟨e, he, h1, h2⟩

theorem simplePathsTo_sound {g : Graph N A} {t : N} :
    ∀ (fuel : Nat) (u : N) (visited : List N) (p : List N),
      p ∈ simplePathsTo g t fuel u visited → u ∉ visited →
      p.head? = some u ∧ p.getLast? = some t ∧ g.IsWalk p ∧ p.Nodup ∧
        ∀ x ∈ p, x ∉ visited := by
  intro fuel
  induction fuel with
  | zero =>
      intro u vis p hp _
      cases hp
  | succ fuel ih =>
      intro u vis p hp hu
      simp only [simplePathsTo] at hp
      by_cases hut : u = t
      · subst hut
        rw [if_pos rfl] at hp
        rw [List.mem_singleton] at hp
        subst hp
        refine ⟨rfl, rfl, ?_, by simp, ?_⟩
        · intro l hl
          cases hl
        · intro x hx
          rw [List.mem_singleton] at hx
          subst hx
          exact hu
      · rw [if_neg hut] at hp
        rw [List.mem_flatMap] at hp
        obtain ⟨v, hv, hp⟩ := hp
        by_cases hvv : v ∈ u :: vis
        · rw [if_pos hvv] at hp
          cases hp
        · rw [if_neg hvv] at hp
          rw [List.mem_map] at hp
          obtain ⟨p', hp', rfl⟩ := hp
          obtain ⟨h1, h2, h3, h4, h5⟩ := ih v (u :: vis) p' hp' hvv
          have hne : p' ≠ [] := by
            intro h
            rw [h] at h1
            cases h1
          obtain ⟨b, r, rfl⟩ := List.exists_cons_of_ne_nil hne
          have hbv : b = v := by
            have := h1
            simp only [List.head?_cons] at this
            exact Option.some.inj this
          subst hbv
          refine ⟨rfl, ?_, ?_, ?_, ?_⟩
          · rw [List.getLast?_cons_cons]
            exact h2
          · intro l hl
            rcases List.mem_cons.1 hl with rfl | hl'
            · exact succL_attr hv
            · exact h3 _ hl'
          · rw [List.nodup_cons]
            refine ⟨?_, h4⟩
            intro hu'
            exact (h5 u hu') (List.mem_cons_self u vis)
          · intro x hx
            rcases List.mem_cons.1 hx with rfl | hx'
            · exact hu
            · intro hxv
              exact (h5 x hx') (List.mem_cons_of_mem _ hxv)

theorem simplePathsTo_complete {g : Graph N A} {t : N} :
    ∀ (fuel : Nat) (u : N) (visited : List N) (p : List N),
      p.head? = some u → p.getLast? = some t → g.IsWalk p → p.Nodup →
      (∀ x ∈ p, x ∉ visited) → p.length ≤ fuel →
      p ∈ simplePathsTo g t fuel u visited := by
  intro fuel
  induction fuel with
  | zero =>
      intro u vis p h1 _ _ _ _ hlen
      cases p with
      | nil => cases h1
      | cons a r => simp at hlen
  | succ fuel ih =>
      intro u vis p h1 h2 hw hnd hdis hlen
      cases p with
      | nil => cases h1
      | cons a rest =>
          have ha : a = u := by
            simp only [List.head?_cons] at h1
            exact Option.some.inj h1
          subst ha
          simp only [simplePathsTo]
          by_cases hut : a = t
          · subst hut
            rw [if_pos rfl]
            have hrest : rest = [] := by
              cases rest with
              | nil => rfl
              | cons b r =>
                  exfalso
                  rw [List.getLast?_cons_cons] at h2
                  have hmem : a ∈ b :: r := List.mem_of_mem_getLast? h2
                  rw [List.nodup_cons] at hnd
                  exact hnd.1 hmem
            subst hrest
            exact List.mem_singleton.2 rfl
          · rw [if_neg hut]
            cases rest with
            | nil =>
                exfalso
                simp only [List.getLast?_singleton] at h2
                exact hut (Option.some.inj h2)
            | cons b r =>
                rw [List.mem_flatMap]
                refine ⟨b, ?_, ?_⟩
                · exact attr_succL (hw (a, b) (by simp [legs]))
                · have hb : b ∉ a :: vis := by
                    intro hmem
                    rcases List.mem_cons.1 hmem with rfl | hmem'
                    · rw [List.nodup_cons] at hnd
                      exact hnd.1 (List.mem_cons_self b r)
                    · exact (hdis b (by simp)) hmem'
                  rw [if_neg hb, List.mem_map]
                  refine ⟨b :: r, ?_, rfl⟩
                  apply ih b (a :: vis) (b :: r) rfl
                  · rw [List.getLast?_cons_cons] at h2
                    exact h2
                  · exact isWalk_tail hw
                  · exact (List.nodup_cons.1 hnd).2
                  · intro x hx
                    intro hxv
                    rcases List.mem_cons.1 hxv with rfl | hxv'
                    · exact (List.nodup_cons.1 hnd).1 hx
                    · exact (hdis x (List.mem_cons_of_mem _ hx)) hxv'
                  · simpa using Nat.succ_le_succ_iff.1 (by simpa using hlen)

theorem pickMin_go {w : A → ℚ} {g : Graph N A} :
    ∀ (l : List (List N)) (b : List N),
      ∃ r, l.foldl (fun best p =>
        match best with
        | none => some p
        | some c => if pathLength w g p < pathLength w g c then some p else some c)
        (some b) = some r ∧ (r ∈ l ∨ r = b) ∧
        pathLength w g r ≤ pathLength w g b ∧
        ∀ x ∈ l, pathLength w g r ≤ pathLength w g x := by
  intro l
  induction l with
  | nil => exact fun b => ⟨b, rfl, Or.inr rfl, le_refl _, by simp⟩
  | cons p l ih =>
      intro b
      by_cases hc : pathLength w g p < pathLength w g b
      · obtain ⟨r, hr1, hr2, hr3, hr4⟩ := ih p
        refine ⟨r, ?_, ?_, ?_, ?_⟩
        · simpa [hc] using hr1
        · rcases hr2 with h | h
          · exact Or.inl (List.mem_cons_of_mem _ h)
          · exact Or.inl (h ▸ List.mem_cons_self p l)
        · exact le_trans hr3 (le_of_lt hc)
        · intro x hx
          rcases List.mem_cons.1 hx with rfl | hx'
          · exact hr3
          · exact hr4 x hx'
      · obtain ⟨r, hr1, hr2, hr3, hr4⟩ := ih b
        refine ⟨r, ?_, ?_, hr3, ?_⟩
        · simpa [hc] using hr1
        · rcases hr2 with h | h
          · exact Or.inl (List.mem_cons_of_mem _ h)
          · exact Or.inr h
        · intro x hx
          rcases List.mem_cons.1 hx with rfl | hx'
          · exact le_trans hr3 (not_lt.1 hc)
          · exact hr4 x hx'

theorem pickMin_spec {w : A → ℚ} {g : Graph N A} {l : List (List N)} {p : List N}
    (h : pickMin w g l = some p) :
    p ∈ l ∧ ∀ x ∈ l, pathLength w g p ≤ pathLength w g x := by
  cases l with
  | nil => cases h
  | cons q l' =>
      unfold pickMin at h
      rw [List.foldl_cons] at h
      obtain ⟨r, hr1, hr2, hr3, hr4⟩ := pickMin_go (w := w) (g := g) l' q
      rw [hr1] at h
      have hrp : r = p := Option.some.inj h
      subst hrp
      constructor
      · rcases hr2 with h' | h'
        · exact List.mem_cons_of_mem _ h'
        · exact h' ▸ List.mem_cons_self q l'
      · intro x hx
        rcases List.mem_cons.1 hx with rfl | hx'
        · exact hr3
        · exact hr4 x hx'

theorem pickMin_isSome {w : A → ℚ} {g : Graph N A} {l : List (List N)}
    (h : l ≠ []) : (pickMin w g l).isSome = true := by
  cases l with
  | nil => exact absurd rfl h
  | cons q l' =>
      unfold pickMin
      rw [List.foldl_cons]
      obtain ⟨r, hr1, _, _, _⟩ := pickMin_go (w := w) (g := g) l' q
      rw [hr1]
      rfl

theorem pickMin_eq_none {w : A → ℚ} {g : Graph N A} {l : List (List N)}
    (h : pickMin w g l = none) : l = [] := by
  cases l with
  | nil => rfl
  | cons q l' =>
      have := pickMin_isSome (w := w) (g := g) (l := q :: l') (by simp)
      rw [h] at this
      cases this

theorem shortest_path_sound {w : A → ℚ} {g : Graph N A} {s t : N} {p : List N}
    (h : g.shortest_path w s t = some p) :
    p.head? = some s ∧ p.getLast? = some t ∧ g.IsWalk p ∧ p.Nodup := by
  unfold shortest_path at h
  have hmem := (pickMin_spec h).1
  obtain ⟨h1, h2, h3, h4, _⟩ :=
    simplePathsTo_sound g.nodes.length s [] p hmem (by simp)
  exact ⟨h1, h2, h3, h4⟩

theorem shortest_path_none {w : A → ℚ} {g : Graph N A} {s t : N}
    (hno : ¬ ∃ p, g.IsWalk p ∧ p.head? = some s ∧ p.getLast? = some t) :
    g.shortest_path w s t = none := by
  cases h : g.shortest_path w s t with
  | none => rfl
  | some p =>
      obtain ⟨h1, h2, h3, _⟩ := shortest_path_sound h
      exact absurd ⟨p, h3, h1, h2⟩ hno

theorem walk_subset_nodes {g : Graph N A} (hE : g.EdgesInNodes) {p : List N} {s : N}
    (hw : g.IsWalk p) (h1 : p.head? = some s) (hs : s ∈ g.nodes) :
    ∀ x ∈ p, x ∈ g.nodes := by
  cases p with
  | nil => intro x hx; cases hx
  | cons a rest =>
      have ha : a = s := by
        simp only [List.head?_cons] at h1
        exact Option.some.inj h1
      subst ha
      cases rest with
      | nil =>
          intro x hx
          rw [List.mem_singleton] at hx
          subst hx
          exact hs
      | cons b r => exact mem_nodes_of_isWalk hE hw

theorem shortest_path_min {w : A → ℚ} {g : Graph N A} {s t : N}
    (hE : g.EdgesInNodes) (hs : s ∈ g.nodes)
    {p : List N} (hw : g.IsWalk p) (h1 : p.head? = some s)
    (h2 : p.getLast? = some t) (hsimple : p.Nodup) :
    ∃ r, g.shortest_path w s t = some r ∧
      g.pathLength w r ≤ g.pathLength w p := by
  have hsub : ∀ x ∈ p, x ∈ g.nodes := walk_subset_nodes hE hw h1 hs
  have hlen : p.length ≤ g.nodes.length :=
    List.Subperm.length_le (List.Nodup.subperm hsimple hsub)
  have hmem := simplePathsTo_complete g.nodes.length s [] p h1 h2 hw hsimple
    (by intro x _ hx; cases hx) hlen
  have hne : simplePathsTo g t g.nodes.length s [] ≠ [] := by
    intro hc
    rw [hc] at hmem
    cases hmem
  obtain ⟨r, hr⟩ := Option.isSome_iff_exists.1
    (pickMin_isSome (w := w) (g := g) hne)
  refine ⟨r, hr, ?_⟩
  exact (pickMin_spec hr).2 p hmem

end Graph

theorem mem_qMultiples {b q L : ℚ} (hq : 0 < q) :
    L ∈ qMultiples b q ↔ ∃ k : ℕ, L = q * k ∧ L ≤ b := by
  unfold qMultiples
  rw [List.mem_map]
  constructor
  · rintro ⟨i, hi, rfl⟩
    rw [List.mem_range, Int.lt_toNat] at hi
    have h1 : (i : ℤ) ≤ ⌊b / q⌋ := by omega
    have h2 : (i : ℚ) ≤ b / q := le_trans (by exact_mod_cast h1) (Int.floor_le _)
    exact ⟨i, rfl, by rw [mul_comm]; exact (le_div_iff₀ hq).1 h2⟩
  · rintro ⟨k, rfl, hk⟩
    refine ⟨k, ?_, rfl⟩
    rw [List.mem_range, Int.lt_toNat]
    have h2 : (k : ℚ) ≤ b / q := (le_div_iff₀ hq).2 (by rw [mul_comm]; exact hk)
    have h3 : (k : ℤ) ≤ ⌊b / q⌋ := Int.le_floor.2 (by exact_mod_cast h2)
    omega

theorem qMultiples_nodup {b q : ℚ} (hq : 0 < q) : (qMultiples b q).Nodup := by
  unfold qMultiples
  refine List.Nodup.map ?_ (List.nodup_range _)
  intro i j hij
  have : (i : ℚ) = (j : ℚ) := mul_left_cancel₀ (ne_of_gt hq) hij
  exact_mod_cast this

theorem qMultiples_pos_len {b q : ℚ} (hb : 0 ≤ b) (hq : 0 < q) :
    Int.toNat (⌊b / q⌋ + 1) = Int.toNat ⌊b / q⌋ + 1 := by
  have : (0 : ℤ) ≤ ⌊b / q⌋ := Int.floor_nonneg.2 (div_nonneg hb (le_of_lt hq))
  omega

theorem qMultiples_getLastD {b q : ℚ} (hb : 0 ≤ b) (hq : 0 < q) :
    (qMultiples b q).getLastD 0 = q * (⌊b / q⌋ : ℤ) := by
  unfold qMultiples
  rw [qMultiples_pos_len hb hq, List.range_succ, List.map_append,
    List.map_singleton, List.getLastD_concat]
  congr 1
  have h0 : (0 : ℤ) ≤ ⌊b / q⌋ := Int.floor_nonneg.2 (div_nonneg hb (le_of_lt hq))
  exact_mod_cast congrArg (fun z : ℤ => (z : ℚ)) (Int.toNat_of_nonneg h0)

theorem qMultiples_getLastD_le {b q : ℚ} (hb : 0 ≤ b) (hq : 0 < q) :
    (qMultiples b q).getLastD 0 ≤ b := by
  rw [qMultiples_getLastD hb hq]
  have h2 : ((⌊b / q⌋ : ℤ) : ℚ) ≤ b / q := Int.floor_le _
  calc q * (⌊b / q⌋ : ℤ) ≤ q * (b / q) :=
        mul_le_mul_of_nonneg_left h2 (le_of_lt hq)
  _ = b := by field_simp

theorem qMultiples_getLastD_mem {b q : ℚ} (hb : 0 ≤ b) (hq : 0 < q) :
    (qMultiples b q).getLastD 0 ∈ qMultiples b q := by
  rw [mem_qMultiples hq, qMultiples_getLastD hb hq]
  refine ⟨Int.toNat ⌊b / q⌋, ?_, ?_⟩
  · congr 1
    have : (0 : ℤ) ≤ ⌊b / q⌋ := Int.floor_nonneg.2 (div_nonneg hb (le_of_lt hq))
    exact_mod_cast (Int.toNat_of_nonneg this).symm
  · rw [← qMultiples_getLastD hb hq]
    exact qMultiples_getLastD_le hb hq

theorem zero_mem_qMultiples {b q : ℚ} (hb : 0 ≤ b) (hq : 0 < q) :
    (0 : ℚ) ∈ qMultiples b q :=
  (mem_qMultiples hq).2 ⟨0, by simp, hb⟩

theorem qMultiples_mono {b b' q : ℚ} (hq : 0 < q) (hb : b ≤ b')
    {L : ℚ} (h : L ∈ qMultiples b q) : L ∈ qMultiples b' q := by
  rw [mem_qMultiples hq] at h ⊢
  obtain ⟨k, rfl, hk⟩ := h
  exact ⟨k, rfl, le_trans hk hb⟩

namespace Stage3

theorem floatMod_nonneg {d q : ℚ} (hq : 0 < q) : 0 ≤ floatMod d q := by
  unfold floatMod
  have h := Int.floor_le (d / q)
  have : q * (⌊d / q⌋ : ℤ) ≤ q * (d / q) :=
    mul_le_mul_of_nonneg_left h (le_of_lt hq)
  have hdq : q * (d / q) = d := by field_simp
  linarith

theorem edgeDetection_eq_ceil {d q : ℚ} (hq : 0 < q) :
    edgeDetection d q = (⌈d / q⌉ : ℤ) * q := by
  unfold edgeDetection
  by_cases h : floatMod d q > 0
  · rw [if_pos h]
    unfold floatMod at h
    have hfl : (⌊d / q⌋ : ℚ) < d / q := by
      have hlt : q * (⌊d / q⌋ : ℤ) < d := by linarith
      rw [mul_comm] at hlt
      exact (lt_div_iff₀ hq).2 hlt
    have hceil : ⌈d / q⌉ = ⌊d / q⌋ + 1 := by
      have hub := Int.ceil_le_floor_add_one (d / q)
      have hlb : ⌊d / q⌋ < ⌈d / q⌉ := Int.lt_ceil.2 hfl
      omega
    unfold floorDiv
    rw [hceil]
    push_cast
    ring
  · rw [if_neg h]
    have h0 : floatMod d q = 0 := le_antisymm (not_lt.1 h) (floatMod_nonneg hq)
    unfold floatMod at h0
    have hdq : d / q = (⌊d / q⌋ : ℚ) := by
      field_simp
      linarith
    have hceil : ⌈d / q⌉ = ⌊d / q⌋ := by
      rw [hdq]
      exact Int.ceil_intCast _
    have hd : d = q * (⌊d / q⌋ : ℤ) := by linarith
    rw [hceil, mul_comm]
    linarith

theorem le_edgeDetection {d q : ℚ} (hq : 0 < q) : d ≤ edgeDetection d q := by
  rw [edgeDetection_eq_ceil hq]
  have h := Int.le_ceil (d / q)
  calc d = d / q * q := by field_simp
  _ ≤ (⌈d / q⌉ : ℤ) * q := mul_le_mul_of_nonneg_right h (le_of_lt hq)

theorem edgeDetection_nonneg {d q : ℚ} (hq : 0 < q) (hd : 0 ≤ d) :
    0 ≤ edgeDetection d q := le_trans hd (le_edgeDetection hq)

theorem edgeDetection_ceil_nonneg {d q : ℚ} (hq : 0 < q) (hd : 0 ≤ d) :
    0 ≤ ⌈d / q⌉ := Int.ceil_nonneg (div_nonneg hd (le_of_lt hq))

end Stage3

theorem map_range_succ_cons {α : Type u} (g : ℕ → α) (n : ℕ) :
    (List.range (n + 1)).map g = g 0 :: (List.range n).map (fun i => g (i + 1)) := by
  rw [List.range_succ_eq_map, List.map_cons, List.map_map]
  rfl

theorem zip_tail_range_map {α : Type u} :
    ∀ (n : ℕ) (g : ℕ → α),
      ((List.range n).map g).zip (((List.range n).map g).tail)
        = (List.range (n - 1)).map (fun i => (g i, g (i + 1))) := by
  intro n
  induction n with
  | zero => intro g; rfl
  | succ n ih =>
      intro g
      cases n with
      | zero => rfl
      | succ m =>
          rw [map_range_succ_cons g (m + 1),
            map_range_succ_cons (fun i => g (i + 1)) m]
          rw [List.tail_cons, List.zip_cons_cons]
          have hrec := ih (fun i => g (i + 1))
          rw [map_range_succ_cons (fun i => g (i + 1)) m, List.tail_cons] at hrec
          rw [show m + 1 + 1 - 1 = m + 1 from rfl,
            map_range_succ_cons (fun i => (g i, g (i + 1))) m]
          exact congrArg (List.cons (g 0, g 1)) hrec

namespace Stage3

variable {N : Type u} [DecidableEq N]

theorem mem_add_legal_edge {m q : ℚ} {u v : N} {d : ℚ}
    {e : (N × ℚ) × (N × ℚ) × ℚ} :
    e ∈ add_legal_edge m q u v d ↔ ∃ L ∈ qMultiples m q, e = ((u, L), (v, L), d) := by
  unfold add_legal_edge
  rw [List.mem_map]
  constructor
  · rintro ⟨L, hL, rfl⟩
    exact ⟨L, hL, rfl⟩
  · rintro ⟨L, hL, rfl⟩
    exact ⟨L, hL, rfl⟩

theorem mem_add_detected_edge {m q : ℚ} {u v : N} {d : ℚ}
    {e : (N × ℚ) × (N × ℚ) × ℚ} :
    e ∈ add_detected_edge m q u v d ↔
      ∃ L ∈ qMultiples (m - edgeDetection d q) q,
        e = ((u, L), (v, L + edgeDetection d q), d) := by
  unfold add_detected_edge
  rw [List.mem_map]
  constructor
  · rintro ⟨L, hL, rfl⟩
    exact ⟨L, hL, rfl⟩
  · rintro ⟨L, hL, rfl⟩
    exact ⟨L, hL, rfl⟩

theorem add_target_edges_qMultiples_eq (m q : ℚ) (t : N) :
    add_target_edges (qMultiples m q) t
      = (List.range (Int.toNat (⌊m / q⌋ + 1) - 1)).map
          (fun (i : ℕ) => ((t, q * (i : ℚ)), (t, q * ((i : ℚ) + 1)), (0 : ℚ))) := by
  unfold add_target_edges qMultiples
  rw [zip_tail_range_map (Int.toNat (⌊m / q⌋ + 1)) (fun (i : ℕ) => q * (i : ℚ))]
  rw [List.map_map]
  apply List.map_congr_left
  intro i _
  show ((t, q * (i : ℚ)), (t, q * (((i + 1 : ℕ) : ℚ))), (0 : ℚ))
      = ((t, q * (i : ℚ)), (t, q * ((i : ℚ) + 1)), (0 : ℚ))
  push_cast
  rfl

theorem mem_add_target_edges {m q : ℚ} {t : N} {e : (N × ℚ) × (N × ℚ) × ℚ} :
    e ∈ add_target_edges (qMultiples m q) t ↔
      ∃ i : ℕ, (i + 1) < Int.toNat (⌊m / q⌋ + 1) ∧
        e = ((t, q * (i : ℚ)), (t, q * ((i : ℚ) + 1)), (0 : ℚ)) := by
  rw [add_target_edges_qMultiples_eq, List.mem_map]
  constructor
  · rintro ⟨i, hi, rfl⟩
    rw [List.mem_range] at hi
    exact ⟨i, by omega, rfl⟩
  · rintro ⟨i, hi, rfl⟩
    exact ⟨i, List.mem_range.2 (by omega), rfl⟩

theorem copies_baseCoords {m q : ℚ} {e : N × N × ℚ × Bool}
    {c : (N × ℚ) × (N × ℚ) × ℚ} (hc : c ∈ edgeCopies m q e) :
    c.1.1 = e.1 ∧ c.2.1.1 = e.2.1 ∧ c.2.2 = e.2.2.1 := by
  unfold edgeCopies at hc
  by_cases hdet : e.2.2.2
  · rw [if_pos hdet] at hc
    obtain ⟨L, _, rfl⟩ := mem_add_detected_edge.1 hc
    exact ⟨rfl, rfl, rfl⟩
  · rw [if_neg hdet] at hc
    obtain ⟨L, _, rfl⟩ := mem_add_legal_edge.1 hc
    exact ⟨rfl, rfl, rfl⟩

theorem keysUnique_add_legal {m q : ℚ} (hq : 0 < q) (u v : N) (d : ℚ) :
    Graph.KeysUnique (add_legal_edge m q u v d) := by
  unfold Graph.KeysUnique add_legal_edge
  rw [List.map_map]
  refine List.Nodup.map ?_ (qMultiples_nodup hq)
  intro L L' h
  have : ((u, L), (v, L)) = ((u, L'), (v, L')) := h
  exact congrArg (fun pr => pr.1.2) this

theorem keysUnique_add_detected {m q : ℚ} (hq : 0 < q) (u v : N) (d : ℚ) :
    Graph.KeysUnique (add_detected_edge m q u v d) := by
  unfold Graph.KeysUnique add_detected_edge
  rw [List.map_map]
  refine List.Nodup.map ?_ (qMultiples_nodup hq)
  intro L L' h
  exact congrArg (fun pr => pr.1.2) h

theorem keysUnique_edgeCopies {m q : ℚ} (hq : 0 < q) (e : N × N × ℚ × Bool) :
    Graph.KeysUnique (edgeCopies m q e) := by
  unfold edgeCopies
  by_cases hdet : e.2.2.2
  · rw [if_pos hdet]
    exact keysUnique_add_detected hq _ _ _
  · rw [if_neg hdet]
    exact keysUnique_add_legal hq _ _ _

theorem keysUnique_flatMap_copies {m q : ℚ} (hq : 0 < q)
    {el : List (N × N × ℚ × Bool)} (hKU : Graph.KeysUnique el) :
    Graph.KeysUnique (el.flatMap (edgeCopies m q)) := by
  induction el with
  | nil => exact List.nodup_nil
  | cons e el ih =>
      unfold Graph.KeysUnique at hKU ⊢
      rw [List.map_cons, List.nodup_cons] at hKU
      rw [List.flatMap_cons, List.map_append, List.nodup_append]
      refine ⟨keysUnique_edgeCopies hq e, ih hKU.2, ?_⟩
      intro k hk hk'
      rw [List.mem_map] at hk hk'
      obtain ⟨c, hc, rfl⟩ := hk
      obtain ⟨c', hc', hkeq⟩ := hk'
      rw [List.mem_flatMap] at hc'
      obtain ⟨e', he', hc'⟩ := hc'
      obtain ⟨h1, h2, _⟩ := copies_baseCoords hc
      obtain ⟨h1', h2', _⟩ := copies_baseCoords hc'
      apply hKU.1
      have hb : Graph.edgeKey e = Graph.edgeKey e' := by
        unfold Graph.edgeKey
        unfold Graph.edgeKey at hkeq
        have hx1 : c'.1.1 = c.1.1 := congrArg (fun k => k.1.1) hkeq
        have hx2 : c'.2.1.1 = c.2.1.1 := congrArg (fun k => k.2.1) hkeq
        rw [← h1, ← h2, ← h1', ← h2', hx1, hx2]
      rw [hb]
      exact List.mem_map_of_mem Graph.edgeKey he'

theorem keysUnique_add_target {m q : ℚ} (hq : 0 < q) (t : N) :
    Graph.KeysUnique (add_target_edges (qMultiples m q) t) := by
  unfold Graph.KeysUnique
  rw [add_target_edges_qMultiples_eq, List.map_map]
  refine List.Nodup.map ?_ (List.nodup_range _)
  intro i j h
  have h2 : q * (i : ℚ) = q * (j : ℚ) :=
    congrArg (fun pr => pr.1.2) h
  have : (i : ℚ) = (j : ℚ) := mul_left_cancel₀ (ne_of_gt hq) h2
  exact_mod_cast this

theorem chain_fresh {m q : ℚ} {t : N} {el : List (N × N × ℚ × Bool)}
    (hNS : ∀ e ∈ el, e.1 ≠ e.2.1) :
    ∀ c ∈ add_target_edges (qMultiples m q) t,
      ∀ c' ∈ el.flatMap (edgeCopies m q), Graph.edgeKey c' ≠ Graph.edgeKey c := by
  intro c hc c' hc' hkeq
  rw [List.mem_flatMap] at hc'
  obtain ⟨e', he', hc'⟩ := hc'
  obtain ⟨h1', h2', _⟩ := copies_baseCoords hc'
  obtain ⟨i, _, rfl⟩ := mem_add_target_edges.1 hc
  have hx1 : c'.1.1 = t := congrArg (fun k => k.1.1) hkeq
  have hx2 : c'.2.1.1 = t := congrArg (fun k => k.2.1) hkeq
  exact hNS e' he' (by rw [← h1', ← h2', hx1, hx2])

end Stage3

namespace Stage3

variable {N : Type u} [DecidableEq N]

theorem edges_layerNodesFold (ns : List N) :
    ∀ (ls : List ℚ) (acc : Graph (N × ℚ) ℚ),
      (ls.foldl (fun lg L => lg.addNodesFrom (ns.map (fun n => (n, L)))) acc).edges
        = acc.edges := by
  intro ls
  induction ls with
  | nil => intro acc; rfl
  | cons L ls ih =>
      intro acc
      rw [List.foldl_cons, ih, Graph.edges_addNodesFrom]

theorem mem_nodes_layerNodesFold (ns : List N) :
    ∀ (ls : List ℚ) (acc : Graph (N × ℚ) ℚ) (x : N × ℚ),
      (x ∈ (ls.foldl (fun lg L => lg.addNodesFrom (ns.map (fun n => (n, L)))) acc).nodes
        ↔ x ∈ acc.nodes ∨ (x.1 ∈ ns ∧ x.2 ∈ ls)) := by
  intro ls
  induction ls with
  | nil =>
      intro acc x
      simp
  | cons L ls ih =>
      intro acc x
      rw [List.foldl_cons, ih, Graph.mem_nodes_addNodesFrom]
      rw [List.mem_map]
      constructor
      · rintro ((h | ⟨n, hn, rfl⟩) | ⟨h1, h2⟩)
        · exact Or.inl h
        · exact Or.inr ⟨hn, by simp⟩
        · exact Or.inr ⟨h1, List.mem_cons_of_mem _ h2⟩
      · rintro (h | ⟨h1, h2⟩)
        · exact Or.inl (Or.inl h)
        · rcases List.mem_cons.1 h2 with hL | hL
          · exact Or.inl (Or.inr ⟨x.1, h1, by rw [← hL]⟩)
          · exact Or.inr ⟨h1, hL⟩

theorem build_edges_eq (dist : N → N → ℚ) (g : Graph N (ℚ × Bool)) (s t : N)
    (pct q : ℚ) (hq : 0 < q) (hKU : Graph.KeysUnique g.edges)
    (hNS : ∀ e ∈ g.edges, e.1 ≠ e.2.1) :
    (build_layers_graph dist g s t pct q).1.edges
      = g.edges.flatMap (edgeCopies (dist s t * pct) q)
        ++ add_target_edges (qMultiples (dist s t * pct) q) t := by
  set M := dist s t * pct with hM
  set lg0 : Graph (N × ℚ) ℚ := (qMultiples M q).foldl
    (fun lg L => lg.addNodesFrom (g.nodes.map (fun n => (n, L)))) Graph.empty with hlg0
  have h0 : lg0.edges = [] := edges_layerNodesFold g.nodes _ _
  have h1 : (lg0.addEdges (g.edges.flatMap (edgeCopies M q))).edges
      = g.edges.flatMap (edgeCopies M q) := by
    rw [Graph.edges_addEdges_of_fresh (keysUnique_flatMap_copies hq hKU)
      (by rw [h0]; intro e _ e' he'; cases he')]
    rw [h0]
    rfl
  show ((lg0.addEdges (g.edges.flatMap (edgeCopies M q))).addEdges
    (add_target_edges (qMultiples M q) t)).edges = _
  rw [Graph.edges_addEdges_of_fresh (keysUnique_add_target hq t)
    (by rw [h1]; exact fun c hc c' hc' => chain_fresh hNS c hc c' hc')]
  rw [h1]

theorem mem_build_edges_elim {dist : N → N → ℚ} {g : Graph N (ℚ × Bool)}
    {s t : N} {pct q : ℚ} {e : (N × ℚ) × (N × ℚ) × ℚ}
    (h : e ∈ (build_layers_graph dist g s t pct q).1.edges) :
    (∃ be ∈ g.edges, e ∈ edgeCopies (dist s t * pct) q be)
      ∨ e ∈ add_target_edges (qMultiples (dist s t * pct) q) t := by
  have h' := Graph.mem_edges_addEdges_elim h
  rcases h' with h' | h'
  · rcases Graph.mem_edges_addEdges_elim h' with h'' | h''
    · rw [edges_layerNodesFold] at h''
      cases h''
    · exact Or.inl (List.mem_flatMap.1 h'')
  · exact Or.inr h'

theorem mem_nodes_build {dist : N → N → ℚ} {g : Graph N (ℚ × Bool)}
    {s t : N} {pct q : ℚ} {n : N} {L : ℚ} (hn : n ∈ g.nodes)
    (hL : L ∈ qMultiples (dist s t * pct) q) :
    (n, L) ∈ (build_layers_graph dist g s t pct q).1.nodes := by
  apply Graph.mem_nodes_addEdges
  apply Graph.mem_nodes_addEdges
  rw [mem_nodes_layerNodesFold]
  exact Or.inr ⟨hn, hL⟩

theorem build_edgesInNodes (dist : N → N → ℚ) (g : Graph N (ℚ × Bool))
    (s t : N) (pct q : ℚ) :
    (build_layers_graph dist g s t pct q).1.EdgesInNodes := by
  apply Graph.edgesInNodes_addEdges
  apply Graph.edgesInNodes_addEdges
  intro e he
  rw [edges_layerNodesFold] at he
  cases he

theorem nodup_layerNodesFold (ns : List N) :
    ∀ (ls : List ℚ) (acc : Graph (N × ℚ) ℚ), acc.nodes.Nodup →
      ((ls.foldl (fun lg L => lg.addNodesFrom (ns.map (fun n => (n, L)))) acc).nodes).Nodup := by
  intro ls
  induction ls with
  | nil => intro acc h; exact h
  | cons L ls ih =>
      intro acc h
      rw [List.foldl_cons]
      exact ih _ (Graph.nodup_nodes_addNodesFrom _ _ h)

theorem build_nodes_nodup (dist : N → N → ℚ) (g : Graph N (ℚ × Bool))
    (s t : N) (pct q : ℚ) :
    (build_layers_graph dist g s t pct q).1.nodes.Nodup := by
  apply Graph.nodup_nodes_addEdges
  apply Graph.nodup_nodes_addEdges
  exact nodup_layerNodesFold g.nodes _ _ List.nodup_nil

end Stage3

theorem foldl_graph_preserve {N : Type u} {A : Type v} {β : Type*}
    {Q : Graph N A → Prop} (step : Graph N A → β → Graph N A)
    (H : ∀ g b, Q g → Q (step g b)) :
    ∀ (l : List β) (g : Graph N A), Q g → Q (l.foldl step g) := by
  intro l
  induction l with
  | nil => intro g h; exact h
  | cons b l ih =>
      intro g h
      rw [List.foldl_cons]
      exact ih _ (H g b h)

theorem mem_combinations_sub {N : Type u} :
    ∀ {l : List N} {pr : N × N}, pr ∈ combinations l → pr.1 ∈ l ∧ pr.2 ∈ l := by
  intro l
  induction l with
  | nil => intro pr h; cases h
  | cons x xs ih =>
      intro pr h
      unfold combinations at h
      rcases List.mem_append.1 h with h' | h'
      · obtain ⟨y, hy, rfl⟩ := List.mem_map.1 h'
        exact ⟨by simp, List.mem_cons_of_mem _ hy⟩
      · obtain ⟨h1, h2⟩ := ih h'
        exact ⟨List.mem_cons_of_mem _ h1, List.mem_cons_of_mem _ h2⟩

theorem combinations_distinct {N : Type u} :
    ∀ {l : List N}, l.Nodup → ∀ pr ∈ combinations l, pr.1 ≠ pr.2 := by
  intro l
  induction l with
  | nil => intro _ pr h; cases h
  | cons x xs ih =>
      intro hnd pr h
      rw [List.nodup_cons] at hnd
      unfold combinations at h
      rcases List.mem_append.1 h with h' | h'
      · obtain ⟨y, hy, rfl⟩ := List.mem_map.1 h'
        intro hc
        apply hnd.1
        rw [show x = y from hc]
        exact hy
      · exact ih hnd.2 pr h'

namespace Stage1

variable {N : Type u} [DecidableEq N]

theorem is_legal_leg_spec1 {enemies : List (Enemy N)} {a b : N} :
    is_legal_leg enemies a b = true ↔
      ∀ en ∈ enemies, en.is_legal_leg a b = true := by
  unfold is_legal_leg
  rw [List.all_eq_true]

theorem edges_add_enemies1 (g : Graph N ℚ) (enemies : List (Enemy N)) :
    (add_enemies_to_graph g enemies).edges = g.edges := by
  induction enemies generalizing g with
  | nil => rfl
  | cons e es ih =>
      cases e with
      | asteroids boundary f =>
          rw [show (add_enemies_to_graph g (Enemy.asteroids boundary f :: es)) =
            add_enemies_to_graph (g.addNodesFrom boundary) es from rfl] at *
          rw [ih, Graph.edges_addNodesFrom]
      | post approx f =>
          rw [show (add_enemies_to_graph g (Enemy.post approx f :: es)) =
            add_enemies_to_graph (g.addNodesFrom approx) es from rfl] at *
          rw [ih, Graph.edges_addNodesFrom]
      | radar approx inC f =>
          rw [show (add_enemies_to_graph g (Enemy.radar approx inC f :: es)) =
            add_enemies_to_graph g es from rfl] at *
          rw [ih]

theorem nodup_add_enemies1 (g : Graph N ℚ) (enemies : List (Enemy N))
    (h : g.nodes.Nodup) : (add_enemies_to_graph g enemies).nodes.Nodup := by
  induction enemies generalizing g with
  | nil => exact h
  | cons e es ih =>
      cases e with
      | asteroids boundary f =>
          exact ih (g.addNodesFrom boundary) (Graph.nodup_nodes_addNodesFrom _ _ h)
      | post approx f =>
          exact ih (g.addNodesFrom approx) (Graph.nodup_nodes_addNodesFrom _ _ h)
      | radar approx inC f => exact ih g h

theorem seedGraph_edges1 (s t : N) (enemies : List (Enemy N)) :
    (seedGraph s t enemies).edges = [] := by
  unfold seedGraph
  rw [edges_add_enemies1, Graph.edges_addNode, Graph.edges_addNode]
  rfl

theorem seedGraph_nodup1 (s t : N) (enemies : List (Enemy N)) :
    (seedGraph s t enemies).nodes.Nodup := by
  unfold seedGraph
  exact nodup_add_enemies1 _ _
    (Graph.nodup_nodes_addNode _ _ (Graph.nodup_nodes_addNode _ _ List.nodup_nil))

theorem connectLoop_edges_inv1 (dist : N → N → ℚ) (enemies : List (Enemy N))
    (s t : N) :
    ∀ e ∈ (connectLoop dist enemies (seedGraph s t enemies)).edges,
      ∃ pr ∈ combinations (seedGraph s t enemies).nodes,
        is_legal_leg enemies pr.1 pr.2 = true ∧
        (e = (pr.1, pr.2, dist pr.1 pr.2) ∨ e = (pr.2, pr.1, dist pr.1 pr.2)) := by
  intro e he
  unfold connectLoop at he
  rcases Graph.mem_edges_addEdges_elim he with h | h
  · rw [seedGraph_edges1] at h
    cases h
  · obtain ⟨pr, hpr, he'⟩ := List.mem_flatMap.1 h
    by_cases hleg : is_legal_leg enemies pr.1 pr.2
    · rw [if_pos hleg] at he'
      rcases List.mem_cons.1 he' with rfl | he''
      · exact ⟨pr, hpr, hleg, Or.inl rfl⟩
      · rw [List.mem_singleton] at he''
        exact ⟨pr, hpr, hleg, Or.inr he''⟩
    · rw [if_neg hleg] at he'
      cases he'

theorem stage1_graph_legal (dist : N → N → ℚ) (enemies : List (Enemy N))
    (s t : N)
    (Hsym : ∀ en ∈ enemies, en.isRadar = false →
      ∀ a b, en.is_legal_leg a b = en.is_legal_leg b a) :
    ∀ e ∈ (connectLoop dist enemies (seedGraph s t enemies)).edges,
      ∀ en ∈ enemies, en.isRadar = false →
        en.is_legal_leg e.1 e.2.1 = true := by
  intro e he en hen hr
  obtain ⟨pr, _, hleg, hcase⟩ := connectLoop_edges_inv1 dist enemies s t e he
  have h12 : en.is_legal_leg pr.1 pr.2 = true :=
    is_legal_leg_spec1.1 hleg en hen
  rcases hcase with rfl | rfl
  · exact h12
  · rw [← Hsym en hen hr]
    exact h12

end Stage1

theorem foldl_graph_preserve_mem {N : Type u} {A : Type v} {β : Type*}
    {Q : Graph N A → Prop} (step : Graph N A → β → Graph N A) :
    ∀ (l : List β), (∀ g b, b ∈ l → Q g → Q (step g b)) →
      ∀ (g : Graph N A), Q g → Q (l.foldl step g) := by
  intro l
  induction l with
  | nil => intro _ g h; exact h
  | cons b l ih =>
      intro H g h
      rw [List.foldl_cons]
      exact ih (fun g' b' hb' => H g' b' (List.mem_cons_of_mem _ hb'))
        _ (H g b (by simp) h)

namespace Stage2

variable {N : Type u} [DecidableEq N]

theorem is_legal_leg_spec2 {enemies : List (Enemy N)} {a b : N} :
    is_legal_leg enemies a b = true ↔
      ∀ en ∈ enemies, en.is_legal_leg a b = true := by
  unfold is_legal_leg
  rw [List.all_eq_true]

theorem edges_add_enemies2 (g : Graph N ℚ) (enemies : List (Enemy N)) :
    (add_enemies_to_graph g enemies).edges = g.edges := by
  induction enemies generalizing g with
  | nil => rfl
  | cons e es ih =>
      cases e with
      | asteroids boundary f =>
          rw [show (add_enemies_to_graph g (Enemy.asteroids boundary f :: es)) =
            add_enemies_to_graph (g.addNodesFrom boundary) es from rfl]
          rw [ih, Graph.edges_addNodesFrom]
      | post approx f =>
          rw [show (add_enemies_to_graph g (Enemy.post approx f :: es)) =
            add_enemies_to_graph (g.addNodesFrom approx) es from rfl]
          rw [ih, Graph.edges_addNodesFrom]
      | radar approx inC f =>
          rw [show (add_enemies_to_graph g (Enemy.radar approx inC f :: es)) =
            add_enemies_to_graph (g.addNodesFrom approx) es from rfl]
          rw [ih, Graph.edges_addNodesFrom]

theorem seedGraph_edges2 (s t : N) (enemies : List (Enemy N)) :
    (seedGraph s t enemies).edges = [] := by
  unfold seedGraph
  rw [edges_add_enemies2, Graph.edges_addNode, Graph.edges_addNode]
  rfl

theorem connectLoop_hasEdge_iff2 (dist : N → N → ℚ) (enemies : List (Enemy N))
    (s t : N) (u v : N) :
    (connectLoop dist enemies (seedGraph s t enemies)).hasEdge u v = true ↔
      ∃ pr ∈ combinations (seedGraph s t enemies).nodes,
        is_legal_leg enemies pr.1 pr.2 = true ∧
        ((u, v) = pr ∨ (u, v) = (pr.2, pr.1)) := by
  unfold connectLoop
  constructor
  · intro h
    unfold Graph.hasEdge at h
    rw [Graph.attr?_isSome_iff] at h
    obtain ⟨e, he, hk⟩ := h
    rcases Graph.mem_edges_addEdges_elim he with h' | h'
    · rw [seedGraph_edges2] at h'
      cases h'
    · obtain ⟨pr, hpr, he'⟩ := List.mem_flatMap.1 h'
      by_cases hleg : is_legal_leg enemies pr.1 pr.2
      · rw [if_pos hleg] at he'
        refine ⟨pr, hpr, hleg, ?_⟩
        rcases List.mem_cons.1 he' with rfl | he''
        · left
          unfold Graph.edgeKey at hk
          rw [← hk]
        · rw [List.mem_singleton] at he''
          right
          subst he''
          unfold Graph.edgeKey at hk
          rw [← hk]
      · rw [if_neg hleg] at he'
        cases he'
  · rintro ⟨pr, hpr, hleg, hcase⟩
    have hmem : ∀ e ∈ (if is_legal_leg enemies pr.1 pr.2 then
        [(pr.1, pr.2, dist pr.1 pr.2), (pr.2, pr.1, dist pr.1 pr.2)] else []),
        e ∈ (combinations (seedGraph s t enemies).nodes).flatMap (fun pr =>
          if is_legal_leg enemies pr.1 pr.2 then
            [(pr.1, pr.2, dist pr.1 pr.2), (pr.2, pr.1, dist pr.1 pr.2)]
          else []) := by
      intro e he
      exact List.mem_flatMap.2 ⟨pr, hpr, he⟩
    rcases hcase with h | h
    · have hmm : (pr.1, pr.2, dist pr.1 pr.2) ∈ _ :=
        hmem (pr.1, pr.2, dist pr.1 pr.2) (by rw [if_pos hleg]; simp)
      have hh := Graph.hasEdge_addEdges_of_mem (g := seedGraph s t enemies) hmm
      have hu : u = pr.1 := congrArg Prod.fst h
      have hv : v = pr.2 := congrArg Prod.snd h
      subst hu
      subst hv
      exact hh
    · have hmm : (pr.2, pr.1, dist pr.1 pr.2) ∈ _ :=
        hmem (pr.2, pr.1, dist pr.1 pr.2) (by rw [if_pos hleg]; simp)
      have hh := Graph.hasEdge_addEdges_of_mem (g := seedGraph s t enemies) hmm
      have hu : u = pr.2 := congrArg Prod.fst h
      have hv : v = pr.1 := congrArg Prod.snd h
      subst hu
      subst hv
      exact hh

theorem sample_in_polygon_contains {contains : N → Bool} :
    ∀ {st : List N} {c : N} {st' : List N},
      sample_in_polygon contains st = some (c, st') → contains c = true := by
  intro st
  induction st with
  | nil => intro c st' h; cases h
  | cons d rest ih =>
      intro c st' h
      unfold sample_in_polygon at h
      by_cases hd : contains d
      · rw [if_pos hd] at h
        have h1 : d = c :=
          congrArg (fun pr : N × List N => pr.1) (Option.some.inj h)
        exact h1 ▸ hd
      · rw [if_neg hd] at h
        exact ih h

theorem sampleMany_contains {contains : N → Bool} :
    ∀ (n : ℕ) (st : List N), ∀ c ∈ (sampleMany contains n st).1,
      contains c = true := by
  intro n
  induction n with
  | zero => intro st c hc; cases hc
  | succ n ih =>
      intro st c hc
      unfold sampleMany at hc
      cases hsample : sample_in_polygon contains st with
      | none =>
          rw [hsample] at hc
          cases hc
      | some pr =>
          rw [hsample] at hc
          rcases List.mem_cons.1 hc with rfl | hc'
          · exact sample_in_polygon_contains (by rw [hsample])
          · exact ih pr.2 c hc'

theorem gatherNewNodes_spec {radars : List (Enemy N)} {spr : ℕ} :
    ∀ (st : List N), ∀ c ∈ gatherNewNodes radars spr st,
      ∃ r ∈ radars, r.circleContains c = true := by
  induction radars with
  | nil => intro st c hc; cases hc
  | cons r rs ih =>
      intro st c hc
      unfold gatherNewNodes at hc
      rcases List.mem_append.1 hc with h | h
      · exact ⟨r, by simp, sampleMany_contains _ _ c h⟩
      · obtain ⟨r', hr', hcon⟩ := ih _ c h
        exact ⟨r', List.mem_cons_of_mem _ hr', hcon⟩

theorem foldl_nodes_elim {A : Type v} {β : Type*}
    (step : Graph N A → β → Graph N A) (P : β → N → Prop)
    (H : ∀ g b x, x ∈ (step g b).nodes → x ∈ g.nodes ∨ P b x) :
    ∀ (l : List β) (g : Graph N A) (x : N),
      x ∈ (l.foldl step g).nodes → x ∈ g.nodes ∨ ∃ b ∈ l, P b x := by
  intro l
  induction l with
  | nil => intro g x h; exact Or.inl h
  | cons b l ih =>
      intro g x h
      rw [List.foldl_cons] at h
      rcases ih _ x h with h' | ⟨b', hb', hp⟩
      · rcases H g b x h' with h'' | hp
        · exact Or.inl h''
        · exact Or.inr ⟨b, by simp, hp⟩
      · exact Or.inr ⟨b', List.mem_cons_of_mem _ hb', hp⟩

theorem samplerStep_nodes (dist : N → N → ℚ) (enemies : List (Enemy N))
    (g : Graph N ℚ) (node : N) :
    ∀ x ∈ (samplerStep dist enemies g node).nodes, x ∈ g.nodes ∨ x = node := by
  intro x hx
  unfold samplerStep at hx
  dsimp only at hx
  have helim := foldl_nodes_elim
    (fun h other =>
      if other = node ∨ dist node other > 5 then h
      else
        if is_legal_leg enemies node other = true then
          (if is_legal_leg enemies other node = true
            then h.addEdge other node (dist node other) else h).addEdge
            node other (dist node other)
        else if is_legal_leg enemies other node = true
          then h.addEdge other node (dist node other) else h)
    (fun other x => x = other ∨ x = node) ?_ _ _ x hx
  · rcases helim with h' | ⟨other, hother, hp⟩
    · exact (Graph.mem_nodes_addNode_iff _ _ _).1 h'
    · rcases hp with rfl | rfl
      · exact (Graph.mem_nodes_addNode_iff _ _ _).1 hother
      · exact Or.inr rfl
  · intro h other y hy
    dsimp only at hy
    by_cases hc1 : other = node ∨ dist node other > 5
    · rw [if_pos hc1] at hy
      exact Or.inl hy
    · rw [if_neg hc1] at hy
      by_cases hc2 : is_legal_leg enemies node other = true
      · rw [if_pos hc2] at hy
        rcases (Graph.mem_nodes_addEdge_iff _ _ _ _ _).1 hy with h1 | h1 | h1
        · by_cases hc3 : is_legal_leg enemies other node = true
          · rw [if_pos hc3] at h1
            rcases (Graph.mem_nodes_addEdge_iff _ _ _ _ _).1 h1 with h2 | h2 | h2
            · exact Or.inl h2
            · exact Or.inr (Or.inl h2)
            · exact Or.inr (Or.inr h2)
          · rw [if_neg hc3] at h1
            exact Or.inl h1
        · exact Or.inr (Or.inr h1)
        · exact Or.inr (Or.inl h1)
      · rw [if_neg hc2] at hy
        by_cases hc3 : is_legal_leg enemies other node = true
        · rw [if_pos hc3] at hy
          rcases (Graph.mem_nodes_addEdge_iff _ _ _ _ _).1 hy with h2 | h2 | h2
          · exact Or.inl h2
          · exact Or.inr (Or.inl h2)
          · exact Or.inr (Or.inr h2)
        · rw [if_neg hc3] at hy
          exact Or.inl hy

end Stage2

namespace Stage3

variable {N : Type u} [DecidableEq N]

theorem is_legal_leg_spec3 {enemies : List (Enemy N)} {a b : N} :
    is_legal_leg enemies a b = true ↔
      ∀ en ∈ enemies, en.is_legal_leg a b = true := by
  unfold is_legal_leg
  rw [List.all_eq_true]

theorem only_no_entrances_spec {enemies : List (Enemy N)} {a b : N} :
    is_leg_legal_only_no_entrances enemies a b = true ↔
      ∀ en ∈ enemies, en.isRadar = false → en.is_legal_leg a b = true := by
  unfold is_leg_legal_only_no_entrances
  rw [List.all_eq_true]
  constructor
  · intro h en hen hr
    exact h en (List.mem_filter.2 ⟨hen, by rw [hr]; rfl⟩)
  · intro h en hen
    have h2 := List.mem_filter.1 hen
    have h3 := h2.2
    rw [Bool.not_eq_true'] at h3
    exact h en h2.1 h3

theorem edges_add_enemies3 (g : Graph N (ℚ × Bool)) (enemies : List (Enemy N)) :
    (add_enemies_to_graph g enemies).edges = g.edges := by
  induction enemies generalizing g with
  | nil => rfl
  | cons e es ih =>
      cases e with
      | asteroids boundary f =>
          rw [show (add_enemies_to_graph g (Enemy.asteroids boundary f :: es)) =
            add_enemies_to_graph (g.addNodesFrom boundary) es from rfl]
          rw [ih, Graph.edges_addNodesFrom]
      | post approx f =>
          rw [show (add_enemies_to_graph g (Enemy.post approx f :: es)) =
            add_enemies_to_graph (g.addNodesFrom approx) es from rfl]
          rw [ih, Graph.edges_addNodesFrom]
      | radar approx inC f =>
          rw [show (add_enemies_to_graph g (Enemy.radar approx inC f :: es)) =
            add_enemies_to_graph (g.addNodesFrom approx) es from rfl]
          rw [ih, Graph.edges_addNodesFrom]

theorem nodup_add_enemies3 (g : Graph N (ℚ × Bool)) (enemies : List (Enemy N))
    (h : g.nodes.Nodup) : (add_enemies_to_graph g enemies).nodes.Nodup := by
  induction enemies generalizing g with
  | nil => exact h
  | cons e es ih =>
      cases e with
      | asteroids boundary f =>
          exact ih (g.addNodesFrom boundary) (Graph.nodup_nodes_addNodesFrom _ _ h)
      | post approx f =>
          exact ih (g.addNodesFrom approx) (Graph.nodup_nodes_addNodesFrom _ _ h)
      | radar approx inC f =>
          exact ih (g.addNodesFrom approx) (Graph.nodup_nodes_addNodesFrom _ _ h)

theorem seedGraph_edges3 (s t : N) (enemies : List (Enemy N)) :
    (seedGraph s t enemies).edges = [] := by
  unfold seedGraph
  rw [edges_add_enemies3, Graph.edges_addNode, Graph.edges_addNode]
  rfl

theorem seedGraph_nodup3 (s t : N) (enemies : List (Enemy N)) :
    (seedGraph s t enemies).nodes.Nodup := by
  unfold seedGraph
  exact nodup_add_enemies3 _ _
    (Graph.nodup_nodes_addNode _ _ (Graph.nodup_nodes_addNode _ _ List.nodup_nil))

theorem connectLoop_edges_inv3 (dist : N → N → ℚ) (enemies : List (Enemy N))
    (s t : N) :
    ∀ e ∈ (connectLoop dist enemies (seedGraph s t enemies)).edges,
      ∃ pr ∈ combinations (seedGraph s t enemies).nodes,
        is_legal_leg enemies pr.1 pr.2 = true ∧
        (e = (pr.1, pr.2, (dist pr.1 pr.2, false))
          ∨ e = (pr.2, pr.1, (dist pr.1 pr.2, false))) := by
  intro e he
  unfold connectLoop at he
  rcases Graph.mem_edges_addEdges_elim he with h | h
  · rw [seedGraph_edges3] at h
    cases h
  · obtain ⟨pr, hpr, he'⟩ := List.mem_flatMap.1 h
    by_cases hleg : is_legal_leg enemies pr.1 pr.2
    · rw [if_pos hleg] at he'
      rcases List.mem_cons.1 he' with rfl | he''
      · exact ⟨pr, hpr, hleg, Or.inl rfl⟩
      · rw [List.mem_singleton] at he''
        exact ⟨pr, hpr, hleg, Or.inr he''⟩
    · rw [if_neg hleg] at he'
      cases he'

theorem samplerStep_edges_inv (P : N × N × ℚ × Bool → Prop)
    (dist : N → N → ℚ) (enemies : List (Enemy N)) (node : N)
    (Hnew : ∀ other : N, other ≠ node →
      is_leg_legal_only_no_entrances enemies node other = true →
      P (other, node, (dist node other, !is_leg_legal_only_radars enemies other node)) ∧
      P (node, other, (dist node other, !is_leg_legal_only_radars enemies node other)))
    (g : Graph N (ℚ × Bool)) (h : ∀ e ∈ g.edges, P e) :
    ∀ e ∈ (samplerStep dist enemies g node).edges, P e := by
  unfold samplerStep
  dsimp only
  refine foldl_graph_preserve (Q := fun h => ∀ e ∈ h.edges, P e) _ ?_ _ _ ?_
  · intro g' other hg' e he
    by_cases hc1 : other = node ∨ dist node other > 5
    · rw [if_pos hc1] at he
      exact hg' e he
    · rw [if_neg hc1] at he
      by_cases hc2 : (!is_leg_legal_only_no_entrances enemies node other) = true
      · rw [if_pos hc2] at he
        exact hg' e he
      · rw [if_neg hc2] at he
        have hleg : is_leg_legal_only_no_entrances enemies node other = true := by
          revert hc2
          cases is_leg_legal_only_no_entrances enemies node other <;> simp
        have hne : other ≠ node := fun hc => hc1 (Or.inl hc)
        rcases Graph.mem_edges_addEdge_elim he with he1 | rfl
        · rcases Graph.mem_edges_addEdge_elim he1 with he2 | rfl
          · exact hg' e he2
          · exact (Hnew other hne hleg).1
        · exact (Hnew other hne hleg).2
  · intro e he
    rw [Graph.edges_addNode] at he
    exact h e he

theorem baseGraph_edges_inv (P : N × N × ℚ × Bool → Prop)
    (dist : N → N → ℚ) (enemies : List (Enemy N)) (s t : N) (draws : List N)
    (Hpair : ∀ pr : N × N, pr ∈ combinations (seedGraph s t enemies).nodes →
      is_legal_leg enemies pr.1 pr.2 = true →
      P (pr.1, pr.2, (dist pr.1 pr.2, false)) ∧
      P (pr.2, pr.1, (dist pr.1 pr.2, false)))
    (Hnew : ∀ node other : N, other ≠ node →
      is_leg_legal_only_no_entrances enemies node other = true →
      P (other, node, (dist node other, !is_leg_legal_only_radars enemies other node)) ∧
      P (node, other, (dist node other, !is_leg_legal_only_radars enemies node other))) :
    ∀ e ∈ (add_nodes_inside_radars dist
        (connectLoop dist enemies (seedGraph s t enemies)) enemies draws).edges,
      P e := by
  have hbase : ∀ e ∈ (connectLoop dist enemies (seedGraph s t enemies)).edges, P e := by
    intro e he
    obtain ⟨pr, hpr, hleg, hcase⟩ := connectLoop_edges_inv3 dist enemies s t e he
    rcases hcase with rfl | rfl
    · exact (Hpair pr hpr hleg).1
    · exact (Hpair pr hpr hleg).2
  unfold add_nodes_inside_radars
  by_cases hrad : (enemies.filter Enemy.isRadar).length = 0
  · rw [if_pos hrad]
    exact hbase
  · rw [if_neg hrad]
    refine foldl_graph_preserve (Q := fun h => ∀ e ∈ h.edges, P e) _ ?_ _ _ hbase
    intro g' node hg'
    exact samplerStep_edges_inv P dist enemies node
      (fun other hne hleg => Hnew node other hne hleg) g' hg'

theorem samplerStep_keysUnique (dist : N → N → ℚ) (enemies : List (Enemy N))
    (node : N) (g : Graph N (ℚ × Bool)) (h : Graph.KeysUnique g.edges) :
    Graph.KeysUnique (samplerStep dist enemies g node).edges := by
  unfold samplerStep
  dsimp only
  refine foldl_graph_preserve (Q := fun h => Graph.KeysUnique h.edges) _ ?_ _ _ ?_
  · intro g' other hg'
    by_cases hc1 : other = node ∨ dist node other > 5
    · rw [if_pos hc1]
      exact hg'
    · rw [if_neg hc1]
      by_cases hc2 : (!is_leg_legal_only_no_entrances enemies node other) = true
      · rw [if_pos hc2]
        exact hg'
      · rw [if_neg hc2]
        exact Graph.keysUnique_addEdge _ _ _ (Graph.keysUnique_addEdge _ _ _ hg')
  · show Graph.KeysUnique (g.addNode node).edges
    rw [Graph.edges_addNode]
    exact h

theorem baseGraph_keysUnique (dist : N → N → ℚ) (enemies : List (Enemy N))
    (s t : N) (draws : List N) :
    Graph.KeysUnique (add_nodes_inside_radars dist
      (connectLoop dist enemies (seedGraph s t enemies)) enemies draws).edges := by
  have hbase : Graph.KeysUnique
      (connectLoop dist enemies (seedGraph s t enemies)).edges := by
    unfold connectLoop
    apply Graph.keysUnique_addEdges
    rw [seedGraph_edges3]
    exact List.nodup_nil
  unfold add_nodes_inside_radars
  by_cases hrad : (enemies.filter Enemy.isRadar).length = 0
  · rw [if_pos hrad]
    exact hbase
  · rw [if_neg hrad]
    refine foldl_graph_preserve (Q := fun h => Graph.KeysUnique h.edges) _ ?_ _ _ hbase
    intro g' node hg'
    exact samplerStep_keysUnique dist enemies node g' hg'

theorem baseGraph_struct (dist : N → N → ℚ) (enemies : List (Enemy N))
    (s t : N) (draws : List N) (Hdist : ∀ a b : N, 0 ≤ dist a b) :
    ∀ e ∈ (add_nodes_inside_radars dist
        (connectLoop dist enemies (seedGraph s t enemies)) enemies draws).edges,
      e.1 ≠ e.2.1 ∧ 0 ≤ e.2.2.1 := by
  apply baseGraph_edges_inv
  · intro pr hpr hleg
    have hne := combinations_distinct (seedGraph_nodup3 s t enemies) pr hpr
    exact ⟨⟨hne, Hdist _ _⟩, ⟨fun hc => hne hc.symm, Hdist _ _⟩⟩
  · intro node other hne _
    exact ⟨⟨fun hc => hne hc, Hdist _ _⟩, ⟨fun hc => hne hc.symm, Hdist _ _⟩⟩

theorem baseGraph_legal (dist : N → N → ℚ) (enemies : List (Enemy N))
    (s t : N) (draws : List N)
    (Hsym : ∀ en ∈ enemies, en.isRadar = false →
      ∀ a b : N, en.is_legal_leg a b = en.is_legal_leg b a) :
    ∀ e ∈ (add_nodes_inside_radars dist
        (connectLoop dist enemies (seedGraph s t enemies)) enemies draws).edges,
      ∀ en ∈ enemies, en.isRadar = false → en.is_legal_leg e.1 e.2.1 = true := by
  apply baseGraph_edges_inv
  · intro pr hpr hleg
    constructor
    · intro en hen hr
      exact is_legal_leg_spec3.1 hleg en hen
    · intro en hen hr
      rw [← Hsym en hen hr]
      exact is_legal_leg_spec3.1 hleg en hen
  · intro node other hne hleg
    constructor
    · intro en hen hr
      rw [← Hsym en hen hr]
      exact only_no_entrances_spec.1 hleg en hen hr
    · intro en hen hr
      exact only_no_entrances_spec.1 hleg en hen hr

end Stage3

namespace Stage3

variable {N : Type u} [DecidableEq N]

theorem collapseRev_some_shape :
    ∀ {l m : List N}, collapseRev l = some m → ∃ a b r, m = a :: b :: r ∧ a ≠ b := by
  intro l
  induction l with
  | nil => intro m h; cases h
  | cons a l ih =>
      intro m h
      cases l with
      | nil => cases h
      | cons b r =>
          unfold collapseRev at h
          by_cases hab : a = b
          · rw [if_pos hab] at h
            exact ih h
          · rw [if_neg hab] at h
            exact ⟨a, b, r, (Option.some.inj h).symm, hab⟩

theorem collapseRev_suffix :
    ∀ {l m : List N}, collapseRev l = some m → m <:+ l := by
  intro l
  induction l with
  | nil => intro m h; cases h
  | cons a l ih =>
      intro m h
      cases l with
      | nil => cases h
      | cons b r =>
          unfold collapseRev at h
          by_cases hab : a = b
          · rw [if_pos hab] at h
            exact (ih h).trans (List.suffix_cons a (b :: r))
          · rw [if_neg hab] at h
            rw [← Option.some.inj h]

theorem collapseRev_head :
    ∀ {l m : List N}, collapseRev l = some m →
      ∀ {a : N}, l.head? = some a → m.head? = some a := by
  intro l
  induction l with
  | nil => intro m h; cases h
  | cons x l ih =>
      intro m h a ha
      have hxa : x = a := Option.some.inj ha
      subst hxa
      cases l with
      | nil => cases h
      | cons b r =>
          unfold collapseRev at h
          by_cases hab : x = b
          · rw [if_pos hab] at h
            subst hab
            exact ih h rfl
          · rw [if_neg hab] at h
            rw [← Option.some.inj h]
            rfl

theorem prefix_head?_eq {l1 l2 : List N} (h : l1 <+: l2) (hne : l1 ≠ []) :
    l1.head? = l2.head? := by
  obtain ⟨r, rfl⟩ := h
  cases l1 with
  | nil => exact absurd rfl hne
  | cons a l => rfl

theorem retrieve_spec {p : List (N × ℚ)} {c : List N}
    (h : retrieve_path_from_layered_path p = some c) :
    c ≠ [] ∧ c <+: p.map Prod.fst ∧ c.head? = (p.map Prod.fst).head? ∧
      c.getLast? = (p.map Prod.fst).getLast? := by
  unfold retrieve_path_from_layered_path at h
  cases hcol : collapseRev ((p.map Prod.fst).reverse) with
  | none =>
      rw [hcol] at h
      cases h
  | some m =>
      rw [hcol] at h
      have hcm : c = m.reverse := (Option.some.inj h).symm
      obtain ⟨a0, b0, r0, hm, _⟩ := collapseRev_some_shape hcol
      have hmne : m ≠ [] := by
        rw [hm]
        simp
      have hcne : c ≠ [] := by
        rw [hcm]
        simpa using hmne
      have hpre : c <+: p.map Prod.fst := by
        rw [hcm, ← List.reverse_reverse (p.map Prod.fst)]
        exact List.reverse_prefix.2 (collapseRev_suffix hcol)
      refine ⟨hcne, hpre, prefix_head?_eq hpre hcne, ?_⟩
      have hlne : (p.map Prod.fst).reverse ≠ [] := by
        intro hc
        rw [hc] at hcol
        cases hcol
      cases hh : ((p.map Prod.fst).reverse).head? with
      | none => exact absurd (List.head?_eq_none_iff.1 hh) hlne
      | some a =>
          have hmh : m.head? = some a := collapseRev_head hcol hh
          rw [hcm, List.getLast?_reverse, hmh, ← hh, List.head?_reverse]

end Stage3

theorem layer_sum_telescope {N : Type u} :
    ∀ {p : List (N × ℚ)} {a b : N × ℚ}, p.head? = some a → p.getLast? = some b →
      ((legs p).map (fun l => l.2.2 - l.1.2)).sum = b.2 - a.2 := by
  intro p
  induction p with
  | nil => intro a b ha; cases ha
  | cons x rest ih =>
      intro a b ha hb
      have hxa : x = a := Option.some.inj ha
      subst hxa
      cases rest with
      | nil =>
          have : x = b := Option.some.inj hb
          subst this
          simp [legs]
      | cons y r =>
          rw [List.getLast?_cons_cons] at hb
          have hrec := ih (a := y) (b := b) rfl hb
          rw [show legs (x :: y :: r) = (x, y) :: legs (y :: r) from rfl,
            List.map_cons, List.sum_cons, hrec]
          ring

theorem sum_map_prefix_le {α : Type u} (f : α → ℚ) {l1 l2 : List α}
    (h : l1 <+: l2) (hf : ∀ x ∈ l2, 0 ≤ f x) :
    (l1.map f).sum ≤ (l2.map f).sum := by
  obtain ⟨r, rfl⟩ := h
  rw [List.map_append, List.sum_append]
  have : 0 ≤ (r.map f).sum := by
    apply List.sum_nonneg
    intro x hx
    obtain ⟨a, ha, rfl⟩ := List.mem_map.1 hx
    exact hf a (List.mem_append_right _ ha)
  linarith

namespace Graph

variable {N : Type u} {A : Type v} [DecidableEq N]

theorem attr?_self_none {g : Graph N A} (h : ∀ e ∈ g.edges, e.1 ≠ e.2.1) (x : N) :
    g.attr? x x = none := by
  unfold attr?
  rw [List.find?_eq_none.2]
  · rfl
  · intro e he
    simp only [decide_eq_true_eq]
    intro hk
    exact h e he (by
      have h1 : e.1 = x := congrArg Prod.fst hk
      have h2 : e.2.1 = x := congrArg Prod.snd hk
      rw [h1, h2])

end Graph

namespace Stage3

variable {N : Type u} [DecidableEq N]

theorem build_keysUnique (dist : N → N → ℚ) (g : Graph N (ℚ × Bool))
    (s t : N) (pct q : ℚ) :
    Graph.KeysUnique (build_layers_graph dist g s t pct q).1.edges := by
  apply Graph.keysUnique_addEdges
  apply Graph.keysUnique_addEdges
  rw [edges_layerNodesFold]
  exact List.nodup_nil

theorem detection_layer_shift {M d q L : ℚ} (hq : 0 < q) (hd : 0 ≤ d)
    (hL : L ∈ qMultiples (M - edgeDetection d q) q) :
    L + edgeDetection d q ∈ qMultiples M q := by
  rw [mem_qMultiples hq] at hL ⊢
  obtain ⟨k, rfl, hk⟩ := hL
  have hc : (0 : ℤ) ≤ ⌈d / q⌉ := edgeDetection_ceil_nonneg hq hd
  refine ⟨k + Int.toNat ⌈d / q⌉, ?_, by linarith⟩
  have h1 : ((Int.toNat ⌈d / q⌉ : ℕ) : ℚ) = ((⌈d / q⌉ : ℤ) : ℚ) := by
    exact_mod_cast Int.toNat_of_nonneg hc
  rw [edgeDetection_eq_ceil hq]
  push_cast
  rw [h1]
  ring

theorem build_nodes_spec {dist : N → N → ℚ} {g : Graph N (ℚ × Bool)}
    {s t : N} {pct q : ℚ} (hq : 0 < q)
    (hd : ∀ e ∈ g.edges, 0 ≤ e.2.2.1) (hWF : g.EdgesInNodes) (ht : t ∈ g.nodes) :
    ∀ x ∈ (build_layers_graph dist g s t pct q).1.nodes,
      x.1 ∈ g.nodes ∧ x.2 ∈ qMultiples (dist s t * pct) q := by
  intro x hx
  rcases Graph.mem_nodes_addEdges_elim hx with hx' | ⟨e, he, hxe⟩
  · rcases Graph.mem_nodes_addEdges_elim hx' with hx'' | ⟨e, he, hxe⟩
    · rw [mem_nodes_layerNodesFold] at hx''
      rcases hx'' with h | ⟨h1, h2⟩
      · cases h
      · exact ⟨h1, h2⟩
    · obtain ⟨be, hbe, hce⟩ := List.mem_flatMap.1 he
      unfold edgeCopies at hce
      by_cases hdet : be.2.2.2
      · rw [if_pos hdet] at hce
        obtain ⟨L, hL, rfl⟩ := mem_add_detected_edge.1 hce
        have hL' : L ∈ qMultiples (dist s t * pct) q :=
          qMultiples_mono hq (by
            have := edgeDetection_nonneg hq (hd be hbe)
            linarith) hL
        rcases hxe with rfl | rfl
        · exact ⟨(hWF be hbe).1, hL'⟩
        · exact ⟨(hWF be hbe).2, detection_layer_shift hq (hd be hbe) hL⟩
      · rw [if_neg hdet] at hce
        obtain ⟨L, hL, rfl⟩ := mem_add_legal_edge.1 hce
        rcases hxe with rfl | rfl
        · exact ⟨(hWF be hbe).1, hL⟩
        · exact ⟨(hWF be hbe).2, hL⟩
  · obtain ⟨i, hi, rfl⟩ := mem_add_target_edges.1 he
    have hik : ∀ k : ℕ, k < Int.toNat (⌊dist s t * pct / q⌋ + 1) →
        q * (k : ℚ) ∈ qMultiples (dist s t * pct) q := by
      intro k hk
      rw [mem_qMultiples hq]
      refine ⟨k, rfl, ?_⟩
      rw [Int.lt_toNat] at hk
      have h1 : (k : ℤ) ≤ ⌊dist s t * pct / q⌋ := by omega
      have h2 : (k : ℚ) ≤ dist s t * pct / q :=
        le_trans (by exact_mod_cast h1) (Int.floor_le _)
      rw [mul_comm]
      exact (le_div_iff₀ hq).1 h2
    rcases hxe with rfl | rfl
    · exact ⟨ht, hik i (by omega)⟩
    · refine ⟨ht, ?_⟩
      have := hik (i + 1) hi
      rw [show ((i + 1 : ℕ) : ℚ) = (i : ℚ) + 1 by push_cast; ring] at this
      exact this

end Stage3

namespace Graph

variable {N : Type u} {A : Type v} [DecidableEq N]

theorem isWalk_mono {g1 g2 : Graph N A} (hsub : ∀ e ∈ g1.edges, e ∈ g2.edges)
    {p : List N} (hw : g1.IsWalk p) : g2.IsWalk p := by
  intro l hl
  have h := hw l hl
  rw [attr?_isSome_iff] at h ⊢
  obtain ⟨e, he, hk⟩ := h
  exact ⟨e, hsub e he, hk⟩

theorem pathLength_congr_sub {w : A → ℚ} {g1 g2 : Graph N A}
    (hKU1 : KeysUnique g1.edges) (hKU2 : KeysUnique g2.edges)
    (hsub : ∀ e ∈ g1.edges, e ∈ g2.edges) {p : List N} (hw : g1.IsWalk p) :
    g2.pathLength w p = g1.pathLength w p := by
  unfold pathLength
  apply congrArg List.sum
  apply List.map_congr_left
  intro l hl
  have h := hw l hl
  rw [attr?_isSome_iff] at h
  obtain ⟨e, he, hk⟩ := h
  have e1 : e.1 = l.1 := congrArg Prod.fst hk
  have e2 : e.2.1 = l.2 := congrArg Prod.snd hk
  have h1 : g1.attr? l.1 l.2 = some e.2.2 := by
    rw [← e1, ← e2]
    exact attr?_eq_some_of_mem hKU1 he
  have h2 : g2.attr? l.1 l.2 = some e.2.2 := by
    rw [← e1, ← e2]
    exact attr?_eq_some_of_mem hKU2 (hsub e he)
  unfold weightOf
  rw [h1, h2]

end Graph

namespace Stage3

variable {N : Type u} [DecidableEq N]

theorem chainPath_head (t : N) (q : ℚ) (i len : ℕ) :
    (chainPath t q i len).head? = some (t, q * (i : ℚ)) := by
  unfold chainPath
  rw [map_range_succ_cons (fun (k : ℕ) => (t, q * ((i + k : ℕ) : ℚ))) len]
  simp

theorem chainPath_getLast (t : N) (q : ℚ) (i len : ℕ) :
    (chainPath t q i len).getLast? = some (t, q * ((i + len : ℕ) : ℚ)) := by
  unfold chainPath
  rw [List.range_succ, List.map_append, List.map_singleton, List.getLast?_concat]

theorem chainPath_ne_nil (t : N) (q : ℚ) (i len : ℕ) :
    chainPath t q i len ≠ [] := by
  intro hc
  have := chainPath_head t q i len
  rw [hc] at this
  cases this

theorem chainPath_nodup {t : N} {q : ℚ} (hq : 0 < q) (i len : ℕ) :
    (chainPath t q i len).Nodup := by
  unfold chainPath
  refine List.Nodup.map ?_ (List.nodup_range _)
  intro k k' h
  have h2 : q * ((i + k : ℕ) : ℚ) = q * ((i + k' : ℕ) : ℚ) :=
    congrArg Prod.snd h
  have h3 : ((i + k : ℕ) : ℚ) = ((i + k' : ℕ) : ℚ) :=
    mul_left_cancel₀ (ne_of_gt hq) h2
  have h4 : i + k = i + k' := by exact_mod_cast h3
  omega

theorem mem_chainPath {t : N} {q : ℚ} {i len : ℕ} {x : N × ℚ} :
    x ∈ chainPath t q i len ↔ ∃ k ≤ len, x = (t, q * ((i + k : ℕ) : ℚ)) := by
  unfold chainPath
  rw [List.mem_map]
  constructor
  · rintro ⟨k, hk, rfl⟩
    rw [List.mem_range] at hk
    exact ⟨k, by omega, rfl⟩
  · rintro ⟨k, hk, rfl⟩
    exact ⟨k, List.mem_range.2 (by omega), rfl⟩

theorem chainPath_cons (t : N) (q : ℚ) (i len : ℕ) :
    chainPath t q i (len + 1) = (t, q * (i : ℚ)) :: chainPath t q (i + 1) len := by
  unfold chainPath
  rw [List.range_succ_eq_map, List.map_cons, List.map_map]
  refine congrArg₂ List.cons rfl ?_
  apply List.map_congr_left
  intro k _
  show (t, q * ((i + (k + 1) : ℕ) : ℚ)) = (t, q * (((i + 1) + k : ℕ) : ℚ))
  rw [show i + (k + 1) = (i + 1) + k from by omega]

theorem chainPath_walk_len {dist : N → N → ℚ} {g : Graph N (ℚ × Bool)}
    {s t : N} {pct q : ℚ} (hq : 0 < q) (hKU : Graph.KeysUnique g.edges)
    (hNS : ∀ e ∈ g.edges, e.1 ≠ e.2.1) :
    ∀ (len i : ℕ), i + len + 1 ≤ Int.toNat (⌊dist s t * pct / q⌋ + 1) →
      (build_layers_graph dist g s t pct q).1.IsWalk (chainPath t q i len) ∧
      (build_layers_graph dist g s t pct q).1.pathLength id (chainPath t q i len) = 0 := by
  intro len
  induction len with
  | zero =>
      intro i _
      constructor
      · intro l hl
        have : legs (chainPath t q i 0) = [] := rfl
        rw [this] at hl
        cases hl
      · rfl
  | succ len ih =>
      intro i hbound
      have hedge : ((t, q * (i : ℚ)), (t, q * ((i : ℚ) + 1)), (0 : ℚ))
          ∈ (build_layers_graph dist g s t pct q).1.edges := by
        rw [build_edges_eq dist g s t pct q hq hKU hNS]
        apply List.mem_append_right
        exact mem_add_target_edges.2 ⟨i, by omega, rfl⟩
      obtain ⟨hw', hl'⟩ := ih (i + 1) (by omega)
      have hcons := chainPath_cons t q i len
      have hhead := chainPath_head t q (i + 1) len
      obtain ⟨y, rest, hyr⟩ :=
        List.exists_cons_of_ne_nil (chainPath_ne_nil t q (i + 1) len)
      have hy : y = (t, q * ((i + 1 : ℕ) : ℚ)) := by
        rw [hyr] at hhead
        exact Option.some.inj hhead
      have hkey : ((t, q * (i : ℚ)), y) =
          (((t, q * (i : ℚ)), (t, q * ((i : ℚ) + 1)), (0 : ℚ)).1,
           ((t, q * (i : ℚ)), (t, q * ((i : ℚ) + 1)), (0 : ℚ)).2.1) := by
        rw [hy]
        have : ((i + 1 : ℕ) : ℚ) = (i : ℚ) + 1 := by push_cast; ring
        rw [this]
      constructor
      · rw [hcons, hyr]
        intro l hl
        rcases List.mem_cons.1 hl with rfl | hl'
        · rw [Graph.attr?_isSome_iff]
          refine ⟨_, hedge, ?_⟩
          unfold Graph.edgeKey
          exact hkey.symm
        · have hw2 := hw'
          rw [hyr] at hw2
          exact hw2 l hl'
      · rw [hcons, hyr]
        have hlegs : legs ((t, q * (i : ℚ)) :: y :: rest)
            = ((t, q * (i : ℚ)), y) :: legs (y :: rest) := rfl
        unfold Graph.pathLength
        rw [hlegs, List.map_cons, List.sum_cons]
        have hzero : (build_layers_graph dist g s t pct q).1.weightOf id
            (t, q * (i : ℚ)) y = 0 := by
          unfold Graph.weightOf
          have hattr : (build_layers_graph dist g s t pct q).1.attr?
              (t, q * (i : ℚ)) y = some 0 := by
            have := Graph.attr?_eq_some_of_mem
              (build_keysUnique dist g s t pct q) hedge
            rw [show y = (t, q * ((i : ℚ) + 1)) from by
              rw [hy]; push_cast; ring_nf]
            exact this
          rw [hattr]
          rfl
        rw [hzero]
        have := hl'
        unfold Graph.pathLength at this
        rw [hyr] at this
        rw [this]
        ring

end Stage3

namespace Stage3

variable {N : Type u} [DecidableEq N]

theorem qMultiple_mem_of_lt {M q : ℚ} (hq : 0 < q) {k : ℕ}
    (hk : k < Int.toNat (⌊M / q⌋ + 1)) : q * (k : ℚ) ∈ qMultiples M q := by
  rw [mem_qMultiples hq]
  refine ⟨k, rfl, ?_⟩
  rw [Int.lt_toNat] at hk
  have h1 : (k : ℤ) ≤ ⌊M / q⌋ := by omega
  have h2 : (k : ℚ) ≤ M / q := le_trans (by exact_mod_cast h1) (Int.floor_le _)
  rw [mul_comm]
  exact (le_div_iff₀ hq).1 h2

theorem build_edges_mono {dist : N → N → ℚ} {g : Graph N (ℚ × Bool)}
    {s t : N} {pct1 pct2 q : ℚ} (hq : 0 < q)
    (hKU : Graph.KeysUnique g.edges) (hNS : ∀ e ∈ g.edges, e.1 ≠ e.2.1)
    (hM : dist s t * pct1 ≤ dist s t * pct2) :
    ∀ e ∈ (build_layers_graph dist g s t pct1 q).1.edges,
      e ∈ (build_layers_graph dist g s t pct2 q).1.edges := by
  intro e he
  rw [build_edges_eq dist g s t pct1 q hq hKU hNS] at he
  rw [build_edges_eq dist g s t pct2 q hq hKU hNS]
  rcases List.mem_append.1 he with h | h
  · apply List.mem_append_left
    obtain ⟨be, hbe, hc⟩ := List.mem_flatMap.1 h
    refine List.mem_flatMap.2 ⟨be, hbe, ?_⟩
    unfold edgeCopies at hc ⊢
    by_cases hdet : be.2.2.2
    · rw [if_pos hdet] at hc ⊢
      obtain ⟨L, hL, rfl⟩ := mem_add_detected_edge.1 hc
      exact mem_add_detected_edge.2 ⟨L, qMultiples_mono hq (by linarith) hL, rfl⟩
    · rw [if_neg hdet] at hc ⊢
      obtain ⟨L, hL, rfl⟩ := mem_add_legal_edge.1 hc
      exact mem_add_legal_edge.2 ⟨L, qMultiples_mono hq hM hL, rfl⟩
  · apply List.mem_append_right
    obtain ⟨i, hi, rfl⟩ := mem_add_target_edges.1 h
    refine mem_add_target_edges.2 ⟨i, ?_, rfl⟩
    have hfl : ⌊dist s t * pct1 / q⌋ ≤ ⌊dist s t * pct2 / q⌋ := by
      apply Int.floor_le_floor
      gcongr
    omega

end Stage3

/-- C5: in the stage-3 layered graph, a detected base edge from u to v with
distance d is inserted as the layered copy from layer L to layer
L + ceil(d/quanta)*quanta exactly for those layers L that are nonnegative
multiples of the quantum and whose landing layer stays within
max_detection; no copy is inserted past that ceiling. -/
theorem claim_C5_detected_edge_layers {N : Type u} [DecidableEq N]
    (dist : N → N → ℚ) (g : Graph N (ℚ × Bool)) (s t : N) (pct q : ℚ)
    (hq : 0 < q) (hKU : Graph.KeysUnique g.edges)
    (hNS : ∀ e ∈ g.edges, e.1 ≠ e.2.1)
    (u v : N) (d : ℚ) (hmem : (u, v, (d, true)) ∈ g.edges) :
    ∀ L L' : ℚ,
      (((u, L), (v, L'), d) ∈ (Stage3.build_layers_graph dist g s t pct q).1.edges
        ↔ (L' = L + (⌈d / q⌉ : ℤ) * q ∧ (∃ k : ℕ, L = q * (k : ℚ))
            ∧ L' ≤ dist s t * pct)) := by
  intro L L'
  have hNE : u ≠ v := hNS (u, v, (d, true)) hmem
  rw [Stage3.build_edges_eq dist g s t pct q hq hKU hNS]
  constructor
  · intro he
    rcases List.mem_append.1 he with h | h
    · obtain ⟨be, hbe, hc⟩ := List.mem_flatMap.1 h
      obtain ⟨hb1, hb2, _⟩ := Stage3.copies_baseCoords hc
      have hbe_eq : be = (u, v, (d, true)) :=
        Graph.eq_of_keysUnique hKU hbe hmem (by
          unfold Graph.edgeKey
          rw [hb1, hb2])
      subst hbe_eq
      unfold Stage3.edgeCopies at hc
      rw [if_pos rfl] at hc
      obtain ⟨L0, hL0, heq⟩ := Stage3.mem_add_detected_edge.1 hc
      have hLL : L = L0 := by
        have := congrArg (fun x => x.1.2) heq
        exact this
      subst hLL
      have hLL' : L' = L + Stage3.edgeDetection d q := by
        have := congrArg (fun x => x.2.1.2) heq
        exact this
      rw [mem_qMultiples hq] at hL0
      obtain ⟨k, hk, hle⟩ := hL0
      refine ⟨by rw [hLL', Stage3.edgeDetection_eq_ceil hq], ⟨k, hk⟩, ?_⟩
      rw [hLL', Stage3.edgeDetection_eq_ceil hq] at *
      linarith
    · exfalso
      obtain ⟨i, _, heq⟩ := Stage3.mem_add_target_edges.1 h
      have hu : u = t := congrArg (fun x => x.1.1) heq
      have hv : v = t := congrArg (fun x => x.2.1.1) heq
      exact hNE (hu.trans hv.symm)
  · rintro ⟨hL', ⟨k, hk⟩, hceil⟩
    apply List.mem_append_left
    refine List.mem_flatMap.2 ⟨(u, v, (d, true)), hmem, ?_⟩
    unfold Stage3.edgeCopies
    rw [if_pos rfl]
    apply Stage3.mem_add_detected_edge.2
    refine ⟨L, ?_, ?_⟩
    · rw [mem_qMultiples hq]
      refine ⟨k, hk, ?_⟩
      rw [Stage3.edgeDetection_eq_ceil hq]
      rw [hL'] at hceil
      linarith
    · rw [hL', Stage3.edgeDetection_eq_ceil hq]

/-- C5 witness: concrete instance with a detected base edge of distance 3,
quantum one half, budget 5. -/
theorem claim_C5_witness :
    (0 : ℚ) < 1/2 ∧
    Graph.KeysUnique (Graph.mk [(0 : ℚ), 10] [(0, 10, ((3 : ℚ), true))]).edges ∧
    (∀ e ∈ (Graph.mk [(0 : ℚ), 10] [(0, 10, ((3 : ℚ), true))]).edges,
      e.1 ≠ e.2.1) ∧
    ((0, 10, ((3 : ℚ), true)) ∈ (Graph.mk [(0 : ℚ), 10] [(0, 10, ((3 : ℚ), true))]).edges) ∧
    ((((0 : ℚ), (1/2 : ℚ)), ((10 : ℚ), (7/2 : ℚ)), (3 : ℚ)) ∈
        (Stage3.build_layers_graph (fun a b => |a - b|)
          (Graph.mk [(0 : ℚ), 10] [(0, 10, ((3 : ℚ), true))]) 0 10 (1/2) (1/2)).1.edges
      ↔ ((7/2 : ℚ) = 1/2 + (⌈(3 : ℚ) / (1/2)⌉ : ℤ) * (1/2)
          ∧ (∃ k : ℕ, (1/2 : ℚ) = 1/2 * (k : ℚ)) ∧ (7/2 : ℚ) ≤ |(0 : ℚ) - 10| * (1/2))) :=
  ⟨by norm_num, by unfold Graph.KeysUnique; decide, by decide, by decide,
    claim_C5_detected_edge_layers (fun a b => |a - b|)
      (Graph.mk [(0 : ℚ), 10] [(0, 10, ((3 : ℚ), true))]) 0 10 (1/2) (1/2)
      (by norm_num) (by unfold Graph.KeysUnique; decide) (by decide) 0 10 3
      (by decide) (1/2) (7/2)⟩

/-- C4: every edge of the stage-3 layered graph goes to a layer at least as
high as its source layer, and the zero-cost target-chain edges connect the
target copy of a layer only to the target copy exactly one quantum higher,
never in the reverse direction. -/
theorem claim_C4_layer_monotone {N : Type u} [DecidableEq N]
    (dist : N → N → ℚ) (g : Graph N (ℚ × Bool)) (s t : N) (pct q : ℚ)
    (hq : 0 < q) (hd : ∀ e ∈ g.edges, 0 ≤ e.2.2.1) :
    (∀ e ∈ (Stage3.build_layers_graph dist g s t pct q).1.edges,
      e.1.2 ≤ e.2.1.2)
    ∧ (∀ c ∈ Stage3.add_target_edges (qMultiples (dist s t * pct) q) t,
        c.1.1 = t ∧ c.2.1.1 = t ∧ c.2.2 = 0 ∧ c.2.1.2 = c.1.2 + q ∧
        c.1.2 < c.2.1.2 ∧
        c.1.2 ∈ qMultiples (dist s t * pct) q ∧
        c.2.1.2 ∈ qMultiples (dist s t * pct) q) := by
  constructor
  · intro e he
    rcases Stage3.mem_build_edges_elim he with ⟨be, hbe, hc⟩ | h
    · unfold Stage3.edgeCopies at hc
      by_cases hdet : be.2.2.2
      · rw [if_pos hdet] at hc
        obtain ⟨L, _, rfl⟩ := Stage3.mem_add_detected_edge.1 hc
        have := Stage3.edgeDetection_nonneg hq (hd be hbe)
        show L ≤ L + Stage3.edgeDetection be.2.2.1 q
        linarith
      · rw [if_neg hdet] at hc
        obtain ⟨L, _, rfl⟩ := Stage3.mem_add_legal_edge.1 hc
        exact le_refl _
    · obtain ⟨i, _, rfl⟩ := Stage3.mem_add_target_edges.1 h
      show q * (i : ℚ) ≤ q * ((i : ℚ) + 1)
      nlinarith
  · intro c hc
    obtain ⟨i, hi, rfl⟩ := Stage3.mem_add_target_edges.1 hc
    have hcast : ((i : ℚ) + 1) = ((i + 1 : ℕ) : ℚ) := by push_cast; ring
    refine ⟨rfl, rfl, rfl, by ring, ?_, ?_, ?_⟩
    · show q * (i : ℚ) < q * ((i : ℚ) + 1)
      have := mul_lt_mul_of_pos_left (show (i : ℚ) < (i : ℚ) + 1 by linarith) hq
      linarith
    · exact Stage3.qMultiple_mem_of_lt hq (by omega)
    · show q * ((i : ℚ) + 1) ∈ qMultiples (dist s t * pct) q
      rw [hcast]
      exact Stage3.qMultiple_mem_of_lt hq hi

/-- C4 witness: concrete instance with one detected and one legal base
edge, quantum one half, budget 5. -/
theorem claim_C4_witness :
    (0 : ℚ) < 1/2 ∧
    (∀ e ∈ (Graph.mk [(0 : ℚ), 10]
        [(0, 10, ((3 : ℚ), true)), (10, 0, ((3 : ℚ), false))]).edges,
      0 ≤ e.2.2.1) ∧
    ((∀ e ∈ (Stage3.build_layers_graph (fun a b => |a - b|)
        (Graph.mk [(0 : ℚ), 10]
          [(0, 10, ((3 : ℚ), true)), (10, 0, ((3 : ℚ), false))]) 0 10 (1/2) (1/2)).1.edges,
      e.1.2 ≤ e.2.1.2)
    ∧ (∀ c ∈ Stage3.add_target_edges
        (qMultiples (|(0 : ℚ) - 10| * (1/2)) (1/2)) (10 : ℚ),
        c.1.1 = 10 ∧ c.2.1.1 = 10 ∧ c.2.2 = 0 ∧ c.2.1.2 = c.1.2 + 1/2 ∧
        c.1.2 < c.2.1.2 ∧
        c.1.2 ∈ qMultiples (|(0 : ℚ) - 10| * (1/2)) (1/2) ∧
        c.2.1.2 ∈ qMultiples (|(0 : ℚ) - 10| * (1/2)) (1/2))) :=
  ⟨by norm_num, by decide,
    claim_C4_layer_monotone (fun a b => |a - b|)
      (Graph.mk [(0 : ℚ), 10]
        [(0, 10, ((3 : ℚ), true)), (10, 0, ((3 : ℚ), false))]) 0 10 (1/2) (1/2)
      (by norm_num) (by decide)⟩

/-- C9: when no source-target path exists in the constructed graph, the
stage-1 and stage-2 calculate_path return the empty list as the path,
together with the graph, instead of raising (the NetworkXNoPath exception
is caught). -/
theorem claim_C9_no_path_empty {N : Type u} [DecidableEq N]
    (dist : N → N → ℚ) (s t : N) (enemies : List (Enemy N)) (draws : List N)
    (h1 : ¬ ∃ p, (Stage1.calculate_path dist s t enemies).2.IsWalk p ∧
      p.head? = some s ∧ p.getLast? = some t)
    (h2 : ¬ ∃ p, (Stage2.calculate_path dist s t enemies draws).2.IsWalk p ∧
      p.head? = some s ∧ p.getLast? = some t) :
    (Stage1.calculate_path dist s t enemies).1 = [] ∧
    (Stage2.calculate_path dist s t enemies draws).1 = [] := by
  constructor
  · have hn := Graph.shortest_path_none (w := id)
      (g := (Stage1.calculate_path dist s t enemies).2) (s := s) (t := t) h1
    show (match Graph.shortest_path id
        (Stage1.calculate_path dist s t enemies).2 s t with
      | some p => p
      | none => []) = []
    rw [hn]
  · have hn := Graph.shortest_path_none (w := id)
      (g := (Stage2.calculate_path dist s t enemies draws).2) (s := s) (t := t) h2
    show (match Graph.shortest_path id
        (Stage2.calculate_path dist s t enemies draws).2 s t with
      | some p => p
      | none => []) = []
    rw [hn]

/-- C9 witness: a scenario whose single enemy rejects every leg, so the
graph has no edges and no source-target path exists; both stages return
the empty path. -/
theorem claim_C9_witness :
    (¬ ∃ p, (Stage1.calculate_path (fun a b => |a - b|) (0 : ℚ) 1
        [Enemy.asteroids [] (fun _ _ => false)]).2.IsWalk p ∧
      p.head? = some 0 ∧ p.getLast? = some 1) ∧
    (¬ ∃ p, (Stage2.calculate_path (fun a b => |a - b|) (0 : ℚ) 1
        [Enemy.asteroids [] (fun _ _ => false)] []).2.IsWalk p ∧
      p.head? = some 0 ∧ p.getLast? = some 1) ∧
    ((Stage1.calculate_path (fun a b => |a - b|) (0 : ℚ) 1
        [Enemy.asteroids [] (fun _ _ => false)]).1 = [] ∧
      (Stage2.calculate_path (fun a b => |a - b|) (0 : ℚ) 1
        [Enemy.asteroids [] (fun _ _ => false)] []).1 = []) := by
  have hedges1 : (Stage1.calculate_path (fun a b => |a - b|) (0 : ℚ) 1
      [Enemy.asteroids [] (fun _ _ => false)]).2.edges = [] := by decide
  have hedges2 : (Stage2.calculate_path (fun a b => |a - b|) (0 : ℚ) 1
      [Enemy.asteroids [] (fun _ _ => false)] []).2.edges = [] := by decide
  have hno : ∀ (g : Graph ℚ ℚ), g.edges = [] →
      ¬ ∃ p, g.IsWalk p ∧ p.head? = some 0 ∧ p.getLast? = some 1 := by
    rintro g hge ⟨p, hw, hh, hl⟩
    cases p with
    | nil => cases hh
    | cons a rest =>
        have ha : a = 0 := Option.some.inj hh
        cases rest with
        | nil =>
            have hb : a = 1 := by
              have := hl
              simp only [List.getLast?_singleton] at this
              exact Option.some.inj this
            rw [ha] at hb
            norm_num at hb
        | cons b r =>
            have hleg := hw (a, b) (by simp [legs])
            rw [Graph.attr?_isSome_iff] at hleg
            obtain ⟨e, he, _⟩ := hleg
            rw [hge] at he
            cases he
  refine ⟨hno _ hedges1, hno _ hedges2, ?_⟩
  exact claim_C9_no_path_empty (fun a b => |a - b|) 0 1
    [Enemy.asteroids [] (fun _ _ => false)] [] (hno _ hedges1) (hno _ hedges2)

namespace Stage3

variable {N : Type u} [DecidableEq N]

theorem connectLoop_hasEdge_iff3 (dist : N → N → ℚ) (enemies : List (Enemy N))
    (s t : N) (u v : N) :
    (connectLoop dist enemies (seedGraph s t enemies)).hasEdge u v = true ↔
      ∃ pr ∈ combinations (seedGraph s t enemies).nodes,
        is_legal_leg enemies pr.1 pr.2 = true ∧
        ((u, v) = pr ∨ (u, v) = (pr.2, pr.1)) := by
  unfold connectLoop
  constructor
  · intro h
    unfold Graph.hasEdge at h
    rw [Graph.attr?_isSome_iff] at h
    obtain ⟨e, he, hk⟩ := h
    rcases Graph.mem_edges_addEdges_elim he with h' | h'
    · rw [seedGraph_edges3] at h'
      cases h'
    · obtain ⟨pr, hpr, he'⟩ := List.mem_flatMap.1 h'
      by_cases hleg : is_legal_leg enemies pr.1 pr.2
      · rw [if_pos hleg] at he'
        refine ⟨pr, hpr, hleg, ?_⟩
        rcases List.mem_cons.1 he' with rfl | he''
        · left
          unfold Graph.edgeKey at hk
          rw [← hk]
        · rw [List.mem_singleton] at he''
          right
          subst he''
          unfold Graph.edgeKey at hk
          rw [← hk]
      · rw [if_neg hleg] at he'
        cases he'
  · rintro ⟨pr, hpr, hleg, hcase⟩
    have hmem : ∀ e ∈ (if is_legal_leg enemies pr.1 pr.2 then
        [(pr.1, pr.2, (dist pr.1 pr.2, false)), (pr.2, pr.1, (dist pr.1 pr.2, false))]
        else []),
        e ∈ (combinations (seedGraph s t enemies).nodes).flatMap (fun pr =>
          if is_legal_leg enemies pr.1 pr.2 then
            [(pr.1, pr.2, (dist pr.1 pr.2, false)), (pr.2, pr.1, (dist pr.1 pr.2, false))]
          else []) := by
      intro e he
      exact List.mem_flatMap.2 ⟨pr, hpr, he⟩
    rcases hcase with h | h
    · have hmm : (pr.1, pr.2, (dist pr.1 pr.2, false)) ∈ _ :=
        hmem (pr.1, pr.2, (dist pr.1 pr.2, false)) (by rw [if_pos hleg]; simp)
      have hh := Graph.hasEdge_addEdges_of_mem (g := seedGraph s t enemies) hmm
      have hu : u = pr.1 := congrArg Prod.fst h
      have hv : v = pr.2 := congrArg Prod.snd h
      subst hu
      subst hv
      exact hh
    · have hmm : (pr.2, pr.1, (dist pr.1 pr.2, false)) ∈ _ :=
        hmem (pr.2, pr.1, (dist pr.1 pr.2, false)) (by rw [if_pos hleg]; simp)
      have hh := Graph.hasEdge_addEdges_of_mem (g := seedGraph s t enemies) hmm
      have hu : u = pr.2 := congrArg Prod.fst h
      have hv : v = pr.1 := congrArg Prod.snd h
      subst hu
      subst hv
      exact hh

end Stage3

/-- C6 counterexample: with a direction-sensitive enemy whose legality
test accepts the leg from 0 to 1 but rejects the leg from 1 to 0, the seed
connection loop still adds the directed edge from 1 to 0, because it tests
only one orientation per unordered pair; so the claim that an ordered edge
is added exactly when the test for that direction passes is false. -/
theorem claim_C6_counterexample :
    (Stage2.connectLoop (fun _ _ => (1 : ℚ))
        [Enemy.radar [] (fun _ => false) (fun a b => decide (a < b))]
        (Stage2.seedGraph (0 : ℚ) 1
          [Enemy.radar [] (fun _ => false) (fun a b => decide (a < b))])).hasEdge
      1 0 = true
    ∧ Stage2.is_legal_leg
        [Enemy.radar [] (fun _ => false) (fun a b => decide (a < b))]
        (1 : ℚ) 0 = false := by
  constructor
  · decide
  · decide

/-- C6 amended: the seed connection loop of stages 2 and 3 tests legality
once per unordered pair of seed nodes, in iteration order, and when that
single test passes it adds both directed edges; an ordered edge is present
exactly when the unordered pair it belongs to passed its single test. -/
theorem claim_C6_amended {N : Type u} [DecidableEq N]
    (dist : N → N → ℚ) (enemies : List (Enemy N)) (s t u v : N) :
    ((Stage2.connectLoop dist enemies (Stage2.seedGraph s t enemies)).hasEdge
        u v = true ↔
      ∃ pr ∈ combinations (Stage2.seedGraph s t enemies).nodes,
        Stage2.is_legal_leg enemies pr.1 pr.2 = true ∧
        ((u, v) = pr ∨ (u, v) = (pr.2, pr.1)))
    ∧ ((Stage3.connectLoop dist enemies (Stage3.seedGraph s t enemies)).hasEdge
        u v = true ↔
      ∃ pr ∈ combinations (Stage3.seedGraph s t enemies).nodes,
        Stage3.is_legal_leg enemies pr.1 pr.2 = true ∧
        ((u, v) = pr ∨ (u, v) = (pr.2, pr.1))) :=
  ⟨Stage2.connectLoop_hasEdge_iff2 (fun a b => dist a b) enemies s t u v,
   Stage3.connectLoop_hasEdge_iff3 dist enemies s t u v⟩

/-- C10: the stage-2 rejection sampler only returns a draw the polygon
contains, and every node the sampler phase adds to the graph lies inside
the circle of one of the radars it was sampled for (graph nodes after the
phase are the previous nodes plus such samples). -/
theorem claim_C10_sampler_nodes_inside {N : Type u} [DecidableEq N] :
    (∀ (contains : N → Bool) (stream : List N) (c : N) (rest : List N),
      Stage2.sample_in_polygon contains stream = some (c, rest) →
        contains c = true)
    ∧ (∀ (dist : N → N → ℚ) (g : Graph N ℚ) (enemies : List (Enemy N))
        (draws : List N),
        ∀ x ∈ (Stage2.add_nodes_inside_radars dist g enemies draws).nodes,
          x ∈ g.nodes ∨ ∃ r ∈ enemies, r.isRadar = true ∧
            r.circleContains x = true) := by
  constructor
  · intro contains stream c rest h
    exact Stage2.sample_in_polygon_contains h
  · intro dist g enemies draws x hx
    unfold Stage2.add_nodes_inside_radars at hx
    by_cases hrad : (enemies.filter Enemy.isRadar).length = 0
    · rw [if_pos hrad] at hx
      exact Or.inl hx
    · rw [if_neg hrad] at hx
      have helim := Stage2.foldl_nodes_elim (Stage2.samplerStep dist enemies)
        (fun node x => x = node) ?_ _ _ x hx
      · rcases helim with h | ⟨node, hnode, rfl⟩
        · exact Or.inl h
        · obtain ⟨r, hr, hcon⟩ := Stage2.gatherNewNodes_spec _ _ hnode
          have hr2 := List.mem_filter.1 hr
          exact Or.inr ⟨r, hr2.1, hr2.2, hcon⟩
      · intro g' b y hy
        exact Stage2.samplerStep_nodes dist enemies g' b y hy

/-- C10 witness: a concrete sampler run with a radar whose circle is the
rationals below 1; the accepted draw 0 is inside the polygon, and the node
the sampler phase adds is attributed to a radar containing it. -/
theorem claim_C10_witness :
    Stage2.sample_in_polygon (fun x : ℚ => decide (x < 1)) [5, 0]
        = some (0, []) ∧
    (fun x : ℚ => decide (x < 1)) 0 = true ∧
    ((0 : ℚ) ∈ (Stage2.add_nodes_inside_radars (fun _ _ => 1) (Graph.mk [] [])
      [Enemy.radar [] (fun x => decide (x < 1)) (fun _ _ => true)] [0]).nodes) ∧
    ((0 : ℚ) ∈ (Graph.mk ([] : List ℚ) ([] : List (ℚ × ℚ × ℚ))).nodes ∨
      ∃ r ∈ [Enemy.radar ([] : List ℚ) (fun x => decide (x < 1)) (fun _ _ => true)],
        r.isRadar = true ∧ r.circleContains 0 = true) :=
  ⟨by decide,
   claim_C10_sampler_nodes_inside.1 (fun x : ℚ => decide (x < 1)) [5, 0] 0 []
     (by decide),
   by decide,
   claim_C10_sampler_nodes_inside.2 (fun _ _ => 1) (Graph.mk [] [])
     [Enemy.radar [] (fun x => decide (x < 1)) (fun _ _ => true)] [0] 0
     (by decide)⟩

namespace Graph

variable {N : Type u} {A : Type v} [DecidableEq N]

theorem shortest_path_self {w : A → ℚ} {g : Graph N A} {u : N}
    (h : g.nodes ≠ []) : g.shortest_path w u u = some [u] := by
  unfold shortest_path
  obtain ⟨k, hk⟩ : ∃ k, g.nodes.length = k + 1 := by
    cases hnodes : g.nodes with
    | nil => exact absurd hnodes h
    | cons a l => exact ⟨l.length, by simp [hnodes]⟩
  rw [hk]
  rw [show simplePathsTo g u (k + 1) u [] = [[u]] from by
    simp [simplePathsTo]]
  rfl

end Graph

namespace Stage1

variable {N : Type u} [DecidableEq N]

theorem mem_nodes_add_enemies1 {g : Graph N ℚ} {x : N}
    (enemies : List (Enemy N)) (h : x ∈ g.nodes) :
    x ∈ (add_enemies_to_graph g enemies).nodes := by
  induction enemies generalizing g with
  | nil => exact h
  | cons e es ih =>
      cases e with
      | asteroids boundary f =>
          exact ih ((Graph.mem_nodes_addNodesFrom _ _ _).2 (Or.inl h))
      | post approx f =>
          exact ih ((Graph.mem_nodes_addNodesFrom _ _ _).2 (Or.inl h))
      | radar approx inC f => exact ih h

theorem source_mem_seed1 (s t : N) (enemies : List (Enemy N)) :
    s ∈ (seedGraph s t enemies).nodes := by
  unfold seedGraph
  apply mem_nodes_add_enemies1
  exact (Graph.mem_nodes_addNode_iff _ _ _).2
    (Or.inl ((Graph.mem_nodes_addNode_iff _ _ _).2 (Or.inr rfl)))

theorem source_mem_graph1 (dist : N → N → ℚ) (s t : N) (enemies : List (Enemy N)) :
    s ∈ (connectLoop dist enemies (seedGraph s t enemies)).nodes :=
  Graph.mem_nodes_addEdges _ _ (source_mem_seed1 s t enemies)

end Stage1

namespace Stage2

variable {N : Type u} [DecidableEq N]

theorem mem_nodes_add_enemies2 {g : Graph N ℚ} {x : N}
    (enemies : List (Enemy N)) (h : x ∈ g.nodes) :
    x ∈ (add_enemies_to_graph g enemies).nodes := by
  induction enemies generalizing g with
  | nil => exact h
  | cons e es ih =>
      cases e with
      | asteroids boundary f =>
          exact ih ((Graph.mem_nodes_addNodesFrom _ _ _).2 (Or.inl h))
      | post approx f =>
          exact ih ((Graph.mem_nodes_addNodesFrom _ _ _).2 (Or.inl h))
      | radar approx inC f =>
          exact ih ((Graph.mem_nodes_addNodesFrom _ _ _).2 (Or.inl h))

theorem source_mem_seed2 (s t : N) (enemies : List (Enemy N)) :
    s ∈ (seedGraph s t enemies).nodes := by
  unfold seedGraph
  apply mem_nodes_add_enemies2
  exact (Graph.mem_nodes_addNode_iff _ _ _).2
    (Or.inl ((Graph.mem_nodes_addNode_iff _ _ _).2 (Or.inr rfl)))

theorem samplerStep_nodes_mono2 (dist : N → N → ℚ) (enemies : List (Enemy N))
    (g : Graph N ℚ) (node : N) {x : N} (h : x ∈ g.nodes) :
    x ∈ (samplerStep dist enemies g node).nodes := by
  unfold samplerStep
  dsimp only
  refine foldl_graph_preserve (Q := fun h => x ∈ h.nodes) _ ?_ _ _
    ((Graph.mem_nodes_addNode_iff _ _ _).2 (Or.inl h))
  intro g' other hx
  by_cases hc1 : other = node ∨ dist node other > 5
  · rw [if_pos hc1]
    exact hx
  · rw [if_neg hc1]
    by_cases hc2 : is_legal_leg enemies node other = true
    · rw [if_pos hc2]
      apply (Graph.mem_nodes_addEdge_iff _ _ _ _ _).2
      left
      by_cases hc3 : is_legal_leg enemies other node = true
      · rw [if_pos hc3]
        exact (Graph.mem_nodes_addEdge_iff _ _ _ _ _).2 (Or.inl hx)
      · rw [if_neg hc3]
        exact hx
    · rw [if_neg hc2]
      by_cases hc3 : is_legal_leg enemies other node = true
      · rw [if_pos hc3]
        exact (Graph.mem_nodes_addEdge_iff _ _ _ _ _).2 (Or.inl hx)
      · rw [if_neg hc3]
        exact hx

theorem source_mem_graph2 (dist : N → N → ℚ) (s t : N)
    (enemies : List (Enemy N)) (draws : List N) :
    s ∈ (add_nodes_inside_radars dist
      (connectLoop dist enemies (seedGraph s t enemies)) enemies draws).nodes := by
  have hbase : s ∈ (connectLoop dist enemies (seedGraph s t enemies)).nodes :=
    Graph.mem_nodes_addEdges _ _ (source_mem_seed2 s t enemies)
  unfold add_nodes_inside_radars
  by_cases hrad : (enemies.filter Enemy.isRadar).length = 0
  · rw [if_pos hrad]
    exact hbase
  · rw [if_neg hrad]
    exact foldl_graph_preserve (Q := fun h => s ∈ h.nodes) _
      (fun g' node hx => samplerStep_nodes_mono2 dist enemies g' node hx) _ _ hbase

end Stage2

namespace Stage3

variable {N : Type u} [DecidableEq N]

theorem mem_nodes_add_enemies3 {g : Graph N (ℚ × Bool)} {x : N}
    (enemies : List (Enemy N)) (h : x ∈ g.nodes) :
    x ∈ (add_enemies_to_graph g enemies).nodes := by
  induction enemies generalizing g with
  | nil => exact h
  | cons e es ih =>
      cases e with
      | asteroids boundary f =>
          exact ih ((Graph.mem_nodes_addNodesFrom _ _ _).2 (Or.inl h))
      | post approx f =>
          exact ih ((Graph.mem_nodes_addNodesFrom _ _ _).2 (Or.inl h))
      | radar approx inC f =>
          exact ih ((Graph.mem_nodes_addNodesFrom _ _ _).2 (Or.inl h))

theorem source_mem_seed3 (s t : N) (enemies : List (Enemy N)) :
    s ∈ (seedGraph s t enemies).nodes := by
  unfold seedGraph
  apply mem_nodes_add_enemies3
  exact (Graph.mem_nodes_addNode_iff _ _ _).2
    (Or.inl ((Graph.mem_nodes_addNode_iff _ _ _).2 (Or.inr rfl)))

theorem target_mem_seed (s t : N) (enemies : List (Enemy N)) :
    t ∈ (seedGraph s t enemies).nodes := by
  unfold seedGraph
  apply mem_nodes_add_enemies3
  exact (Graph.mem_nodes_addNode_iff _ _ _).2 (Or.inr rfl)

theorem samplerStep_nodes_mono3 (dist : N → N → ℚ) (enemies : List (Enemy N))
    (g : Graph N (ℚ × Bool)) (node : N) {x : N} (h : x ∈ g.nodes) :
    x ∈ (samplerStep dist enemies g node).nodes := by
  unfold samplerStep
  dsimp only
  refine foldl_graph_preserve (Q := fun h => x ∈ h.nodes) _ ?_ _ _
    ((Graph.mem_nodes_addNode_iff _ _ _).2 (Or.inl h))
  intro g' other hx
  by_cases hc1 : other = node ∨ dist node other > 5
  · rw [if_pos hc1]
    exact hx
  · rw [if_neg hc1]
    by_cases hc2 : (!is_leg_legal_only_no_entrances enemies node other) = true
    · rw [if_pos hc2]
      exact hx
    · rw [if_neg hc2]
      apply (Graph.mem_nodes_addEdge_iff _ _ _ _ _).2
      left
      exact (Graph.mem_nodes_addEdge_iff _ _ _ _ _).2 (Or.inl hx)

theorem mem_baseGraph_of_seed (dist : N → N → ℚ) (s t : N)
    (enemies : List (Enemy N)) (draws : List N) {x : N}
    (h : x ∈ (seedGraph s t enemies).nodes) :
    x ∈ (add_nodes_inside_radars dist
      (connectLoop dist enemies (seedGraph s t enemies)) enemies draws).nodes := by
  have hbase : x ∈ (connectLoop dist enemies (seedGraph s t enemies)).nodes :=
    Graph.mem_nodes_addEdges _ _ h
  unfold add_nodes_inside_radars
  by_cases hrad : (enemies.filter Enemy.isRadar).length = 0
  · rw [if_pos hrad]
    exact hbase
  · rw [if_neg hrad]
    exact foldl_graph_preserve (Q := fun h => x ∈ h.nodes) _
      (fun g' node hx => samplerStep_nodes_mono3 dist enemies g' node hx) _ _ hbase

end Stage3

/-- C8: with source equal to target, stage 1 and stage 2 return the
single-node path, but stage 3 does not: the layered search degenerates to
the single layered node, and retrieve_path_from_layered_path evaluates the
Python expression path[-2] on the resulting one-element path, raising
IndexError (modelled by none) instead of returning the single-node path the
specification states. -/
theorem claim_C8_source_eq_target :
    (Stage1.calculate_path (fun _ _ => (0 : ℚ)) 0 0 []).1 = [0]
    ∧ (Stage2.calculate_path (fun _ _ => (0 : ℚ)) 0 0 [] []).1 = [0]
    ∧ (Stage3.calculate_path (fun _ _ => (0 : ℚ)) 0 0 [] []).1 = none := by
  refine ⟨?_, ?_, ?_⟩
  · have hs := Stage1.source_mem_graph1 (fun _ _ => (0 : ℚ)) (0 : ℕ) 0 []
    have hsp := Graph.shortest_path_self (w := id)
      (g := Stage1.connectLoop (fun _ _ => (0 : ℚ)) []
        (Stage1.seedGraph (0 : ℕ) 0 [])) (u := (0 : ℕ))
      (List.ne_nil_of_mem hs)
    simp only [Stage1.calculate_path]
    rw [hsp]
  · have hs := Stage2.source_mem_graph2 (fun _ _ => (0 : ℚ)) (0 : ℕ) 0 [] []
    have hsp := Graph.shortest_path_self (w := id)
      (g := Stage2.add_nodes_inside_radars (fun _ _ => (0 : ℚ))
        (Stage2.connectLoop (fun _ _ => (0 : ℚ)) []
          (Stage2.seedGraph (0 : ℕ) 0 [])) [] []) (u := (0 : ℕ))
      (List.ne_nil_of_mem hs)
    simp only [Stage2.calculate_path]
    rw [hsp]
  · have hM : (fun _ _ => (0 : ℚ)) (0 : ℕ) (0 : ℕ) * (1/10) = 0 := by norm_num
    have hq : (0 : ℚ) < 1/2 := by norm_num
    have htop : (qMultiples ((fun _ _ => (0 : ℚ)) (0 : ℕ) (0 : ℕ) * (1/10))
        (1/2)).getLastD 0 = 0 := by
      rw [hM, qMultiples_getLastD (le_refl 0) hq]
      norm_num
    have hsmem : (0 : ℕ) ∈ (Stage3.add_nodes_inside_radars (fun _ _ => (0 : ℚ))
        (Stage3.connectLoop (fun _ _ => (0 : ℚ)) []
          (Stage3.seedGraph (0 : ℕ) 0 [])) [] []).nodes :=
      Stage3.mem_baseGraph_of_seed _ _ _ _ _ (Stage3.source_mem_seed3 (0 : ℕ) 0 [])
    have hL0 : (0 : ℚ) ∈ qMultiples ((fun _ _ => (0 : ℚ)) (0 : ℕ) (0 : ℕ) * (1/10))
        (1/2) := by
      rw [hM]
      exact zero_mem_qMultiples (le_refl 0) hq
    have hnode : ((0 : ℕ), (0 : ℚ)) ∈ (Stage3.build_layers_graph
        (fun _ _ => (0 : ℚ))
        (Stage3.add_nodes_inside_radars (fun _ _ => (0 : ℚ))
          (Stage3.connectLoop (fun _ _ => (0 : ℚ)) []
            (Stage3.seedGraph (0 : ℕ) 0 [])) [] [])
        (0 : ℕ) 0 (1/10) (1/2)).1.nodes :=
      Stage3.mem_nodes_build hsmem hL0
    have hsp := Graph.shortest_path_self (w := id)
      (g := (Stage3.build_layers_graph (fun _ _ => (0 : ℚ))
        (Stage3.add_nodes_inside_radars (fun _ _ => (0 : ℚ))
          (Stage3.connectLoop (fun _ _ => (0 : ℚ)) []
            (Stage3.seedGraph (0 : ℕ) 0 [])) [] [])
        (0 : ℕ) 0 (1/10) (1/2)).1) (u := ((0 : ℕ), (0 : ℚ)))
      (List.ne_nil_of_mem hnode)
    have h21 : (Stage3.build_layers_graph (fun _ _ => (0 : ℚ))
        (Stage3.add_nodes_inside_radars (fun _ _ => (0 : ℚ))
          (Stage3.connectLoop (fun _ _ => (0 : ℚ)) []
            (Stage3.seedGraph (0 : ℕ) 0 [])) [] [])
        (0 : ℕ) 0 (1/10) (1/2)).2.1 = ((0 : ℕ), (0 : ℚ)) := rfl
    have h22 : (Stage3.build_layers_graph (fun _ _ => (0 : ℚ))
        (Stage3.add_nodes_inside_radars (fun _ _ => (0 : ℚ))
          (Stage3.connectLoop (fun _ _ => (0 : ℚ)) []
            (Stage3.seedGraph (0 : ℕ) 0 [])) [] [])
        (0 : ℕ) 0 (1/10) (1/2)).2.2 = ((0 : ℕ), (0 : ℚ)) := by
      show ((0 : ℕ), (qMultiples ((fun _ _ => (0 : ℚ)) (0 : ℕ) (0 : ℕ) * (1/10))
        (1/2)).getLastD 0) = ((0 : ℕ), (0 : ℚ))
      rw [htop]
    simp only [Stage3.calculate_path]
    rw [h21, h22, hsp]
    rfl

namespace Stage3

variable {N : Type u} [DecidableEq N]

theorem decoded_leg_cases {dist : N → N → ℚ} {g : Graph N (ℚ × Bool)}
    {s t : N} {pct q : ℚ} {lp : List (N × ℚ)}
    (hw : (build_layers_graph dist g s t pct q).1.IsWalk lp) :
    ∀ l ∈ legs (lp.map Prod.fst),
      (∃ be ∈ g.edges, l.1 = be.1 ∧ l.2 = be.2.1) ∨ (l.1 = t ∧ l.2 = t) := by
  intro l hl
  rw [legs_map] at hl
  obtain ⟨lg, hlg, rfl⟩ := List.mem_map.1 hl
  have hatt := hw lg hlg
  rw [Graph.attr?_isSome_iff] at hatt
  obtain ⟨e, he, hk⟩ := hatt
  have h1 : e.1 = lg.1 := congrArg Prod.fst hk
  have h2 : e.2.1 = lg.2 := congrArg Prod.snd hk
  rcases mem_build_edges_elim he with ⟨be, hbe, hc⟩ | hc
  · obtain ⟨hb1, hb2, _⟩ := copies_baseCoords hc
    refine Or.inl ⟨be, hbe, ?_, ?_⟩
    · show lg.1.1 = be.1
      rw [← h1, hb1]
    · show lg.2.1 = be.2.1
      rw [← h2, hb2]
  · obtain ⟨i, _, rfl⟩ := mem_add_target_edges.1 hc
    refine Or.inr ⟨?_, ?_⟩
    · show lg.1.1 = t
      rw [← h1]
    · show lg.2.1 = t
      rw [← h2]

end Stage3

/-- C1: a non-empty path returned by calculate_path (stage 1, and the layered
stage 3) starts at the source, ends at the target, and every leg is legal for
every non-radar enemy.  The two hypotheses record facts of the shapely
geometry the Boolean predicates abstract: legality against a non-radar enemy
is symmetric in the endpoints (segment/shape intersection does not depend on
travel direction), and the degenerate leg at the target does not cross a
no-entry zone. -/
theorem claim_C1_path_endpoints_legal {N : Type u} [DecidableEq N]
    (dist : N → N → ℚ) (s t : N) (enemies : List (Enemy N)) (draws : List N)
    (Hsym : ∀ en ∈ enemies, en.isRadar = false →
      ∀ a b : N, en.is_legal_leg a b = en.is_legal_leg b a)
    (Htt : ∀ en ∈ enemies, en.isRadar = false → en.is_legal_leg t t = true) :
    ((Stage1.calculate_path dist s t enemies).1 ≠ [] →
      (Stage1.calculate_path dist s t enemies).1.head? = some s ∧
      (Stage1.calculate_path dist s t enemies).1.getLast? = some t ∧
      ∀ l ∈ legs (Stage1.calculate_path dist s t enemies).1,
        ∀ en ∈ enemies, en.isRadar = false → en.is_legal_leg l.1 l.2 = true)
    ∧ (∀ p : List N, (Stage3.calculate_path dist s t enemies draws).1 = some p →
      p ≠ [] →
      p.head? = some s ∧ p.getLast? = some t ∧
      ∀ l ∈ legs p,
        ∀ en ∈ enemies, en.isRadar = false → en.is_legal_leg l.1 l.2 = true) := by
  constructor
  · intro hne
    cases hsp : Graph.shortest_path id
        (Stage1.connectLoop dist enemies (Stage1.seedGraph s t enemies)) s t with
    | none =>
        exfalso
        apply hne
        simp only [Stage1.calculate_path]
        rw [hsp]
    | some p' =>
        obtain ⟨hh, hl, hw, _⟩ := Graph.shortest_path_sound hsp
        have hres : (Stage1.calculate_path dist s t enemies).1 = p' := by
          simp only [Stage1.calculate_path]
          rw [hsp]
        rw [hres]
        refine ⟨hh, hl, ?_⟩
        intro l hlmem en hen hr
        have hatt := hw l hlmem
        rw [Graph.attr?_isSome_iff] at hatt
        obtain ⟨e, he, hk⟩ := hatt
        have h1 : e.1 = l.1 := congrArg Prod.fst hk
        have h2 : e.2.1 = l.2 := congrArg Prod.snd hk
        rw [← h1, ← h2]
        exact Stage1.stage1_graph_legal dist enemies s t Hsym e he en hen hr
  · intro p hp hne
    cases hsp : Graph.shortest_path id
        (Stage3.build_layers_graph dist
          (Stage3.add_nodes_inside_radars dist
            (Stage3.connectLoop dist enemies (Stage3.seedGraph s t enemies))
            enemies draws) s t (1/10) (1/2)).1
        (Stage3.build_layers_graph dist
          (Stage3.add_nodes_inside_radars dist
            (Stage3.connectLoop dist enemies (Stage3.seedGraph s t enemies))
            enemies draws) s t (1/10) (1/2)).2.1
        (Stage3.build_layers_graph dist
          (Stage3.add_nodes_inside_radars dist
            (Stage3.connectLoop dist enemies (Stage3.seedGraph s t enemies))
            enemies draws) s t (1/10) (1/2)).2.2 with
    | none =>
        simp only [Stage3.calculate_path] at hp
        rw [hsp] at hp
        have hp' : some ([] : List N) = some p := hp
        exact absurd (Option.some.inj hp').symm hne
    | some lp =>
        simp only [Stage3.calculate_path] at hp
        rw [hsp] at hp
        have hp' : Stage3.retrieve_path_from_layered_path lp = some p := hp
        obtain ⟨hh0, hl0, hwalk, _⟩ := Graph.shortest_path_sound hsp
        obtain ⟨_, hpre, hhead, hlast⟩ := Stage3.retrieve_spec hp'
        refine ⟨?_, ?_, ?_⟩
        · rw [hhead, List.head?_map, hh0]
          rfl
        · rw [hlast, List.getLast?_map, hl0]
          rfl
        · intro l hlmem en hen hr
          have hll := (( legs_prefix hpre).sublist.subset) hlmem
          rcases Stage3.decoded_leg_cases hwalk l hll with ⟨be, hbe, hb1, hb2⟩ | ⟨h1, h2⟩
          · rw [hb1, hb2]
            exact Stage3.baseGraph_legal dist enemies s t draws Hsym be hbe en hen hr
          · rw [h1, h2]
            exact Htt en hen hr

/-- Witness for C1 at a concrete input: empty enemy list over natural-number
nodes, source 0, target 0. -/
theorem claim_C1_witness :
    ((Stage1.calculate_path (fun _ _ => (0 : ℚ)) 0 0 []).1 ≠ [] →
      (Stage1.calculate_path (fun _ _ => (0 : ℚ)) 0 0 []).1.head? = some 0 ∧
      (Stage1.calculate_path (fun _ _ => (0 : ℚ)) 0 0 []).1.getLast? = some 0 ∧
      ∀ l ∈ legs (Stage1.calculate_path (fun _ _ => (0 : ℚ)) 0 0 []).1,
        ∀ en ∈ ([] : List (Enemy ℕ)), en.isRadar = false →
          en.is_legal_leg l.1 l.2 = true)
    ∧ (∀ p : List ℕ,
      (Stage3.calculate_path (fun _ _ => (0 : ℚ)) 0 0 [] []).1 = some p →
      p ≠ [] →
      p.head? = some 0 ∧ p.getLast? = some 0 ∧
      ∀ l ∈ legs p,
        ∀ en ∈ ([] : List (Enemy ℕ)), en.isRadar = false →
          en.is_legal_leg l.1 l.2 = true) :=
  claim_C1_path_endpoints_legal (fun _ _ => (0 : ℚ)) 0 0 [] []
    (fun en hen => by cases hen) (fun en hen => by cases hen)

namespace Stage3

variable {N : Type u} [DecidableEq N]

theorem layered_leg_attr_cases {dist : N → N → ℚ} {g : Graph N (ℚ × Bool)}
    {s t : N} {pct q : ℚ} (hq : 0 < q)
    (hKU : Graph.KeysUnique g.edges)
    (hNS : ∀ e ∈ g.edges, e.1 ≠ e.2.1)
    (hpos : ∀ e ∈ g.edges, 0 ≤ e.2.2.1)
    {lp : List (N × ℚ)}
    (hw : (build_layers_graph dist g s t pct q).1.IsWalk lp) :
    ∀ lg ∈ legs lp,
      0 ≤ lg.2.2 - lg.1.2 ∧
      (g.attr? lg.1.1 lg.2.1 = none
        ∨ (∃ d, g.attr? lg.1.1 lg.2.1 = some (d, false))
        ∨ (∃ d, g.attr? lg.1.1 lg.2.1 = some (d, true) ∧ 0 ≤ d ∧
            d ≤ lg.2.2 - lg.1.2)) := by
  intro lg hlg
  have hatt := hw lg hlg
  rw [Graph.attr?_isSome_iff] at hatt
  obtain ⟨e, he, hk⟩ := hatt
  have h1 : e.1 = lg.1 := congrArg Prod.fst hk
  have h2 : e.2.1 = lg.2 := congrArg Prod.snd hk
  rcases mem_build_edges_elim he with ⟨be, hbe, hc⟩ | hc
  · have hbe' : (be.1, be.2.1, be.2.2) ∈ g.edges := hbe
    have hattr : g.attr? be.1 be.2.1 = some be.2.2 :=
      Graph.attr?_eq_some_of_mem hKU hbe'
    unfold edgeCopies at hc
    by_cases hdet : be.2.2.2
    · rw [if_pos hdet] at hc
      obtain ⟨L, _, he'⟩ := mem_add_detected_edge.1 hc
      have hlg1 : lg.1 = (be.1, L) := by rw [← h1, he']
      have hlg2 : lg.2 = (be.2.1, L + edgeDetection be.2.2.1 q) := by
        rw [← h2, he']
      have hd0 : 0 ≤ be.2.2.1 := hpos be hbe
      have hdle := le_edgeDetection (d := be.2.2.1) hq
      refine ⟨?_, Or.inr (Or.inr ⟨be.2.2.1, ?_, hd0, ?_⟩)⟩
      · rw [hlg1, hlg2]
        show 0 ≤ (L + edgeDetection be.2.2.1 q) - L
        linarith
      · rw [hlg1, hlg2]
        show g.attr? be.1 be.2.1 = some (be.2.2.1, true)
        rw [hattr, show be.2.2 = (be.2.2.1, true) from by rw [← hdet]]
      · rw [hlg1, hlg2]
        show be.2.2.1 ≤ (L + edgeDetection be.2.2.1 q) - L
        linarith
    · rw [if_neg hdet] at hc
      obtain ⟨L, _, he'⟩ := mem_add_legal_edge.1 hc
      have hlg1 : lg.1 = (be.1, L) := by rw [← h1, he']
      have hlg2 : lg.2 = (be.2.1, L) := by rw [← h2, he']
      have hdf : be.2.2.2 = false := Bool.eq_false_iff.2 hdet
      refine ⟨?_, Or.inr (Or.inl ⟨be.2.2.1, ?_⟩)⟩
      · rw [hlg1, hlg2]
        show 0 ≤ L - L
        linarith
      · rw [hlg1, hlg2]
        show g.attr? be.1 be.2.1 = some (be.2.2.1, false)
        rw [hattr, show be.2.2 = (be.2.2.1, false) from by rw [← hdf]]
  · obtain ⟨i, _, he'⟩ := mem_add_target_edges.1 hc
    have hlg1 : lg.1 = (t, q * (i : ℚ)) := by rw [← h1, he']
    have hlg2 : lg.2 = (t, q * ((i : ℚ) + 1)) := by rw [← h2, he']
    refine ⟨?_, Or.inl ?_⟩
    · rw [hlg1, hlg2]
      show 0 ≤ q * ((i : ℚ) + 1) - q * (i : ℚ)
      have hring : q * ((i : ℚ) + 1) - q * (i : ℚ) = q := by ring
      rw [hring]
      exact le_of_lt hq
    · rw [hlg1, hlg2]
      show g.attr? t t = none
      exact Graph.attr?_self_none hNS t

theorem detectedLen_decoded_le {dist : N → N → ℚ} {g : Graph N (ℚ × Bool)}
    {s t : N} {pct q : ℚ} (hq : 0 < q)
    (hKU : Graph.KeysUnique g.edges)
    (hNS : ∀ e ∈ g.edges, e.1 ≠ e.2.1)
    (hpos : ∀ e ∈ g.edges, 0 ≤ e.2.2.1)
    (hmax : 0 ≤ dist s t * pct)
    {lp : List (N × ℚ)} {p : List N}
    (hw : (build_layers_graph dist g s t pct q).1.IsWalk lp)
    (hh0 : lp.head? = some (build_layers_graph dist g s t pct q).2.1)
    (hl0 : lp.getLast? = some (build_layers_graph dist g s t pct q).2.2)
    (hpre : p <+: lp.map Prod.fst) :
    detectedLen g p ≤ dist s t * pct := by
  have hcases := layered_leg_attr_cases hq hKU hNS hpos hw
  have hleg : ∀ lg ∈ legs lp,
      (match g.attr? lg.1.1 lg.2.1 with
        | some (d, true) => d
        | _ => (0 : ℚ)) ≤ lg.2.2 - lg.1.2 ∧
      0 ≤ (match g.attr? lg.1.1 lg.2.1 with
        | some (d, true) => d
        | _ => (0 : ℚ)) := by
    intro lg hlg
    obtain ⟨hj, hcase⟩ := hcases lg hlg
    rcases hcase with h | ⟨d, h⟩ | ⟨d, h, hd0, hdle⟩
    · rw [h]
      exact ⟨hj, le_refl 0⟩
    · rw [h]
      exact ⟨hj, le_refl 0⟩
    · rw [h]
      exact ⟨hdle, hd0⟩
  unfold detectedLen
  calc ((legs p).map (fun l =>
          match g.attr? l.1 l.2 with
          | some (d, true) => d
          | _ => (0 : ℚ))).sum
      ≤ ((legs (lp.map Prod.fst)).map (fun l =>
          match g.attr? l.1 l.2 with
          | some (d, true) => d
          | _ => (0 : ℚ))).sum := by
        refine sum_map_prefix_le _ ( legs_prefix hpre) ?_
        intro x hx
        rw [legs_map] at hx
        obtain ⟨lg, hlg, rfl⟩ := List.mem_map.1 hx
        exact (hleg lg hlg).2
    _ = ((legs lp).map (fun lg =>
          match g.attr? lg.1.1 lg.2.1 with
          | some (d, true) => d
          | _ => (0 : ℚ))).sum := by
        rw [legs_map, List.map_map]
        rfl
    _ ≤ ((legs lp).map (fun lg => lg.2.2 - lg.1.2)).sum :=
        List.sum_le_sum (fun lg hlg => (hleg lg hlg).1)
    _ = (build_layers_graph dist g s t pct q).2.2.2
          - (build_layers_graph dist g s t pct q).2.1.2 :=
        layer_sum_telescope hh0 hl0
    _ = (qMultiples (dist s t * pct) q).getLastD 0 - 0 := rfl
    _ ≤ dist s t * pct := by
        rw [sub_zero]
        exact qMultiples_getLastD_le hmax hq

end Stage3

/-- C2: in the budgeted stage-3 variant, the total Euclidean length of the
detected legs of any returned path is at most max_detection (the 1/10
fraction of the source-target distance) plus one quantum (1/2); the proof in
fact bounds it by max_detection itself, since each detected leg consumes at
least its own length in budget and the reachable top layer never exceeds
max_detection. -/
theorem claim_C2_detected_within_budget {N : Type u} [DecidableEq N]
    (dist : N → N → ℚ) (s t : N) (enemies : List (Enemy N)) (draws : List N)
    (Hdist : ∀ a b : N, 0 ≤ dist a b) :
    Option.elim (Stage3.calculate_path dist s t enemies draws).1 True
      (fun p => detectedLen (Stage3.calculate_path dist s t enemies draws).2 p
        ≤ dist s t * (1/10) + 1/2) := by
  cases ho : (Stage3.calculate_path dist s t enemies draws).1 with
  | none => trivial
  | some p =>
      show detectedLen (Stage3.calculate_path dist s t enemies draws).2 p
        ≤ dist s t * (1/10) + 1/2
      have hp := ho
      have hmax : (0 : ℚ) ≤ dist s t * (1/10) := by
        have := Hdist s t
        linarith
      have hstruct := Stage3.baseGraph_struct dist enemies s t draws Hdist
      have hKU := Stage3.baseGraph_keysUnique dist enemies s t draws
      have hg2 : (Stage3.calculate_path dist s t enemies draws).2
          = Stage3.add_nodes_inside_radars dist
              (Stage3.connectLoop dist enemies (Stage3.seedGraph s t enemies))
              enemies draws := rfl
      rw [hg2]
      cases hsp : Graph.shortest_path id
          (Stage3.build_layers_graph dist
            (Stage3.add_nodes_inside_radars dist
              (Stage3.connectLoop dist enemies (Stage3.seedGraph s t enemies))
              enemies draws) s t (1/10) (1/2)).1
          (Stage3.build_layers_graph dist
            (Stage3.add_nodes_inside_radars dist
              (Stage3.connectLoop dist enemies (Stage3.seedGraph s t enemies))
              enemies draws) s t (1/10) (1/2)).2.1
          (Stage3.build_layers_graph dist
            (Stage3.add_nodes_inside_radars dist
              (Stage3.connectLoop dist enemies (Stage3.seedGraph s t enemies))
              enemies draws) s t (1/10) (1/2)).2.2 with
      | none =>
          simp only [Stage3.calculate_path] at hp
          rw [hsp] at hp
          have hp' : some ([] : List N) = some p := hp
          have hpe : p = [] := (Option.some.inj hp').symm
          subst hpe
          have h0 : detectedLen (Stage3.add_nodes_inside_radars dist
              (Stage3.connectLoop dist enemies (Stage3.seedGraph s t enemies))
              enemies draws) ([] : List N) = 0 := rfl
          rw [h0]
          linarith
      | some lp =>
          simp only [Stage3.calculate_path] at hp
          rw [hsp] at hp
          have hp' : Stage3.retrieve_path_from_layered_path lp = some p := hp
          obtain ⟨hh0, hl0, hwalk, _⟩ := Graph.shortest_path_sound hsp
          obtain ⟨_, hpre, _, _⟩ := Stage3.retrieve_spec hp'
          have hb := Stage3.detectedLen_decoded_le
            (by norm_num : (0 : ℚ) < 1/2) hKU
            (fun e he => (hstruct e he).1) (fun e he => (hstruct e he).2)
            hmax hwalk hh0 hl0 hpre
          linarith

/-- Witness for C2 at a concrete input: zero distance function over
natural-number nodes, source 0, target 0, no enemies, no draws. -/
theorem claim_C2_witness :
    Option.elim (Stage3.calculate_path (fun _ _ => (0 : ℚ)) 0 0 [] []).1 True
      (fun p => detectedLen
        (Stage3.calculate_path (fun _ _ => (0 : ℚ)) 0 0 [] []).2 p
        ≤ (fun (_ _ : ℕ) => (0 : ℚ)) 0 0 * (1/10) + 1/2) :=
  claim_C2_detected_within_budget (fun _ _ => (0 : ℚ)) 0 0 [] []
    (fun a b => le_refl 0)

/-- C7: for a fixed base graph, increasing the detection-budget percentage
never increases the optimal layered-query path length: any shortest path
found under the smaller budget can be extended along the zero-cost target
chain into a path of the same length that is feasible under the larger
budget, so the larger-budget query succeeds with a path at most as long. -/
theorem claim_C7_budget_monotone {N : Type u} [DecidableEq N]
    (dist : N → N → ℚ) (g : Graph N (ℚ × Bool)) (s t : N) (pct1 pct2 q : ℚ)
    (hq : 0 < q) (hKU : Graph.KeysUnique g.edges)
    (hNS : ∀ e ∈ g.edges, e.1 ≠ e.2.1)
    (hpos : ∀ e ∈ g.edges, 0 ≤ e.2.2.1)
    (hE : g.EdgesInNodes) (hs : s ∈ g.nodes) (ht : t ∈ g.nodes)
    (hmax1 : 0 ≤ dist s t * pct1) (hM : dist s t * pct1 ≤ dist s t * pct2)
    {p1 : List (N × ℚ)}
    (h1 : Graph.shortest_path id (Stage3.build_layers_graph dist g s t pct1 q).1
      (Stage3.build_layers_graph dist g s t pct1 q).2.1
      (Stage3.build_layers_graph dist g s t pct1 q).2.2 = some p1) :
    ∃ p2 : List (N × ℚ),
      Graph.shortest_path id (Stage3.build_layers_graph dist g s t pct2 q).1
        (Stage3.build_layers_graph dist g s t pct2 q).2.1
        (Stage3.build_layers_graph dist g s t pct2 q).2.2 = some p2 ∧
      (Stage3.build_layers_graph dist g s t pct2 q).1.pathLength id p2
        ≤ (Stage3.build_layers_graph dist g s t pct1 q).1.pathLength id p1 := by
  have hmax2 : 0 ≤ dist s t * pct2 := le_trans hmax1 hM
  have hf1 : (0 : ℤ) ≤ ⌊dist s t * pct1 / q⌋ :=
    Int.floor_nonneg.2 (div_nonneg hmax1 (le_of_lt hq))
  have hf2 : (0 : ℤ) ≤ ⌊dist s t * pct2 / q⌋ :=
    Int.floor_nonneg.2 (div_nonneg hmax2 (le_of_lt hq))
  have hff : ⌊dist s t * pct1 / q⌋ ≤ ⌊dist s t * pct2 / q⌋ := by
    apply Int.floor_le_floor
    gcongr
  obtain ⟨hh1, hl1, hw1, hnd1⟩ := Graph.shortest_path_sound h1
  have htop1 : (qMultiples (dist s t * pct1) q).getLastD 0
      = q * ((Int.toNat ⌊dist s t * pct1 / q⌋ : ℕ) : ℚ) := by
    rw [qMultiples_getLastD hmax1 hq]
    congr 1
    exact_mod_cast (Int.toNat_of_nonneg hf1).symm
  have htop2 : (qMultiples (dist s t * pct2) q).getLastD 0
      = q * ((Int.toNat ⌊dist s t * pct2 / q⌋ : ℕ) : ℚ) := by
    rw [qMultiples_getLastD hmax2 hq]
    congr 1
    exact_mod_cast (Int.toNat_of_nonneg hf2).symm
  have hne1 : p1 ≠ [] := by
    intro hc
    rw [hc] at hh1
    cases hh1
  have hB122 : (Stage3.build_layers_graph dist g s t pct1 q).2.2
      = (t, q * ((Int.toNat ⌊dist s t * pct1 / q⌋ : ℕ) : ℚ)) := by
    show (t, (qMultiples (dist s t * pct1) q).getLastD 0) = _
    rw [htop1]
  have hlast1 : p1.getLast? =
      some (t, q * ((Int.toNat ⌊dist s t * pct1 / q⌋ : ℕ) : ℚ)) := by
    rw [hl1, hB122]
  have hsplit : p1 = p1.dropLast
      ++ [(t, q * ((Int.toNat ⌊dist s t * pct1 / q⌋ : ℕ) : ℚ))] := by
    have hgl := List.getLast?_eq_getLast p1 hne1
    rw [hgl] at hlast1
    rw [← Option.some.inj hlast1]
    exact (List.dropLast_append_getLast hne1).symm
  have hcount : Int.toNat ⌊dist s t * pct1 / q⌋
      + (Int.toNat ⌊dist s t * pct2 / q⌋ - Int.toNat ⌊dist s t * pct1 / q⌋) + 1
      ≤ Int.toNat (⌊dist s t * pct2 / q⌋ + 1) := by omega
  obtain ⟨hwchain, hlenchain⟩ := @Stage3.chainPath_walk_len _ _ dist g s t pct2 q hq hKU hNS
    (Int.toNat ⌊dist s t * pct2 / q⌋ - Int.toNat ⌊dist s t * pct1 / q⌋)
    (Int.toNat ⌊dist s t * pct1 / q⌋) hcount
  obtain ⟨x, crest, hchaineq⟩ := List.exists_cons_of_ne_nil
    (Stage3.chainPath_ne_nil t q (Int.toNat ⌊dist s t * pct1 / q⌋)
      (Int.toNat ⌊dist s t * pct2 / q⌋ - Int.toNat ⌊dist s t * pct1 / q⌋))
  have hx : x = (t, q * ((Int.toNat ⌊dist s t * pct1 / q⌋ : ℕ) : ℚ)) := by
    have h := Stage3.chainPath_head t q (Int.toNat ⌊dist s t * pct1 / q⌋)
      (Int.toNat ⌊dist s t * pct2 / q⌋ - Int.toNat ⌊dist s t * pct1 / q⌋)
    rw [hchaineq] at h
    exact Option.some.inj h
  have hsub := @Stage3.build_edges_mono _ _ dist g s t pct1 pct2 q hq hKU hNS hM
  have hw1' : (Stage3.build_layers_graph dist g s t pct2 q).1.IsWalk p1 :=
    Graph.isWalk_mono hsub hw1
  have hwp : (Stage3.build_layers_graph dist g s t pct2 q).1.IsWalk
      (p1.dropLast ++ [x]) := by
    rw [hx, ← hsplit]
    exact hw1'
  have hwc : (Stage3.build_layers_graph dist g s t pct2 q).1.IsWalk
      (x :: crest) := by
    rw [← hchaineq]
    exact hwchain
  have hw2 : (Stage3.build_layers_graph dist g s t pct2 q).1.IsWalk
      (p1.dropLast ++ x :: crest) := Graph.isWalk_append_of hwp hwc
  have hpre2 : p1 <+: p1.dropLast ++ x :: crest := by
    refine ⟨crest, ?_⟩
    nth_rewrite 1 [hsplit]
    rw [hx, List.append_assoc]
    rfl
  have hh2 : (p1.dropLast ++ x :: crest).head?
      = some ((Stage3.build_layers_graph dist g s t pct2 q).2.1) := by
    rw [← Stage3.prefix_head?_eq hpre2 hne1, hh1]
    rfl
  have hl2 : (p1.dropLast ++ x :: crest).getLast?
      = some ((Stage3.build_layers_graph dist g s t pct2 q).2.2) := by
    rw [List.getLast?_append_cons, ← hchaineq, Stage3.chainPath_getLast]
    have hknat : Int.toNat ⌊dist s t * pct1 / q⌋
        + (Int.toNat ⌊dist s t * pct2 / q⌋ - Int.toNat ⌊dist s t * pct1 / q⌋)
        = Int.toNat ⌊dist s t * pct2 / q⌋ := by omega
    rw [hknat]
    show some (t, q * ((Int.toNat ⌊dist s t * pct2 / q⌋ : ℕ) : ℚ))
        = some (t, (qMultiples (dist s t * pct2) q).getLastD 0)
    rw [htop2]
  have hndd : p1.dropLast.Nodup := List.Nodup.sublist (List.dropLast_sublist p1) hnd1
  have hndc : (x :: crest).Nodup := by
    rw [← hchaineq]
    exact Stage3.chainPath_nodup hq _ _
  have hdisj : p1.dropLast.Disjoint (x :: crest) := by
    intro a ha hain
    rw [← hchaineq, Stage3.mem_chainPath] at hain
    obtain ⟨j, hj, haeq⟩ := hain
    have hamem : a ∈ p1 := (List.dropLast_sublist p1).subset ha
    have hs1 : (Stage3.build_layers_graph dist g s t pct1 q).2.1
        ∈ (Stage3.build_layers_graph dist g s t pct1 q).1.nodes := by
      show (s, (0 : ℚ)) ∈ _
      exact Stage3.mem_nodes_build hs (zero_mem_qMultiples hmax1 hq)
    have hanodes := Graph.walk_subset_nodes
      (Stage3.build_edgesInNodes dist g s t pct1 q) hw1 hh1 hs1 a hamem
    have hlay := (Stage3.build_nodes_spec hq hpos hE ht a hanodes).2
    rw [mem_qMultiples hq] at hlay
    obtain ⟨m, hm1, hm2⟩ := hlay
    have hle : q * ((Int.toNat ⌊dist s t * pct1 / q⌋ + j : ℕ) : ℚ)
        ≤ dist s t * pct1 := by
      rw [← show a.2 = q * ((Int.toNat ⌊dist s t * pct1 / q⌋ + j : ℕ) : ℚ)
        from by rw [haeq]]
      exact hm2
    have hdivle : ((Int.toNat ⌊dist s t * pct1 / q⌋ + j : ℕ) : ℚ)
        ≤ dist s t * pct1 / q := by
      rw [le_div_iff₀ hq]
      calc ((Int.toNat ⌊dist s t * pct1 / q⌋ + j : ℕ) : ℚ) * q
          = q * ((Int.toNat ⌊dist s t * pct1 / q⌋ + j : ℕ) : ℚ) := by ring
        _ ≤ dist s t * pct1 := hle
    have hfloor : ((Int.toNat ⌊dist s t * pct1 / q⌋ + j : ℕ) : ℤ)
        ≤ ⌊dist s t * pct1 / q⌋ := by
      rw [Int.le_floor]
      exact_mod_cast hdivle
    have hj0 : j = 0 := by omega
    subst hj0
    have haeq' : a = (t, q * ((Int.toNat ⌊dist s t * pct1 / q⌋ : ℕ) : ℚ)) := by
      rw [haeq]
      norm_num
    have hdisj1 := List.disjoint_of_nodup_append (hsplit ▸ hnd1)
    exact hdisj1 ha (by rw [haeq']; exact List.mem_singleton_self _)
  have hnd2 : (p1.dropLast ++ x :: crest).Nodup := List.Nodup.append hndd hndc hdisj
  have hs2 : (Stage3.build_layers_graph dist g s t pct2 q).2.1
      ∈ (Stage3.build_layers_graph dist g s t pct2 q).1.nodes := by
    show (s, (0 : ℚ)) ∈ _
    exact Stage3.mem_nodes_build hs (zero_mem_qMultiples hmax2 hq)
  obtain ⟨p2, hp2, hp2len⟩ := Graph.shortest_path_min (w := id)
    (Stage3.build_edgesInNodes dist g s t pct2 q) hs2 hw2 hh2 hl2 hnd2
  refine ⟨p2, hp2, ?_⟩
  have hplen : (Stage3.build_layers_graph dist g s t pct2 q).1.pathLength id
      (p1.dropLast ++ x :: crest)
      = (Stage3.build_layers_graph dist g s t pct1 q).1.pathLength id p1 := by
    rw [Graph.pathLength_append]
    have hA : (Stage3.build_layers_graph dist g s t pct2 q).1.pathLength id
        (p1.dropLast ++ [x])
        = (Stage3.build_layers_graph dist g s t pct1 q).1.pathLength id p1 := by
      rw [hx, ← hsplit]
      exact Graph.pathLength_congr_sub
        (Stage3.build_keysUnique dist g s t pct1 q)
        (Stage3.build_keysUnique dist g s t pct2 q) hsub hw1
    have hB : (Stage3.build_layers_graph dist g s t pct2 q).1.pathLength id
        (x :: crest) = 0 := by
      rw [← hchaineq]
      exact hlenchain
    rw [hA, hB]
    ring
  rw [hplen] at hp2len
  exact hp2len

/-- Witness for C7 at a concrete input: one-node base graph over natural
numbers, source and target 0, both budget percentages 0, quantum 1. -/
theorem claim_C7_witness :
    ∃ p2 : List (ℕ × ℚ),
      Graph.shortest_path id
        (Stage3.build_layers_graph (fun _ _ => (0 : ℚ))
          (Graph.empty.addNode 0) 0 0 0 1).1
        (Stage3.build_layers_graph (fun _ _ => (0 : ℚ))
          (Graph.empty.addNode 0) 0 0 0 1).2.1
        (Stage3.build_layers_graph (fun _ _ => (0 : ℚ))
          (Graph.empty.addNode 0) 0 0 0 1).2.2 = some p2 ∧
      (Stage3.build_layers_graph (fun _ _ => (0 : ℚ))
        (Graph.empty.addNode 0) 0 0 0 1).1.pathLength id p2
        ≤ (Stage3.build_layers_graph (fun _ _ => (0 : ℚ))
          (Graph.empty.addNode 0) 0 0 0 1).1.pathLength id
            [((0 : ℕ), (0 : ℚ))] := by
  have hq : (0 : ℚ) < 1 := by norm_num
  have hKU : Graph.KeysUnique (Graph.empty.addNode (0 : ℕ)
      : Graph ℕ (ℚ × Bool)).edges := List.nodup_nil
  have hNS : ∀ e ∈ (Graph.empty.addNode (0 : ℕ) : Graph ℕ (ℚ × Bool)).edges,
      e.1 ≠ e.2.1 := by
    intro e he
    cases he
  have hpos : ∀ e ∈ (Graph.empty.addNode (0 : ℕ) : Graph ℕ (ℚ × Bool)).edges,
      0 ≤ e.2.2.1 := by
    intro e he
    cases he
  have hE : (Graph.empty.addNode (0 : ℕ) : Graph ℕ (ℚ × Bool)).EdgesInNodes := by
    intro e he
    cases he
  have hs : (0 : ℕ) ∈ (Graph.empty.addNode (0 : ℕ)
      : Graph ℕ (ℚ × Bool)).nodes := by decide
  have hb : (0 : ℚ) ≤ (fun (_ _ : ℕ) => (0 : ℚ)) 0 0 * 0 := by norm_num
  have hmem : ((0 : ℕ), (0 : ℚ)) ∈ (Stage3.build_layers_graph
      (fun _ _ => (0 : ℚ)) (Graph.empty.addNode 0) 0 0 0 1).1.nodes :=
    Stage3.mem_nodes_build hs (zero_mem_qMultiples hb hq)
  have htop : (qMultiples ((fun (_ _ : ℕ) => (0 : ℚ)) 0 0 * 0)
      1).getLastD 0 = 0 := by
    rw [qMultiples_getLastD hb hq]
    norm_num
  have hB22 : (Stage3.build_layers_graph (fun _ _ => (0 : ℚ))
      (Graph.empty.addNode 0) 0 0 0 1).2.2 = ((0 : ℕ), (0 : ℚ)) := by
    show ((0 : ℕ), (qMultiples ((fun (_ _ : ℕ) => (0 : ℚ)) 0 0 * 0) 1).getLastD 0)
        = ((0 : ℕ), (0 : ℚ))
    rw [htop]
  have h1 : Graph.shortest_path id
      (Stage3.build_layers_graph (fun _ _ => (0 : ℚ))
        (Graph.empty.addNode 0) 0 0 0 1).1
      (Stage3.build_layers_graph (fun _ _ => (0 : ℚ))
        (Graph.empty.addNode 0) 0 0 0 1).2.1
      (Stage3.build_layers_graph (fun _ _ => (0 : ℚ))
        (Graph.empty.addNode 0) 0 0 0 1).2.2 = some [((0 : ℕ), (0 : ℚ))] := by
    rw [hB22]
    exact Graph.shortest_path_self (w := id) (List.ne_nil_of_mem hmem)
  exact claim_C7_budget_monotone (fun _ _ => (0 : ℚ)) (Graph.empty.addNode 0)
    0 0 0 0 1 hq hKU hNS hpos hE hs hs (by norm_num) (by norm_num) h1

namespace Geometry

open Real

theorem Coordinate.distance_to_eq_zero_iff (a b : Coordinate) :
    a.distance_to b = 0 ↔ b.x = a.x ∧ b.y = a.y := by
  unfold Coordinate.distance_to
  constructor
  · intro h
    have hs : (b.x - a.x) ^ 2 + (b.y - a.y) ^ 2 = 0 :=
      (Real.sqrt_eq_zero (by positivity)).1 h
    constructor
    · have h1 : (b.x - a.x) ^ 2 = 0 := by
        nlinarith [sq_nonneg (b.x - a.x), sq_nonneg (b.y - a.y)]
      have h2 : b.x - a.x = 0 := sq_eq_zero_iff.1 h1
      linarith
    · have h1 : (b.y - a.y) ^ 2 = 0 := by
        nlinarith [sq_nonneg (b.x - a.x), sq_nonneg (b.y - a.y)]
      have h2 : b.y - a.y = 0 := sq_eq_zero_iff.1 h1
      linarith
  · rintro ⟨h1, h2⟩
    rw [h1, h2]
    simp

theorem interSet_subsingleton_iff (rad : Radar) (s e : Coordinate) :
    (tHi rad s e - tLo rad s e) * s.distance_to e = 0 ↔
      (interSet rad s e).Subsingleton := by
  constructor
  · intro h
    rcases mul_eq_zero.1 h with h0 | hd
    · have hth : tHi rad s e = tLo rad s e := sub_eq_zero.1 h0
      rintro p ⟨t1, ht1, rfl⟩ p' ⟨t2, ht2, rfl⟩
      have hbb : BddBelow (paramSet rad s e) :=
        BddBelow.mono (fun t ht => ht.1) bddBelow_Icc
      have hba : BddAbove (paramSet rad s e) :=
        BddAbove.mono (fun t ht => ht.1) bddAbove_Icc
      have h1l : tLo rad s e ≤ t1 := csInf_le hbb ht1
      have h1u : t1 ≤ tHi rad s e := le_csSup hba ht1
      have h2l : tLo rad s e ≤ t2 := csInf_le hbb ht2
      have h2u : t2 ≤ tHi rad s e := le_csSup hba ht2
      have ht12 : t1 = t2 := by linarith
      rw [ht12]
    · have hcomp := (Coordinate.distance_to_eq_zero_iff s e).1 hd
      rintro p ⟨t1, _, rfl⟩ p' ⟨t2, _, rfl⟩
      unfold segPoint
      rw [hcomp.1, hcomp.2]
      simp
  · intro h
    by_cases hd : s.distance_to e = 0
    · rw [hd, mul_zero]
    · have hcomp : ¬ (e.x = s.x ∧ e.y = s.y) := fun hc =>
        hd ((Coordinate.distance_to_eq_zero_iff s e).2 hc)
      by_cases hne : (paramSet rad s e).Nonempty
      · obtain ⟨t0, ht0⟩ := hne
        have huniq : ∀ t1 ∈ paramSet rad s e, t1 = t0 := by
          intro t1 ht1
          have himg := h (Set.mem_image_of_mem _ ht1) (Set.mem_image_of_mem _ ht0)
          have hx1 : t1 * (e.x - s.x) = t0 * (e.x - s.x) := by
            have hx : s.x + t1 * (e.x - s.x) = s.x + t0 * (e.x - s.x) :=
              congrArg Coordinate.x himg
            linarith
          have hy1 : t1 * (e.y - s.y) = t0 * (e.y - s.y) := by
            have hy : s.y + t1 * (e.y - s.y) = s.y + t0 * (e.y - s.y) :=
              congrArg Coordinate.y himg
            linarith
          have hx2 : (t1 - t0) * (e.x - s.x) = 0 := by
            rw [sub_mul, hx1, sub_self]
          have hy2 : (t1 - t0) * (e.y - s.y) = 0 := by
            rw [sub_mul, hy1, sub_self]
          rcases mul_eq_zero.1 hx2 with hT | hX
          · linarith [sub_eq_zero.1 hT]
          · rcases mul_eq_zero.1 hy2 with hT | hY
            · linarith [sub_eq_zero.1 hT]
            · exact absurd ⟨sub_eq_zero.1 hX, sub_eq_zero.1 hY⟩ hcomp
        have hset : paramSet rad s e = {t0} :=
          Set.eq_singleton_iff_unique_mem.2 ⟨ht0, huniq⟩
        unfold tHi tLo
        rw [hset, csSup_singleton, csInf_singleton, sub_self, zero_mul]
      · have hset : paramSet rad s e = ∅ := Set.not_nonempty_iff_eq_empty.1 hne
        unfold tHi tLo
        rw [hset, Real.sSup_empty, Real.sInf_empty, sub_self, zero_mul]

theorem Radar.is_legal_leg_iff_of_ne (rad : Radar) (s e : Coordinate)
    (h : (tHi rad s e - tLo rad s e) * s.distance_to e ≠ 0) :
    rad.is_legal_leg s e ↔
      ∀ p ∈ [segPoint s e (tLo rad s e), segPoint s e (tHi rad s e)],
        ¬ compute_direction_diff
            ((segPoint s e (tLo rad s e)).direction_to
              (segPoint s e (tHi rad s e)))
            (p.direction_to rad.center) < π / 4 := by
  unfold Radar.is_legal_leg
  rw [if_neg h]

theorem compute_direction_diff_mem_Icc (d1 d2 : ℝ) :
    compute_direction_diff d1 d2 ∈ Set.Icc 0 (π / 2) := by
  have hpi := Real.pi_pos
  have hm : (0 : ℝ) < 2 * π := by linarith
  have hfl : 2 * π * (⌊(d1 - d2) / (2 * π)⌋ : ℤ) ≤ d1 - d2 := by
    have h := Int.floor_le ((d1 - d2) / (2 * π))
    calc 2 * π * (⌊(d1 - d2) / (2 * π)⌋ : ℤ)
        ≤ 2 * π * ((d1 - d2) / (2 * π)) :=
          mul_le_mul_of_nonneg_left h (le_of_lt hm)
      _ = d1 - d2 := by field_simp
  have hfu : d1 - d2 < 2 * π * ((⌊(d1 - d2) / (2 * π)⌋ : ℤ) + 1) := by
    have h := Int.lt_floor_add_one ((d1 - d2) / (2 * π))
    calc d1 - d2 = 2 * π * ((d1 - d2) / (2 * π)) := by field_simp
      _ < 2 * π * ((⌊(d1 - d2) / (2 * π)⌋ : ℤ) + 1) :=
          mul_lt_mul_of_pos_left h hm
  have h1 : 0 ≤ floatModR (d1 - d2) (2 * π) := by
    unfold floatModR
    linarith
  have h2 : floatModR (d1 - d2) (2 * π) < 2 * π := by
    unfold floatModR
    have hx : 2 * π * ((⌊(d1 - d2) / (2 * π)⌋ : ℤ) + 1)
        = 2 * π * (⌊(d1 - d2) / (2 * π)⌋ : ℤ) + 2 * π := by ring
    linarith [hfu]
  rw [Set.mem_Icc]
  unfold compute_direction_diff
  dsimp only
  split_ifs with ha hb hc
  · exact ⟨h1, ha⟩
  · push_neg at ha
    constructor <;> linarith
  · push_neg at ha hb
    constructor <;> linarith
  · push_neg at ha hb hc
    constructor <;> linarith

end Geometry

/-- C3: Radar.is_legal_leg is true whenever the intersection of the leg with
the radar's full circle has zero length (a subsingleton point set); when the
clipped sub-segment is nondegenerate, the leg is illegal exactly when one of
the two intersection endpoints sees the radar center at a folded angular
difference below 45 degrees from the travel bearing; and the quadrant
folding always lands in the interval from 0 to 90 degrees. -/
theorem claim_C3_radar_is_legal_leg (rad : Geometry.Radar)
    (s e : Geometry.Coordinate) :
    ((Geometry.interSet rad s e).Subsingleton → rad.is_legal_leg s e)
    ∧ (¬ (Geometry.interSet rad s e).Subsingleton →
        (¬ rad.is_legal_leg s e ↔
          ∃ p ∈ [Geometry.segPoint s e (Geometry.tLo rad s e),
              Geometry.segPoint s e (Geometry.tHi rad s e)],
            Geometry.compute_direction_diff
              ((Geometry.segPoint s e (Geometry.tLo rad s e)).direction_to
                (Geometry.segPoint s e (Geometry.tHi rad s e)))
              (p.direction_to rad.center) < Real.pi / 4))
    ∧ (∀ d1 d2 : ℝ, Geometry.compute_direction_diff d1 d2
        ∈ Set.Icc 0 (Real.pi / 2)) := by
  refine ⟨?_, ?_, Geometry.compute_direction_diff_mem_Icc⟩
  · intro hss
    have hzero := (Geometry.interSet_subsingleton_iff rad s e).2 hss
    unfold Geometry.Radar.is_legal_leg
    rw [if_pos hzero]
    trivial
  · intro hns
    have hzero : ¬ ((Geometry.tHi rad s e - Geometry.tLo rad s e)
        * s.distance_to e = 0) :=
      fun hc => hns ((Geometry.interSet_subsingleton_iff rad s e).1 hc)
    rw [Geometry.Radar.is_legal_leg_iff_of_ne rad s e hzero]
    constructor
    · intro h
      push_neg at h
      exact h
    · intro h hall
      obtain ⟨p, hp, hlt⟩ := h
      exact hall p hp hlt
